import Mathlib

/-!
# MdtModelView : row ranges, row range lists and row list views

Shallow embedding of `Mdt::ItemModel::RowRange`, the algorithms of
`RowRangeListAlgorithm.h`, `RowRangeList::addRange`, `RowSelection::fromItemSelection`
and the two row list view iterators, followed by the properties proved about them.

Conventions of the embedding:

* a C++ `int` is a Lean `Int`; the arithmetic of the algorithms (`firstRow() - 1`,
  `std::min`, `std::max`) is exact on valid ranges, the cursor arithmetic of the
  iterators is checked against the bounds of `int`;
* a `std::vector<RowRange>` is a `List RowRange`, an iterator into it is the index
  of the element it refers to (`end()` is the length of the list);
* a pair of iterators `[first, last)` handed to an algorithm is the list of the
  elements of that sub-range, positions inside it are counted from `first`;
* a failed `assert`, a dereference outside of the container and a signed overflow
  make a function return `none`.
-/

namespace Mdt.ItemModel

/-! ## RowRange.h -/

/-- Largest value of the 32 bit C++ type int, as given by intMax() in NumericLimits.h. -/
def intMax : Int := 2147483647

/-- Smallest value of the 32 bit C++ type int. -/
def intMin : Int := -2147483648

/-- A range of contiguous rows: only the first and the last row are stored. -/
structure RowRange where
  firstRow : Int
  lastRow : Int
deriving DecidableEq, Repr

/-- Model of the C assert: `none` when the condition does not hold. -/
def cassert (c : Bool) : Option Unit :=
  if c then some () else none

/-- Check if given first and last row represents a valid range of rows. -/
def RowRange.firstAndLastRowIsValidRange (firstRow lastRow : Int) : Bool :=
  if firstRow < 0 then false
  else if lastRow < 0 then false
  else if firstRow > lastRow then false
  else true

/-- Construct a row range from given first and last row (asserts that they are valid). -/
def RowRange.fromFirstAndLastRow (firstRow lastRow : Int) : Option RowRange := do
  cassert (RowRange.firstAndLastRowIsValidRange firstRow lastRow)
  some ⟨firstRow, lastRow⟩

/-! ## RowRangeListAlgorithm.h -/

/-- Check if range a comes before range b. -/
def rangeAcomesBeforeB (a b : RowRange) : Bool :=
  if a.firstRow = b.firstRow then decide (a.lastRow < b.lastRow)
  else decide (a.firstRow < b.firstRow)

/-- Model of std::is_sorted: no element is followed by one that compares less than it. -/
def stdIsSorted {α : Type} (comp : α → α → Bool) : List α → Bool
  | [] => true
  | [_] => true
  | a :: b :: rest => if comp b a then false else stdIsSorted comp (b :: rest)

/-- Check if a collection of ranges is sorted. -/
def isSorted (l : List RowRange) : Bool :=
  stdIsSorted rangeAcomesBeforeB l

/-- Check if given ranges are adjacent. -/
def rangesAreAdjacent (a b : RowRange) : Bool :=
  if (b.firstRow - 1) = a.lastRow then true
  else if (a.firstRow - 1) = b.lastRow then true
  else false

/-- Check if given ranges overlaps. -/
def rangesOverlaps (a b : RowRange) : Bool :=
  if rangeAcomesBeforeB a b then decide (b.firstRow ≤ a.lastRow)
  else decide (a.firstRow ≤ b.lastRow)

/-- Check if given ranges should be merged. -/
def rangesShouldBeMerged (a b : RowRange) : Bool :=
  if rangesAreAdjacent a b then true
  else if rangesOverlaps a b then true
  else false

/-- Create a range that is the result of merging given ranges (two ranges). -/
def mergeRanges (a b : RowRange) : Option RowRange := do
  cassert (rangesShouldBeMerged a b)
  let firstRow := min a.firstRow b.firstRow
  let lastRow := max a.lastRow b.lastRow
  RowRange.fromFirstAndLastRow firstRow lastRow

/-- Create a range that is the result of merging given ranges (three ranges). -/
def mergeRanges3 (a b c : RowRange) : Option RowRange :=
  let firstRow := min (min a.firstRow b.firstRow) c.firstRow
  let lastRow := max (max a.lastRow b.lastRow) c.lastRow
  RowRange.fromFirstAndLastRow firstRow lastRow

/-- Model of std::adjacent_find: position of the first element that satisfies the
predicate together with its successor, the length of the list when there is none. -/
def stdAdjacentFind {α : Type} (p : α → α → Bool) : List α → Nat
  | [] => 0
  | [_] => 1
  | a :: b :: rest => if p a b then 0 else 1 + stdAdjacentFind p (b :: rest)

/-- Check if each consecutive element in given collection are not mergeable. -/
def elementsAreNotMergeable (l : List RowRange) : Option Bool := do
  cassert (isSorted l)
  some (stdAdjacentFind rangesShouldBeMerged l == l.length)

/-- Find the potential insertion point for given range in given collection
(std::find_if: position of the first element the range comes before, else the end). -/
def findPotentialInsertionPoint (l : List RowRange) (range : RowRange) : Nat :=
  l.findIdx (fun currentRange => rangeAcomesBeforeB range currentRange)

/-- Find the first element to merge in a sorted collection, around the insertion point. -/
def findFirstElementToMerge (l : List RowRange) (insertPoint : Nat) (range : RowRange) :
    Option Nat := do
  cassert (0 != l.length)
  cassert (isSorted l)
  let it := if insertPoint != 0 then insertPoint - 1 else insertPoint
  cassert (it != l.length)
  let e ← l[it]?
  if rangesShouldBeMerged e range then some it
  else
    let it := it + 1
    if it != l.length then do
      let e ← l[it]?
      if rangesShouldBeMerged e range then some it else some l.length
    else some l.length

/-- Find the last element to merge in a sorted collection whose first element is to
be merged: std::find_if_not from the second element on, minus one. -/
def findLastElementToMerge (l : List RowRange) (range : RowRange) : Option Nat := do
  cassert (0 != l.length)
  let e ← l[0]?
  cassert (rangesShouldBeMerged e range)
  cassert (isSorted l)
  let lastElementIt :=
    (1 + (l.drop 1).findIdx (fun current => !(rangesShouldBeMerged current range))) - 1
  cassert (lastElementIt != l.length)
  some lastElementIt

/-- Loop of std::move: n elements, from position first on, are assigned one after the
other to the positions from dFirst on; returns the container and the position after the
last element written. -/
def stdMoveLoop {α : Type} : Nat → List α → Nat → Nat → List α × Nat
  | 0, l, _, dFirst => (l, dFirst)
  | n + 1, l, first, dFirst =>
    match l[first]? with
    | none => (l, dFirst)
    | some x => stdMoveLoop n (l.set dFirst x) (first + 1) (dFirst + 1)

/-- Model of std::move(first, last, dFirst) inside one container: the elements of
[first, last) are assigned, in order, to the positions starting at dFirst; returns the
container and the position after the last element written. -/
def stdMove {α : Type} (l : List α) (first last dFirst : Nat) : List α × Nat :=
  stdMoveLoop (last - first) l first dFirst

/-- Merge ranges in a sorted collection: the first element is replaced by the merge
of the run of elements to merge with the range, the elements after the run are
shifted to follow it. Returns the container and the position just past the last
element that is still valid. -/
def mergeRangesUntil (l : List RowRange) (range : RowRange) :
    Option (List RowRange × Nat) := do
  cassert (0 != l.length)
  cassert (isSorted l)
  cassert (← elementsAreNotMergeable l)
  let first ← l[0]?
  cassert (rangesShouldBeMerged first range)
  let lastElementIt ← findLastElementToMerge l range
  if lastElementIt = 0 then do
    let merged ← mergeRanges first range
    some (l.set 0 merged, l.length)
  else do
    let lastElement ← l[lastElementIt]?
    let merged ← mergeRanges3 first lastElement range
    let l1 := l.set 0 merged
    some (stdMove l1 (lastElementIt + 1) l1.length 1)

/-! ## RowRangeList.cpp -/

/-- Add a range to the list held by a RowRangeList (member mList). -/
def RowRangeList.addRange (mList : List RowRange) (range : RowRange) :
    Option (List RowRange) :=
  if mList.isEmpty then some (mList ++ [range])
  else do
    let insertPoint := findPotentialInsertionPoint mList range
    let firstToMergePoint ← findFirstElementToMerge mList insertPoint range
    let mList1 ←
      if firstToMergePoint = mList.length then
        some (mList.take insertPoint ++ range :: mList.drop insertPoint)
      else do
        let (tail1, e) ← mergeRangesUntil (mList.drop firstToMergePoint) range
        some (mList.take firstToMergePoint ++ tail1.take e)
    cassert (isSorted mList1)
    cassert (← elementsAreNotMergeable mList1)
    some mList1

/-! ## RowSelectionHelpers.cpp, RowSelection.cpp -/

/-- The part of a QItemSelectionRange (Qt) that the library reads: the rows and the
columns of its top left and bottom right corners. -/
structure QItemSelectionRange where
  top : Int
  left : Int
  bottom : Int
  right : Int
deriving DecidableEq, Repr

/-- Get a row range from given item selection range. The two assertions are made on
QItemSelectionRange::isValid() and QItemSelectionRange::isEmpty(), which belong to Qt:
they are parameters here. -/
def rowRangeFromItemSelectionRange (qtIsValid qtIsEmpty : QItemSelectionRange → Bool)
    (itemSelectionRange : QItemSelectionRange) : Option RowRange := do
  cassert (qtIsValid itemSelectionRange)
  cassert (!(qtIsEmpty itemSelectionRange))
  RowRange.fromFirstAndLastRow itemSelectionRange.top itemSelectionRange.bottom

/-- Body of the range-for loop of RowSelection::fromItemSelection, from given state of
the member mRowRangeList on. -/
def RowSelection.fromItemSelectionLoop (qtIsValid qtIsEmpty : QItemSelectionRange → Bool) :
    List RowRange → List QItemSelectionRange → Option (List RowRange)
  | mRowRangeList, [] => some mRowRangeList
  | mRowRangeList, itemRange :: rest => do
    let range ← rowRangeFromItemSelectionRange qtIsValid qtIsEmpty itemRange
    let mRowRangeList1 ← RowRangeList.addRange mRowRangeList range
    RowSelection.fromItemSelectionLoop qtIsValid qtIsEmpty mRowRangeList1 rest

/-- Build a row selection (its list of row ranges) from an item selection. -/
def RowSelection.fromItemSelection (qtIsValid qtIsEmpty : QItemSelectionRange → Bool)
    (itemSelection : List QItemSelectionRange) : Option (List RowRange) :=
  RowSelection.fromItemSelectionLoop qtIsValid qtIsEmpty [] itemSelection

/-! ## RowListViewConstIterator.h, RowListView.h -/

/-- Forward row cursor: the current row (negative: not yet set) and the position in
the list of ranges. -/
structure RowListViewConstIterator where
  mCurrentRow : Int
  mRowRangeListIterator : Nat
deriving DecidableEq, Repr

/-- Construct a row list iterator that references given range list iterator. -/
def RowListViewConstIterator.mk1 (it : Nat) : RowListViewConstIterator :=
  ⟨-1, it⟩

/-- Get the current row: operator* of the forward cursor. -/
def RowListViewConstIterator.deref (l : List RowRange) (it : RowListViewConstIterator) :
    Option Int :=
  if it.mCurrentRow < 0 then do
    let r ← l[it.mRowRangeListIterator]?
    some r.firstRow
  else some it.mCurrentRow

/-- Increment the forward cursor: operator++ (pre-increment). The increment of the row
is checked against the largest int. -/
def RowListViewConstIterator.increment (l : List RowRange) (it : RowListViewConstIterator) :
    Option RowListViewConstIterator := do
  let r ← l[it.mRowRangeListIterator]?
  let mCurrentRow := if it.mCurrentRow < 0 then r.firstRow else it.mCurrentRow
  if mCurrentRow = r.lastRow then
    some ⟨-1, it.mRowRangeListIterator + 1⟩
  else do
    cassert (decide (mCurrentRow + 1 ≤ intMax))
    some ⟨mCurrentRow + 1, it.mRowRangeListIterator⟩

/-- Check if two forward cursors are equal: operator==. -/
def RowListViewConstIterator.eq (a b : RowListViewConstIterator) : Bool :=
  (a.mRowRangeListIterator == b.mRowRangeListIterator) && (a.mCurrentRow == b.mCurrentRow)

/-- First cursor of a RowListView: member mBegin, made from cbegin() of the list. -/
def RowListView.cbegin (_l : List RowRange) : RowListViewConstIterator :=
  RowListViewConstIterator.mk1 0

/-- Past the end cursor of a RowListView: member mEnd, made from cend() of the list. -/
def RowListView.cend (l : List RowRange) : RowListViewConstIterator :=
  RowListViewConstIterator.mk1 l.length

/-- The loop `while(first != last){ out.push_back(*first); ++first; }` over forward
cursors; the fuel bounds the number of times the body is run. -/
def RowListView.collect (l : List RowRange) :
    Nat → RowListViewConstIterator → RowListViewConstIterator → Option (List Int)
  | fuel, first, last =>
    if RowListViewConstIterator.eq first last then some []
    else
      match fuel with
      | 0 => none
      | fuel1 + 1 => do
        let row ← RowListViewConstIterator.deref l first
        let next ← RowListViewConstIterator.increment l first
        let rest ← RowListView.collect l fuel1 next last
        some (row :: rest)

/-- The rows produced by iterating a RowListView from cbegin() to cend(). -/
def RowListView.rows (fuel : Nat) (l : List RowRange) : Option (List Int) :=
  RowListView.collect l fuel (RowListView.cbegin l) (RowListView.cend l)

/-! ## ReverseRowListViewConstIterator.h, ReverseRowListView.h -/

/-- Reverse row cursor: the current row (negative: not yet set) and a
std::reverse_iterator into the list of ranges, held as the position of its base
iterator (it refers to the element just before its base). -/
structure ReverseRowListViewConstIterator where
  mCurrentRow : Int
  mRowRangeListIterator : Nat
deriving DecidableEq, Repr

/-- Construct a reverse row list iterator that references given reverse iterator. -/
def ReverseRowListViewConstIterator.mk1 (it : Nat) : ReverseRowListViewConstIterator :=
  ⟨-1, it⟩

/-- Dereference a std::reverse_iterator: the element before its base. -/
def reverseIteratorDeref (l : List RowRange) (base : Nat) : Option RowRange :=
  if base = 0 then none else l[base - 1]?

/-- Get the current row: operator* of the reverse cursor. -/
def ReverseRowListViewConstIterator.deref (l : List RowRange)
    (it : ReverseRowListViewConstIterator) : Option Int :=
  if it.mCurrentRow < 0 then do
    let r ← reverseIteratorDeref l it.mRowRangeListIterator
    some r.lastRow
  else some it.mCurrentRow

/-- Increment the reverse cursor: operator++ (pre-increment). The decrement of the row
is checked against the smallest int. -/
def ReverseRowListViewConstIterator.increment (l : List RowRange)
    (it : ReverseRowListViewConstIterator) : Option ReverseRowListViewConstIterator := do
  let r ← reverseIteratorDeref l it.mRowRangeListIterator
  let mCurrentRow := if it.mCurrentRow < 0 then r.lastRow else it.mCurrentRow
  if mCurrentRow = r.firstRow then
    some ⟨-1, it.mRowRangeListIterator - 1⟩
  else do
    cassert (decide (intMin ≤ mCurrentRow - 1))
    some ⟨mCurrentRow - 1, it.mRowRangeListIterator⟩

/-- Check if two reverse cursors are equal: operator==. -/
def ReverseRowListViewConstIterator.eq (a b : ReverseRowListViewConstIterator) : Bool :=
  (a.mRowRangeListIterator == b.mRowRangeListIterator) && (a.mCurrentRow == b.mCurrentRow)

/-- First cursor of a ReverseRowListView: member mBegin, made from crbegin(). -/
def ReverseRowListView.cbegin (l : List RowRange) : ReverseRowListViewConstIterator :=
  ReverseRowListViewConstIterator.mk1 l.length

/-- Past the end cursor of a ReverseRowListView: member mEnd, made from crend(). -/
def ReverseRowListView.cend (_l : List RowRange) : ReverseRowListViewConstIterator :=
  ReverseRowListViewConstIterator.mk1 0

/-- The loop `while(first != last){ out.push_back(*first); ++first; }` over reverse
cursors; the fuel bounds the number of times the body is run. -/
def ReverseRowListView.collect (l : List RowRange) :
    Nat → ReverseRowListViewConstIterator → ReverseRowListViewConstIterator →
      Option (List Int)
  | fuel, first, last =>
    if ReverseRowListViewConstIterator.eq first last then some []
    else
      match fuel with
      | 0 => none
      | fuel1 + 1 => do
        let row ← ReverseRowListViewConstIterator.deref l first
        let next ← ReverseRowListViewConstIterator.increment l first
        let rest ← ReverseRowListView.collect l fuel1 next last
        some (row :: rest)

/-- The rows produced by iterating a ReverseRowListView from cbegin() to cend(). -/
def ReverseRowListView.rows (fuel : Nat) (l : List RowRange) : Option (List Int) :=
  ReverseRowListView.collect l fuel (ReverseRowListView.cbegin l) (ReverseRowListView.cend l)

/-! ## Vocabulary of the properties -/

/-- A valid range of rows: what RowRange::fromFirstAndLastRow accepts. -/
def RowRange.isValid (r : RowRange) : Prop :=
  RowRange.firstAndLastRowIsValidRange r.firstRow r.lastRow = true

/-- Row x is one of the rows of range r. -/
def RowRange.contains (r : RowRange) (x : Int) : Prop :=
  r.firstRow ≤ x ∧ x ≤ r.lastRow

/-- Row x is covered by the list: it is a row of one of its ranges. -/
def covers (l : List RowRange) (x : Int) : Prop :=
  ∃ r ∈ l, r.contains x

/-- The n consecutive rows first, first+1, ... -/
def rowsFrom (first : Int) : Nat → List Int
  | 0 => []
  | n + 1 => first :: rowsFrom (first + 1) n

/-- Number of rows of a range, as a natural number. -/
def RowRange.size (r : RowRange) : Nat :=
  (r.lastRow - r.firstRow + 1).toNat

/-- The rows firstRow, firstRow+1, ..., lastRow of a range. -/
def RowRange.rows (r : RowRange) : List Int :=
  rowsFrom r.firstRow r.size

/-- Total number of rows of the ranges of a list (counted with repetition). -/
def totalRows (l : List RowRange) : Nat :=
  (l.map RowRange.size).sum

/-- The unit range [x,x]. -/
def unitRange (x : Int) : RowRange := ⟨x, x⟩

/-- Repeated addRange, from given list on. -/
def addRanges : List RowRange → List RowRange → Option (List RowRange)
  | mList, [] => some mList
  | mList, range :: rest => do
    let mList1 ← RowRangeList.addRange mList range
    addRanges mList1 rest

/-- Both rows of the range are values of the C++ type int. -/
def RowRange.fitsInt (r : RowRange) : Prop :=
  intMin ≤ r.firstRow ∧ r.firstRow ≤ intMax ∧ intMin ≤ r.lastRow ∧ r.lastRow ≤ intMax

/-- All ranges of the list hold values of the C++ type int. -/
def allFitInt (l : List RowRange) : Prop :=
  ∀ r ∈ l, r.fitsInt

/-- The n consecutive rows last, last-1, ... in descending order. -/
def rowsDownFrom (last : Int) : Nat → List Int
  | 0 => []
  | n + 1 => last :: rowsDownFrom (last - 1) n

/-- The rows lastRow, lastRow-1, ..., firstRow of a range, in descending order. -/
def RowRange.rowsDown (r : RowRange) : List Int :=
  rowsDownFrom r.lastRow r.size

/-- The row range [top, bottom] of an item selection range. -/
def rowRangeOf (s : QItemSelectionRange) : RowRange :=
  ⟨s.top, s.bottom⟩

/-- Range a ends at least two rows before range b begins: a and b are disjoint, not
adjacent, and a is the lower one. -/
def gapBefore (a b : RowRange) : Prop :=
  a.lastRow + 1 < b.firstRow

/-- All ranges of the list are valid. -/
def allValid (l : List RowRange) : Prop :=
  ∀ r ∈ l, r.isValid

/-- The range that mergeRangesUntil writes over the first element m1 of a run of
elements to merge (m1 followed by rest) with the range. -/
def mergedRun (m1 : RowRange) (rest : List RowRange) (range : RowRange) : RowRange :=
  let lastElement := (m1 :: rest).getLast (List.cons_ne_nil _ _)
  ⟨min (min m1.firstRow lastElement.firstRow) range.firstRow,
   max (max m1.lastRow lastElement.lastRow) range.lastRow⟩

/-- The range that addRange puts at the place of the elements M to merge with the
range: the range itself when there is nothing to merge. -/
def midRange (M : List RowRange) (range : RowRange) : RowRange :=
  match M with
  | [] => range
  | m1 :: rest => mergedRun m1 rest range

/-- A list cut in three with respect to a range r: the elements A that end at least
two rows before r begins, the elements M to merge with r, and the elements B that
begin at least two rows after r ends. -/
structure Split (A M B : List RowRange) (r : RowRange) : Prop where
  valid : allValid (A ++ (M ++ B))
  rvalid : r.isValid
  pairwise : (A ++ (M ++ B)).Pairwise gapBefore
  before : ∀ e ∈ A, gapBefore e r
  touch : ∀ e ∈ M, rangesShouldBeMerged e r = true
  after : ∀ e ∈ B, gapBefore r e

/-! ## RowRange::rowCount, removeSelectedRows of Helpers.cpp -/

/-- Value, in the C++ type int, of a computation on int whose exact result is x: the
result wraps around modulo 2^32 when it leaves the range of int. -/
def wrapInt (x : Int) : Int :=
  (x + 2147483648) % 4294967296 - 2147483648

/-- Get row count: mLastRow - mFirstRow + 1, computed in int. -/
def RowRange.rowCount (r : RowRange) : Int :=
  wrapInt (wrapInt (r.lastRow - r.firstRow) + 1)

/-- The while loop of removeSelectedRows over the reverse iterators of the row
selection. The iterator rFirst is held as the position of its base iterator, rLast
(crend) is the position 0. The method removeRows of the model is a parameter: it gives
the model after the removal, or nothing when it returns false. The result is the
value returned and the model as it is left. -/
def removeSelectedRowsLoop {M : Type} (removeRows : M → Int → Int → Option M)
    (rowSelection : List RowRange) : Nat → M → Option (Bool × M)
  | 0, model => some (true, model)
  | rFirst + 1, model => do
    let range ← reverseIteratorDeref rowSelection (rFirst + 1)
    match removeRows model range.firstRow range.rowCount with
    | none => some (false, model)
    | some model1 => removeSelectedRowsLoop removeRows rowSelection rFirst model1

/-- Remove selected rows from given model: the selection of the selection model is
turned into a row selection, whose ranges are removed from the last to the first. -/
def removeSelectedRows {M : Type} (qtIsValid qtIsEmpty : QItemSelectionRange → Bool)
    (removeRows : M → Int → Int → Option M) (model : M)
    (itemSelection : List QItemSelectionRange) : Option (Bool × M) := do
  let rowSelection ← RowSelection.fromItemSelection qtIsValid qtIsEmpty itemSelection
  removeSelectedRowsLoop removeRows rowSelection rowSelection.length model

/-- Check if given set of row and count is valid to remove rows, in a model that has
rowCount rows (AbstractTableModel::rowAndCountIsValidForRemoveRows). -/
def rowAndCountIsValidForRemoveRows (rowCount row count : Int) : Bool :=
  if row < 0 then false
  else if count < 1 then false
  else if (row + count) > rowCount then false
  else true

/-- The target model as a list of rows: removeRows deletes the span of count rows
that starts at row, and fails when row and count are not valid for the list. -/
def listRemoveRows {α : Type} (rows : List α) (row count : Int) : Option (List α) :=
  if rowAndCountIsValidForRemoveRows rows.length row count then
    some (rows.take row.toNat ++ rows.drop (row + count).toNat)
  else none

/-- The same target model together with the list of the calls of removeRows that
succeeded on it, in the order they were made. -/
def loggedRemoveRows {α : Type} (model : List α × List (Int × Int)) (row count : Int) :
    Option (List α × List (Int × Int)) := do
  let rows1 ← listRemoveRows model.1 row count
  some (rows1, model.2 ++ [(row, count)])

/-- An item is selected in given row: the row lies between the top and the bottom of
one of the ranges of the selection. -/
def rowIsSelected (itemSelection : List QItemSelectionRange) (row : Int) : Bool :=
  itemSelection.any (fun s => decide (s.top ≤ row) && decide (row ≤ s.bottom))

/-- The rows of a list, the first of which has index i, whose index does not satisfy
p, in their order. -/
def rowsNotIn {α : Type} (p : Int → Bool) : Int → List α → List α
  | _, [] => []
  | i, a :: rest => if p i then rowsNotIn p (i + 1) rest else a :: rowsNotIn p (i + 1) rest

/-- The rows of a model in which no item is selected, in their order. -/
def unselectedRows {α : Type} (itemSelection : List QItemSelectionRange) (rows : List α) :
    List α :=
  rowsNotIn (rowIsSelected itemSelection) 0 rows

/-- Row is covered by the list, as a boolean. -/
def rowIsCovered (l : List RowRange) (row : Int) : Bool :=
  l.any (fun r => decide (r.firstRow ≤ row) && decide (row ≤ r.lastRow))

/-- The call of removeRows that removeSelectedRows makes for a range. -/
def removeRowsCallOf (r : RowRange) : Int × Int :=
  (r.firstRow, r.rowCount)

/-- Making given calls (row, count) of removeRows one after the other on a list of
rows: the list that is left, or nothing as soon as a call is not valid for the list
it is made on. -/
def replayRemoveRows {α : Type} : List α → List (Int × Int) → Option (List α)
  | rows, [] => some rows
  | rows, call :: rest => do
    let rows1 ← listRemoveRows rows call.1 call.2
    replayRemoveRows rows1 rest

/-- The forward cursor after k increments (operator++ applied k times). -/
def RowListViewConstIterator.incrementN (l : List RowRange) :
    Nat → RowListViewConstIterator → Option RowListViewConstIterator
  | 0, it => some it
  | k + 1, it => do
    let it1 ← RowListViewConstIterator.increment l it
    RowListViewConstIterator.incrementN l k it1

/-- The reverse cursor after k increments (operator++ applied k times). -/
def ReverseRowListViewConstIterator.incrementN (l : List RowRange) :
    Nat → ReverseRowListViewConstIterator → Option ReverseRowListViewConstIterator
  | 0, it => some it
  | k + 1, it => do
    let it1 ← ReverseRowListViewConstIterator.increment l it
    ReverseRowListViewConstIterator.incrementN l k it1

/-! ## ItemSelectionModel.cpp -/

/-- The part of a QModelIndex (Qt) that the library reads: its row and its column. A
default constructed index, which is not valid, has row -1 and column -1. -/
structure QModelIndex where
  row : Int
  column : Int
deriving DecidableEq, Repr

/-- A default constructed QModelIndex. -/
def QModelIndex.invalid : QModelIndex := ⟨-1, -1⟩

/-- Model of QModelIndex::isValid() for an index of the model at hand: neither its row
nor its column is negative. -/
def QModelIndex.isValid (index : QModelIndex) : Bool :=
  decide (0 ≤ index.row) && decide (0 ≤ index.column)

/-- The top left index of a range. -/
def QItemSelectionRange.topLeft (range : QItemSelectionRange) : QModelIndex :=
  ⟨range.top, range.left⟩

/-- The bottom right index of a range. -/
def QItemSelectionRange.bottomRight (range : QItemSelectionRange) : QModelIndex :=
  ⟨range.bottom, range.right⟩

/-- Model of the Qt constructor QItemSelection(index, index): the selection made of the
single cell at a valid index, the empty selection for an index that is not valid. -/
def qItemSelectionOfIndex (index : QModelIndex) : List QItemSelectionRange :=
  if index.isValid then [⟨index.row, index.column, index.row, index.column⟩] else []

/-- The value QItemSelectionModel::NoUpdate of the selection flags. -/
def NoUpdate : Nat := 0

/-- The value QItemSelectionModel::ClearAndSelect of the selection flags. -/
def ClearAndSelect : Nat := 3

/-- An ItemSelectionModel: the current index and the selection held by its base class
QItemSelectionModel, and its two members. -/
structure ItemSelectionModel where
  currentIndex : QModelIndex
  selection : List QItemSelectionRange
  mChangeCurrentRowIsAllowed : Bool
  mSetCurrentIndexToFirstRowAfterResetIsEnabled : Bool
deriving DecidableEq, Repr

/-- Set the current index to the first row after model reset. -/
def ItemSelectionModel.setCurrentIndexToFirstRowAfterReset (self : ItemSelectionModel)
    (enable : Bool) : ItemSelectionModel :=
  { self with mSetCurrentIndexToFirstRowAfterResetIsEnabled := enable }

/-- Check if set the current index to the first row after model reset is enabled. -/
def ItemSelectionModel.setCurrentIndexToFirstRowAfterResetIsEnabled
    (self : ItemSelectionModel) : Bool :=
  self.mSetCurrentIndexToFirstRowAfterResetIsEnabled

/-- Check if changing current row is allowed. -/
def ItemSelectionModel.changeCurrentRowIsAllowed (self : ItemSelectionModel) : Bool :=
  self.mChangeCurrentRowIsAllowed

/-- Set changing current row allowed or not. -/
def ItemSelectionModel.setChangeCurrentRowAllowed (self : ItemSelectionModel)
    (allow : Bool) : ItemSelectionModel :=
  { self with mChangeCurrentRowIsAllowed := allow }

/-- Overload isRowChangeRequest(int row). -/
def ItemSelectionModel.isRowChangeRequest (self : ItemSelectionModel) (row : Int) : Bool :=
  row != self.currentIndex.row

/-- Overload isRowChangeRequest(const QModelIndex & index). -/
def ItemSelectionModel.isRowChangeRequestIndex (self : ItemSelectionModel)
    (index : QModelIndex) : Bool :=
  self.isRowChangeRequest index.row

/-- Overload isRowChangeRequest(const QItemSelection & selection), with its three
assertions. -/
def ItemSelectionModel.isRowChangeRequestSelection (qtIsValid : QItemSelectionRange → Bool)
    (self : ItemSelectionModel) (selection : List QItemSelectionRange) : Option Bool :=
  if selection.isEmpty then some false
  else do
    cassert (selection.length == 1)
    let range ← selection[0]?
    cassert (qtIsValid range)
    cassert (range.top == range.bottom)
    some (self.isRowChangeRequest range.top)

/-- Check if current index can be set to the given one. -/
def ItemSelectionModel.canSetCurrentIndex (self : ItemSelectionModel)
    (index : QModelIndex) : Bool :=
  if self.changeCurrentRowIsAllowed then true
  else !(self.isRowChangeRequestIndex index)

/-- Check if given range contains multiple items. -/
def ItemSelectionModel.isMultipleItemsSelectionRange
    (qtIsValid : QItemSelectionRange → Bool) (range : QItemSelectionRange) : Bool :=
  if !(qtIsValid range) then false
  else range.topLeft != range.bottomRight

/-- The predicate firstMultiplePred of isMultipleItemsSelection. -/
def ItemSelectionModel.firstMultiplePred (qtIsValid : QItemSelectionRange → Bool)
    (range nextRange : QItemSelectionRange) : Bool :=
  if ItemSelectionModel.isMultipleItemsSelectionRange qtIsValid range then true
  else range != nextRange

/-- Check if given selection contains multiple items. -/
def ItemSelectionModel.isMultipleItemsSelection (qtIsValid : QItemSelectionRange → Bool)
    (selection : List QItemSelectionRange) : Bool :=
  match selection with
  | [] => false
  | first :: _ =>
    if ItemSelectionModel.isMultipleItemsSelectionRange qtIsValid first then true
    else
      stdAdjacentFind (ItemSelectionModel.firstMultiplePred qtIsValid) selection
        != selection.length

/-- Check if given selection can be applied. -/
def ItemSelectionModel.canSelect (qtIsValid : QItemSelectionRange → Bool)
    (self : ItemSelectionModel) (selection : List QItemSelectionRange) : Option Bool :=
  if self.changeCurrentRowIsAllowed then some true
  else if ItemSelectionModel.isMultipleItemsSelection qtIsValid selection then some true
  else do
    let rowChange ← self.isRowChangeRequestSelection qtIsValid selection
    some (!rowChange)

/-- Overload select(const QItemSelection & selection, SelectionFlags command). What
QItemSelectionModel::select makes of the selection it holds, from the selection and the
command it is given, is the parameter qtSelect. -/
def ItemSelectionModel.select (qtIsValid : QItemSelectionRange → Bool)
    (qtSelect : List QItemSelectionRange → List QItemSelectionRange → Nat →
      List QItemSelectionRange)
    (self : ItemSelectionModel) (selection : List QItemSelectionRange) (command : Nat) :
    Option ItemSelectionModel := do
  if (← self.canSelect qtIsValid selection) then
    some { self with selection := qtSelect self.selection selection command }
  else some self

/-- Overload select(const QModelIndex & index, SelectionFlags command): it calls
QItemSelectionModel::select(index, command), which calls select(selection, command)
with the selection made of the index (as the comments of ItemSelectionModel.cpp and
ItemSelectionModel.h tell). -/
def ItemSelectionModel.selectIndex (qtIsValid : QItemSelectionRange → Bool)
    (qtSelect : List QItemSelectionRange → List QItemSelectionRange → Nat →
      List QItemSelectionRange)
    (self : ItemSelectionModel) (index : QModelIndex) (command : Nat) :
    Option ItemSelectionModel :=
  ItemSelectionModel.select qtIsValid qtSelect self (qItemSelectionOfIndex index) command

/-- Model of QItemSelectionModel::setCurrentIndex of Qt: the index becomes the current
index, and unless the command is NoUpdate, select(index, command) is called (cases A
and B of the comment of ItemSelectionModel.cpp). -/
def QItemSelectionModel.setCurrentIndex (qtIsValid : QItemSelectionRange → Bool)
    (qtSelect : List QItemSelectionRange → List QItemSelectionRange → Nat →
      List QItemSelectionRange)
    (self : ItemSelectionModel) (index : QModelIndex) (command : Nat) :
    Option ItemSelectionModel :=
  let self1 := { self with currentIndex := index }
  if command != NoUpdate then
    ItemSelectionModel.selectIndex qtIsValid qtSelect self1 index command
  else some self1

/-- Re-implemented to intercept row change: setCurrentIndex(index, command). -/
def ItemSelectionModel.setCurrentIndex (qtIsValid : QItemSelectionRange → Bool)
    (qtSelect : List QItemSelectionRange → List QItemSelectionRange → Nat →
      List QItemSelectionRange)
    (self : ItemSelectionModel) (index : QModelIndex) (command : Nat) :
    Option ItemSelectionModel :=
  if self.canSetCurrentIndex index then
    QItemSelectionModel.setCurrentIndex qtIsValid qtSelect self index command
  else some self

/-- Model of QItemSelectionModel::reset of Qt: the selection is cleared and the
current index becomes invalid, no signal is emitted. -/
def QItemSelectionModel.reset (self : ItemSelectionModel) : ItemSelectionModel :=
  { self with currentIndex := QModelIndex.invalid, selection := [] }

/-- Model of QAbstractItemModel::index(row, column) of a table model that has rowCount
rows and columnCount columns: it does bound checking. -/
def modelIndex (rowCount columnCount row column : Int) : QModelIndex :=
  if 0 ≤ row ∧ row < rowCount ∧ 0 ≤ column ∧ column < columnCount then ⟨row, column⟩
  else QModelIndex.invalid

/-- Re-implemented to intercept model reset: reset(), for a model that has rowCount rows
and columnCount columns after its reset. The signals emitted when the index is not
valid are not part of the state. -/
def ItemSelectionModel.reset (qtIsValid : QItemSelectionRange → Bool)
    (qtSelect : List QItemSelectionRange → List QItemSelectionRange → Nat →
      List QItemSelectionRange)
    (rowCount columnCount : Int) (self : ItemSelectionModel) : Option ItemSelectionModel :=
  let self1 := QItemSelectionModel.reset self
  if self1.setCurrentIndexToFirstRowAfterResetIsEnabled then
    let index := modelIndex rowCount columnCount 0 0
    if index.isValid then
      ItemSelectionModel.setCurrentIndex qtIsValid qtSelect self1 index ClearAndSelect
    else some self1
  else some self1

/-- A request made to an ItemSelectionModel: setCurrentIndex(index, command) or
select(selection, command). -/
inductive SelectionRequest where
  | setCurrentIndex (index : QModelIndex) (command : Nat)
  | select (selection : List QItemSelectionRange) (command : Nat)

/-- The ItemSelectionModel after a request. -/
def ItemSelectionModel.handle (qtIsValid : QItemSelectionRange → Bool)
    (qtSelect : List QItemSelectionRange → List QItemSelectionRange → Nat →
      List QItemSelectionRange)
    (self : ItemSelectionModel) : SelectionRequest → Option ItemSelectionModel
  | SelectionRequest.setCurrentIndex index command =>
    ItemSelectionModel.setCurrentIndex qtIsValid qtSelect self index command
  | SelectionRequest.select selection command =>
    ItemSelectionModel.select qtIsValid qtSelect self selection command

/-- The ItemSelectionModel after a sequence of requests. -/
def ItemSelectionModel.handleAll (qtIsValid : QItemSelectionRange → Bool)
    (qtSelect : List QItemSelectionRange → List QItemSelectionRange → Nat →
      List QItemSelectionRange) :
    ItemSelectionModel → List SelectionRequest → Option ItemSelectionModel
  | self, [] => some self
  | self, request :: rest => do
    let self1 ← ItemSelectionModel.handle qtIsValid qtSelect self request
    ItemSelectionModel.handleAll qtIsValid qtSelect self1 rest

/-- A range that is valid and made of one cell. -/
def isSingleCell (qtIsValid : QItemSelectionRange → Bool) (range : QItemSelectionRange) :
    Prop :=
  qtIsValid range = true ∧ range.top = range.bottom ∧ range.left = range.right

/-- A request that the code accepts without a failed assertion: any request to set the
current index, and a request to select a selection that is empty, or contains multiple
items, or is made of one single cell. -/
def SelectionRequest.wellFormed (qtIsValid : QItemSelectionRange → Bool) :
    SelectionRequest → Prop
  | SelectionRequest.setCurrentIndex _ _ => True
  | SelectionRequest.select selection _ =>
    selection = [] ∨ ItemSelectionModel.isMultipleItemsSelection qtIsValid selection = true ∨
      ∃ range, selection = [range] ∧ isSingleCell qtIsValid range

/-! ## The arithmetic of rangesAreAdjacent and of rowCount in the type int -/

/-- Subtraction x - y in the C++ type int: nothing when the exact result is not a value
of int (signed overflow). -/
def intSub (x y : Int) : Option Int :=
  if intMin ≤ x - y ∧ x - y ≤ intMax then some (x - y) else none

/-- Addition x + y in the C++ type int: nothing when the exact result is not a value of
int (signed overflow). -/
def intAdd (x y : Int) : Option Int :=
  if intMin ≤ x + y ∧ x + y ≤ intMax then some (x + y) else none

/-- Check if given ranges are adjacent, the two subtractions being made in int: nothing
when one that is evaluated overflows. -/
def rangesAreAdjacentChecked (a b : RowRange) : Option Bool := do
  let bFirstRowMinus1 ← intSub b.firstRow 1
  if bFirstRowMinus1 = a.lastRow then some true
  else do
    let aFirstRowMinus1 ← intSub a.firstRow 1
    if aFirstRowMinus1 = b.lastRow then some true
    else some false

/-- Get row count: mLastRow - mFirstRow + 1, the subtraction and the addition being made
in int: nothing when one of them overflows. -/
def RowRange.rowCountChecked (r : RowRange) : Option Int := do
  let difference ← intSub r.lastRow r.firstRow
  intAdd difference 1

instance (r : RowRange) : Decidable r.isValid := by
  unfold RowRange.isValid; infer_instance

instance (r : RowRange) : Decidable r.fitsInt := by
  unfold RowRange.fitsInt; infer_instance

instance (r : RowRange) (x : Int) : Decidable (r.contains x) := by
  unfold RowRange.contains; infer_instance

instance (l : List RowRange) : Decidable (allValid l) := by
  unfold allValid; infer_instance

instance (l : List RowRange) : Decidable (allFitInt l) := by
  unfold allFitInt; infer_instance

/-! ## Properties of single ranges -/

theorem isValid_iff (r : RowRange) :
    r.isValid ↔ 0 ≤ r.firstRow ∧ r.firstRow ≤ r.lastRow := by
  unfold RowRange.isValid RowRange.firstAndLastRowIsValidRange
  constructor
  · intro h
    split_ifs at h
    omega
  · intro h
    split_ifs <;> first | omega | rfl

theorem fromFirstAndLastRow_eq (f l : Int) (h : 0 ≤ f ∧ f ≤ l) :
    RowRange.fromFirstAndLastRow f l = some ⟨f, l⟩ := by
  have hv : RowRange.firstAndLastRowIsValidRange f l = true :=
    (isValid_iff ⟨f, l⟩).2 h
  simp [RowRange.fromFirstAndLastRow, cassert, hv]

theorem comesBefore_iff (a b : RowRange) :
    rangeAcomesBeforeB a b = true ↔
      a.firstRow < b.firstRow ∨ (a.firstRow = b.firstRow ∧ a.lastRow < b.lastRow) := by
  unfold rangeAcomesBeforeB
  split_ifs with h
  · simp only [decide_eq_true_eq]; omega
  · simp only [decide_eq_true_eq]; omega

theorem comesBefore_false_iff (a b : RowRange) :
    rangeAcomesBeforeB a b = false ↔
      b.firstRow < a.firstRow ∨ (a.firstRow = b.firstRow ∧ b.lastRow ≤ a.lastRow) := by
  rw [← Bool.not_eq_true, comesBefore_iff]; omega

theorem shouldBeMerged_iff (a b : RowRange) (ha : a.isValid) (hb : b.isValid) :
    rangesShouldBeMerged a b = true ↔
      a.firstRow ≤ b.lastRow + 1 ∧ b.firstRow ≤ a.lastRow + 1 := by
  rw [isValid_iff] at ha hb
  unfold rangesShouldBeMerged rangesAreAdjacent rangesOverlaps rangeAcomesBeforeB
  split_ifs <;>
    simp only [decide_eq_true_eq, Bool.false_eq_true, false_iff, true_iff,
      decide_eq_false_iff_not, Bool.not_eq_true] at * <;>
    first | omega | exact absurd trivial ‹¬True›

theorem shouldBeMerged_false_iff (a b : RowRange) (ha : a.isValid) (hb : b.isValid) :
    rangesShouldBeMerged a b = false ↔ gapBefore a b ∨ gapBefore b a := by
  rw [← Bool.not_eq_true, shouldBeMerged_iff a b ha hb]
  unfold gapBefore; omega

/-! ## The two checks of a list and the gap between its ranges -/

theorem gapBefore_trans (a b c : RowRange) (hb : b.isValid)
    (hab : gapBefore a b) (hbc : gapBefore b c) : gapBefore a c := by
  rw [isValid_iff] at hb
  unfold gapBefore at *
  omega

theorem allValid_cons (a : RowRange) (l : List RowRange) :
    allValid (a :: l) ↔ a.isValid ∧ allValid l := by
  simp [allValid]

theorem allValid_append (l1 l2 : List RowRange) :
    allValid (l1 ++ l2) ↔ allValid l1 ∧ allValid l2 := by
  simp only [allValid, List.mem_append]
  constructor
  · intro h
    exact ⟨fun r hr => h r (Or.inl hr), fun r hr => h r (Or.inr hr)⟩
  · rintro ⟨h1, h2⟩ r (hr | hr)
    · exact h1 r hr
    · exact h2 r hr

theorem stdAdjacentFind_cons_cons {α : Type} (p : α → α → Bool) (a b : α) (rest : List α) :
    stdAdjacentFind p (a :: b :: rest) = (a :: b :: rest).length ↔
      p a b = false ∧ stdAdjacentFind p (b :: rest) = (b :: rest).length := by
  simp only [stdAdjacentFind, List.length_cons]
  by_cases h : p a b = true
  · simp [h]
  · have h1 : p a b = false := by simpa using h
    simp only [h1, Bool.false_eq_true, if_false, true_and]
    omega

theorem isSorted_cons_cons (a b : RowRange) (rest : List RowRange) :
    isSorted (a :: b :: rest) = true ↔
      rangeAcomesBeforeB b a = false ∧ isSorted (b :: rest) = true := by
  simp only [isSorted, stdIsSorted]
  by_cases h : rangeAcomesBeforeB b a = true
  · simp [h]
  · simp [h]

theorem elementsAreNotMergeable_iff (l : List RowRange) :
    elementsAreNotMergeable l = some true ↔
      isSorted l = true ∧ stdAdjacentFind rangesShouldBeMerged l = l.length := by
  unfold elementsAreNotMergeable cassert
  by_cases h : isSorted l = true
  · simp [h]
  · simp [h]

/-- On valid ranges, the two checks that close addRange hold as soon as each range
ends at least two rows before each later one begins. -/
theorem checks_of_pairwise : ∀ l : List RowRange, allValid l → l.Pairwise gapBefore →
    isSorted l = true ∧ stdAdjacentFind rangesShouldBeMerged l = l.length
  | [], _, _ => by simp [isSorted, stdIsSorted, stdAdjacentFind]
  | [_], _, _ => by simp [isSorted, stdIsSorted, stdAdjacentFind]
  | a :: b :: rest, hv, hp => by
    have hva : a.isValid := hv a (by simp)
    have hvb : b.isValid := hv b (by simp)
    have hv1 : allValid (b :: rest) := ((allValid_cons a _).1 hv).2
    have hp1 := List.pairwise_cons.1 hp
    have ih := checks_of_pairwise (b :: rest) hv1 hp1.2
    have hab : gapBefore a b := hp1.1 b (by simp)
    rw [isSorted_cons_cons, stdAdjacentFind_cons_cons]
    refine ⟨⟨?_, ih.1⟩, ?_, ih.2⟩
    · rw [comesBefore_false_iff]
      rw [isValid_iff] at hva hvb
      unfold gapBefore at hab
      omega
    · rw [shouldBeMerged_false_iff a b hva hvb]
      exact Or.inl hab

/-- On valid ranges, a list that passes isSorted and elementsAreNotMergeable has each
range ending at least two rows before each later one begins. -/
theorem pairwise_of_checks : ∀ l : List RowRange, allValid l → isSorted l = true →
    stdAdjacentFind rangesShouldBeMerged l = l.length → l.Pairwise gapBefore
  | [], _, _, _ => List.Pairwise.nil
  | [_], _, _, _ => List.pairwise_singleton _ _
  | a :: b :: rest, hv, hs, hm => by
    have hva : a.isValid := hv a (by simp)
    have hvb : b.isValid := hv b (by simp)
    have hv1 : allValid (b :: rest) := ((allValid_cons a _).1 hv).2
    rw [isSorted_cons_cons] at hs
    rw [stdAdjacentFind_cons_cons] at hm
    have ih := pairwise_of_checks (b :: rest) hv1 hs.2 hm.2
    have hab : gapBefore a b := by
      have h1 := (shouldBeMerged_false_iff a b hva hvb).1 hm.1
      have h2 := (comesBefore_false_iff b a).1 hs.1
      rw [isValid_iff] at hva hvb
      unfold gapBefore at h1 ⊢
      omega
    refine List.pairwise_cons.2 ⟨?_, ih⟩
    intro c hc
    rcases List.mem_cons.1 hc with rfl | hc
    · exact hab
    · exact gapBefore_trans a b c hvb hab ((List.pairwise_cons.1 ih).1 c hc)

/-! ## Helper facts on the models of the standard algorithms -/

theorem take_set_self {α : Type} (a : α) : ∀ (l : List α) (n : Nat),
    (l.set n a).take n = l.take n
  | [], _ => by simp
  | _ :: _, 0 => by simp
  | x :: l, n + 1 => by simp [take_set_self a l n]

theorem stdMoveLoop_spec {α : Type} : ∀ (n : Nat) (l : List α) (first dFirst : Nat),
    dFirst ≤ first → first + n = l.length →
    (stdMoveLoop n l first dFirst).2 = dFirst + n ∧
      ((stdMoveLoop n l first dFirst).1).take (dFirst + n) = l.take dFirst ++ l.drop first
  | 0, l, first, dFirst, _, hlen => by
    simp only [stdMoveLoop, Nat.add_zero, true_and]
    rw [List.drop_of_length_le (by omega), List.append_nil]
  | n + 1, l, first, dFirst, hle, hlen => by
    have hlt : first < l.length := by omega
    have ih := stdMoveLoop_spec n (l.set dFirst l[first]) (first + 1) (dFirst + 1) (by omega)
      (by rw [List.length_set]; omega)
    simp only [stdMoveLoop, List.getElem?_eq_getElem hlt]
    refine ⟨by rw [ih.1]; omega, ?_⟩
    have e : dFirst + (n + 1) = dFirst + 1 + n := by omega
    rw [e, ih.2, List.drop_set, if_pos (by omega), List.take_succ,
      take_set_self,
      List.getElem?_set, if_pos rfl, if_pos (by omega), ← List.getElem_cons_drop l first hlt]
    simp

/-- Moving the elements from position first to the end of the container down to
position dFirst: the valid part of the container is what was before dFirst followed by
what was from first on. -/
theorem stdMove_spec {α : Type} (l : List α) (first dFirst : Nat)
    (hle : dFirst ≤ first) (hlen : first ≤ l.length) :
    (stdMove l first l.length dFirst).2 = dFirst + (l.length - first) ∧
      ((stdMove l first l.length dFirst).1).take (dFirst + (l.length - first)) =
        l.take dFirst ++ l.drop first :=
  stdMoveLoop_spec (l.length - first) l first dFirst hle (by omega)

theorem findIdx_eq_zero_of_all {α : Type} (p : α → Bool) (l : List α)
    (h : ∀ x ∈ l, p x = true) : l.findIdx p = 0 := by
  cases l with
  | nil => rfl
  | cons x t => simp [List.findIdx_cons, h x (by simp)]

theorem findIdx_append_of_none {α : Type} (p : α → Bool) (l1 l2 : List α)
    (h : ∀ x ∈ l1, p x = false) : (l1 ++ l2).findIdx p = l1.length + l2.findIdx p := by
  rw [List.findIdx_append, List.findIdx_eq_length.2 h, if_neg (lt_irrefl _), add_comm]

theorem getElem?_append_cons_length {α : Type} (l1 l2 : List α) (x : α) :
    (l1 ++ x :: l2)[l1.length]? = some x := by
  rw [List.getElem?_append_right (le_refl _)]
  simp

/-- In a list related pairwise, every element is the last one or related to it. -/
theorem pairwise_getLast {α : Type} {R : α → α → Prop} (l : List α) (h : l ≠ [])
    (hp : l.Pairwise R) : ∀ x ∈ l, x = l.getLast h ∨ R x (l.getLast h) := by
  intro x hx
  rw [← List.dropLast_append_getLast h] at hp hx
  rcases List.mem_append.1 hx with hx1 | hx1
  · exact Or.inr ((List.pairwise_append.1 hp).2.2 x hx1 _ (by simp))
  · exact Or.inl (by simpa using hx1)

theorem getElem?_cons_append_getLast {α : Type} (x : α) (l1 l2 : List α) :
    (x :: l1 ++ l2)[l1.length]? = some ((x :: l1).getLast (List.cons_ne_nil _ _)) := by
  have h1 : l1.length < (x :: l1).length := by simp
  rw [List.getElem?_append_left h1, List.getElem?_eq_getElem h1, List.getLast_eq_getElem]
  simp

/-! ## mergeRangesUntil on a run of elements to merge -/

theorem findLastElementToMerge_run (m1 : RowRange) (M B : List RowRange) (r : RowRange)
    (hs : isSorted (m1 :: (M ++ B)) = true)
    (hm1 : rangesShouldBeMerged m1 r = true)
    (hM : ∀ e ∈ M, rangesShouldBeMerged e r = true)
    (hB : ∀ e ∈ B, rangesShouldBeMerged e r = false) :
    findLastElementToMerge (m1 :: (M ++ B)) r = some M.length := by
  have hidx : (M ++ B).findIdx (fun current => !(rangesShouldBeMerged current r)) = M.length := by
    rw [findIdx_append_of_none _ _ _ (by intro x hx; simp [hM x hx]),
      findIdx_eq_zero_of_all _ _ (by intro x hx; simp [hB x hx])]
    rfl
  unfold findLastElementToMerge
  simp only [cassert, hs, hm1, hidx, List.length_cons, List.length_append,
    List.getElem?_cons_zero, List.drop_succ_cons, List.drop_zero, if_true, Option.some_bind,
    Option.bind_eq_bind, bne_iff_ne, ne_eq, ite_not, decide_not]
  rw [show 1 + M.length - 1 = M.length by omega, if_neg (by omega), if_neg (by omega)]
  rfl

theorem mergeRangesUntil_run (m1 : RowRange) (M B : List RowRange) (r : RowRange)
    (hv : allValid (m1 :: (M ++ B))) (hr : r.isValid)
    (hp : (m1 :: (M ++ B)).Pairwise gapBefore)
    (hm1 : rangesShouldBeMerged m1 r = true)
    (hM : ∀ e ∈ M, rangesShouldBeMerged e r = true)
    (hB : ∀ e ∈ B, rangesShouldBeMerged e r = false) :
    ∃ l1 e, mergeRangesUntil (m1 :: (M ++ B)) r = some (l1, e) ∧
      l1.take e = mergedRun m1 M r :: B := by
  have hc := checks_of_pairwise _ hv hp
  have hnm := (elementsAreNotMergeable_iff _).2 hc
  have hlast := findLastElementToMerge_run m1 M B r hc.1 hm1 hM hB
  have hvm1 : m1.isValid := hv m1 (by simp)
  have hvl : ((m1 :: M).getLast (List.cons_ne_nil _ _)).isValid :=
    hv _ (by
      have := List.getLast_mem (List.cons_ne_nil m1 M)
      rw [← List.cons_append]
      exact List.mem_append_left _ this)
  rw [isValid_iff] at hvm1 hvl hr
  unfold mergeRangesUntil
  simp only [cassert, hc.1, hnm, hlast, hm1, List.length_cons, List.length_append,
    List.getElem?_cons_zero, if_true, Option.some_bind, Option.bind_eq_bind]
  cases M with
  | nil =>
    refine ⟨mergedRun m1 [] r :: B, B.length + 1, ?_, by simp⟩
    have hmr : mergeRanges m1 r = some (mergedRun m1 [] r) := by
      unfold mergeRanges
      simp only [cassert, hm1]
      simp only [mergedRun, List.getLast_singleton, min_self, max_self]
      exact fromFirstAndLastRow_eq _ _ (by omega)
    simp [hmr]
  | cons m2 M2 =>
    have hg := getElem?_cons_append_getLast m1 (m2 :: M2) B
    have hmr : mergeRanges3 m1 ((m1 :: m2 :: M2).getLast (List.cons_ne_nil _ _)) r
        = some (mergedRun m1 (m2 :: M2) r) := by
      unfold mergeRanges3
      exact fromFirstAndLastRow_eq _ _ (by omega)
    have hmv := stdMove_spec (mergedRun m1 (m2 :: M2) r :: (m2 :: (M2 ++ B)))
      (M2.length + 1 + 1) 1 (by omega) (by simp)
    simp only [List.cons_append, List.length_cons] at hg
    simp only [List.length_cons, List.cons_append, hg, hmr, List.set_cons_zero,
      List.length_append, Option.some_bind, Nat.add_one_ne_zero, if_false, bne_iff_ne, ne_eq]
    rw [if_pos (by omega)]
    refine ⟨_, _, rfl, ?_⟩
    simp only [stdMove, List.length_cons, List.length_append] at hmv
    rw [hmv.1, hmv.2]
    simp

/-! ## The range written by a merge -/

theorem Split.validA {A M B : List RowRange} {r : RowRange} (h : Split A M B r) :
    allValid A := ((allValid_append _ _).1 h.valid).1

theorem Split.validM {A M B : List RowRange} {r : RowRange} (h : Split A M B r) :
    allValid M := ((allValid_append _ _).1 ((allValid_append _ _).1 h.valid).2).1

theorem Split.validB {A M B : List RowRange} {r : RowRange} (h : Split A M B r) :
    allValid B := ((allValid_append _ _).1 ((allValid_append _ _).1 h.valid).2).2

theorem Split.pairwiseMB {A M B : List RowRange} {r : RowRange} (h : Split A M B r) :
    (M ++ B).Pairwise gapBefore := (List.pairwise_append.1 h.pairwise).2.1

theorem Split.pairwiseM {A M B : List RowRange} {r : RowRange} (h : Split A M B r) :
    M.Pairwise gapBefore := (List.pairwise_append.1 h.pairwiseMB).1

theorem Split.notMergedA {A M B : List RowRange} {r : RowRange} (h : Split A M B r) :
    ∀ e ∈ A, rangesShouldBeMerged e r = false := fun e he =>
  (shouldBeMerged_false_iff e r (h.validA e he) h.rvalid).2 (Or.inl (h.before e he))

theorem Split.notMergedB {A M B : List RowRange} {r : RowRange} (h : Split A M B r) :
    ∀ e ∈ B, rangesShouldBeMerged e r = false := fun e he =>
  (shouldBeMerged_false_iff e r (h.validB e he) h.rvalid).2 (Or.inr (h.after e he))

/-- Bounds of the range written over a run m1 :: rest of pairwise separated elements
that are all to merge with r. -/
theorem mergedRun_bounds (m1 : RowRange) (rest : List RowRange) (r : RowRange)
    (hv : allValid (m1 :: rest)) (hp : (m1 :: rest).Pairwise gapBefore) :
    (mergedRun m1 rest r).firstRow = min m1.firstRow r.firstRow ∧
    (mergedRun m1 rest r).lastRow =
      max ((m1 :: rest).getLast (List.cons_ne_nil _ _)).lastRow r.lastRow := by
  have hl := pairwise_getLast (m1 :: rest) (List.cons_ne_nil _ _) hp m1 (by simp)
  have hv1 := (isValid_iff _).1 (hv m1 (by simp))
  have hv2 := (isValid_iff _).1 (hv _ (List.getLast_mem (List.cons_ne_nil m1 rest)))
  simp only [mergedRun]
  rcases hl with hl | hl
  · rw [← hl]; simp
  · unfold gapBefore at hl
    constructor
    · rw [min_eq_left (a := m1.firstRow) (by omega)]
    · rw [max_eq_right (a := m1.lastRow) (by omega)]

theorem midRange_isValid {A M B : List RowRange} {r : RowRange} (h : Split A M B r) :
    (midRange M r).isValid := by
  cases M with
  | nil => exact h.rvalid
  | cons m1 rest =>
    have hb := mergedRun_bounds m1 rest r h.validM h.pairwiseM
    have hr := (isValid_iff _).1 h.rvalid
    have hv1 := (isValid_iff _).1 (h.validM m1 (by simp))
    rw [isValid_iff]
    simp only [midRange, hb.1, hb.2]
    refine ⟨le_min hv1.1 hr.1, ?_⟩
    exact le_trans (min_le_right _ _) (le_trans hr.2 (le_max_right _ _))

theorem midRange_gapBefore {A M B : List RowRange} {r : RowRange} (h : Split A M B r) :
    ∀ a ∈ A, gapBefore a (midRange M r) := by
  intro a ha
  cases M with
  | nil => exact h.before a ha
  | cons m1 rest =>
    have hb := mergedRun_bounds m1 rest r h.validM h.pairwiseM
    have h1 := h.before a ha
    have h2 : gapBefore a m1 := (List.pairwise_append.1 h.pairwise).2.2 a ha m1 (by simp)
    unfold gapBefore at *
    simp only [midRange, hb.1]
    exact lt_min h2 h1

theorem midRange_gapAfter {A M B : List RowRange} {r : RowRange} (h : Split A M B r) :
    ∀ b ∈ B, gapBefore (midRange M r) b := by
  intro b hb1
  cases M with
  | nil => exact h.after b hb1
  | cons m1 rest =>
    have hb := mergedRun_bounds m1 rest r h.validM h.pairwiseM
    have h1 := h.after b hb1
    have h2 : gapBefore ((m1 :: rest).getLast (List.cons_ne_nil _ _)) b :=
      (List.pairwise_append.1 h.pairwiseMB).2.2 _ (List.getLast_mem _) b hb1
    unfold gapBefore at *
    simp only [midRange, hb.2]
    have := max_lt (a := ((m1 :: rest).getLast (List.cons_ne_nil _ _)).lastRow)
      (b := r.lastRow) (c := b.firstRow - 1) (by omega) (by omega)
    omega

/-- The rows of the range put at the place of M are the rows of r and of the elements
of M, and no other row. -/
theorem midRange_contains {A M B : List RowRange} {r : RowRange} (h : Split A M B r)
    (x : Int) : (midRange M r).contains x ↔ r.contains x ∨ covers M x := by
  cases M with
  | nil => simp [midRange, covers]
  | cons m1 rest =>
    have hb := mergedRun_bounds m1 rest r h.validM h.pairwiseM
    have hr := (isValid_iff _).1 h.rvalid
    have hlm : (m1 :: rest).getLast (List.cons_ne_nil _ _) ∈ m1 :: rest := List.getLast_mem _
    have ht1 := (shouldBeMerged_iff m1 r (h.validM m1 (by simp)) h.rvalid).1
      (h.touch m1 (by simp))
    have ht2 := (shouldBeMerged_iff _ r (h.validM _ hlm) h.rvalid).1 (h.touch _ hlm)
    simp only [midRange, RowRange.contains, hb.1, hb.2, covers]
    constructor
    · rintro ⟨hx1, hx2⟩
      by_cases c1 : x < r.firstRow
      · refine Or.inr ⟨m1, by simp, ?_, by omega⟩
        rcases min_le_iff.1 hx1 with h3 | h3
        · exact h3
        · omega
      · by_cases c2 : r.lastRow < x
        · refine Or.inr ⟨_, hlm, by omega, ?_⟩
          rcases le_max_iff.1 hx2 with h3 | h3
          · exact h3
          · omega
        · exact Or.inl ⟨by omega, by omega⟩
    · rintro (⟨hx1, hx2⟩ | ⟨m, hm, hx1, hx2⟩)
      · exact ⟨le_trans (min_le_right _ _) hx1, le_trans hx2 (le_max_right _ _)⟩
      · have hvm := (isValid_iff _).1 (h.validM m hm)
        have hv1 := (isValid_iff _).1 (h.validM m1 (by simp))
        have e1 : m1.firstRow ≤ m.firstRow := by
          rcases List.mem_cons.1 hm with rfl | hm1
          · exact le_refl _
          · have := (List.pairwise_cons.1 h.pairwiseM).1 m hm1
            unfold gapBefore at this
            omega
        have e2 : m.lastRow ≤ ((m1 :: rest).getLast (List.cons_ne_nil _ _)).lastRow := by
          rcases pairwise_getLast (m1 :: rest) (List.cons_ne_nil _ _) h.pairwiseM m hm
            with h3 | h3
          · rw [← h3]
          · have hvl := (isValid_iff _).1 (h.validM _ hlm)
            unfold gapBefore at h3
            omega
        exact ⟨le_trans (min_le_left _ _) (le_trans e1 hx1),
          le_trans hx2 (le_trans e2 (le_max_left _ _))⟩

/-! ## addRange on a list cut in three -/

theorem cassert_true : cassert true = some () := rfl

theorem findFirstElementToMerge_none (l : List RowRange) (ip : Nat) (r : RowRange)
    (hne : l ≠ []) (hs : isSorted l = true)
    (hall : ∀ e ∈ l, rangesShouldBeMerged e r = false) (hip : ip ≤ l.length) :
    findFirstElementToMerge l ip r = some l.length := by
  have hlen : 0 < l.length := List.length_pos.2 hne
  unfold findFirstElementToMerge
  have h0 : (0 != l.length) = true := by simp; omega
  simp only [h0, hs, cassert_true, Option.some_bind, Option.bind_eq_bind]
  generalize hit : (if (ip != 0) = true then ip - 1 else ip) = it
  have hlt : it < l.length := by
    rw [← hit]
    by_cases hz : ip = 0
    · simp [hz]; omega
    · simp [hz]; omega
  have h1 : (it != l.length) = true := by simp; omega
  simp only [h1, cassert_true, Option.some_bind, List.getElem?_eq_getElem hlt,
    hall _ (List.getElem_mem hlt), Bool.false_eq_true, if_false]
  by_cases h2 : it + 1 = l.length
  · simp [h2]
  · have hlt2 : it + 1 < l.length := by omega
    have h3 : (it + 1 != l.length) = true := by simp; omega
    simp only [h3, if_true, List.getElem?_eq_getElem hlt2, Option.some_bind,
      hall _ (List.getElem_mem hlt2), Bool.false_eq_true, if_false]

theorem findFirstElementToMerge_some (A rest : List RowRange) (m1 r : RowRange) (ip : Nat)
    (hs : isSorted (A ++ m1 :: rest) = true)
    (hA : ∀ e ∈ A, rangesShouldBeMerged e r = false)
    (hm1 : rangesShouldBeMerged m1 r = true)
    (hip : ip = A.length ∨ ip = A.length + 1) :
    findFirstElementToMerge (A ++ m1 :: rest) ip r = some A.length := by
  unfold findFirstElementToMerge
  have h0 : (0 != (A ++ m1 :: rest).length) = true := by simp; omega
  simp only [h0, hs, cassert_true, Option.some_bind, Option.bind_eq_bind]
  have hm := getElem?_append_cons_length A rest m1
  by_cases hc : ip = A.length + 1
  · have hit : (if (ip != 0) = true then ip - 1 else ip) = A.length := by
      subst hc; simp
    have h1 : (A.length != (A ++ m1 :: rest).length) = true := by simp
    simp only [hit, h1, cassert_true, Option.some_bind, hm, hm1, if_true]
  · have hip1 : ip = A.length := by omega
    subst hip1
    by_cases hz : A.length = 0
    · have hit : (if (A.length != 0) = true then A.length - 1 else A.length) = A.length := by
        simp [hz]
      have h1 : (A.length != (A ++ m1 :: rest).length) = true := by simp
      simp only [hit, h1, cassert_true, Option.some_bind, hm, hm1, if_true]
    · have hit : (if (A.length != 0) = true then A.length - 1 else A.length)
          = A.length - 1 := by
        simp [hz]
      have hlt : A.length - 1 < A.length := by omega
      have h1 : (A.length - 1 != (A ++ m1 :: rest).length) = true := by simp; omega
      have hg : (A ++ m1 :: rest)[A.length - 1]? = some (A[A.length - 1]) := by
        rw [List.getElem?_append_left hlt, List.getElem?_eq_getElem hlt]
      have h2 : A.length - 1 + 1 = A.length := by omega
      have h3 : (A.length != (A ++ m1 :: rest).length) = true := by simp
      simp only [hit, h1, cassert_true, Option.some_bind, hg,
        hA _ (List.getElem_mem hlt), Bool.false_eq_true, if_false, h2, h3, if_true, hm, hm1]

theorem Split.insertionPoint {A M B : List RowRange} {r : RowRange} (h : Split A M B r) :
    (M = [] → findPotentialInsertionPoint (A ++ (M ++ B)) r = A.length) ∧
    (findPotentialInsertionPoint (A ++ (M ++ B)) r = A.length ∨
      (M ≠ [] ∧ findPotentialInsertionPoint (A ++ (M ++ B)) r = A.length + 1)) := by
  have hr := (isValid_iff _).1 h.rvalid
  have hA : ∀ e ∈ A, rangeAcomesBeforeB r e = false := by
    intro e he
    have hg := h.before e he
    have hv := (isValid_iff _).1 (h.validA e he)
    rw [comesBefore_false_iff]
    unfold gapBefore at hg
    omega
  have hB : ∀ e ∈ B, rangeAcomesBeforeB r e = true := by
    intro e he
    have hg := h.after e he
    rw [comesBefore_iff]
    unfold gapBefore at hg
    omega
  unfold findPotentialInsertionPoint
  rw [findIdx_append_of_none _ _ _ hA]
  cases M with
  | nil =>
    have : ([] ++ B).findIdx (fun currentRange => rangeAcomesBeforeB r currentRange) = 0 :=
      findIdx_eq_zero_of_all _ _ (by simpa using hB)
    rw [this]
    simp
  | cons m1 rest =>
    have hrest : (rest ++ B).findIdx (fun currentRange => rangeAcomesBeforeB r currentRange)
        = 0 := by
      apply findIdx_eq_zero_of_all
      intro e he
      rcases List.mem_append.1 he with he1 | he1
      · have hg : gapBefore m1 e := (List.pairwise_cons.1 h.pairwiseM).1 e he1
        have ht := (shouldBeMerged_iff m1 r (h.validM m1 (by simp)) h.rvalid).1
          (h.touch m1 (by simp))
        rw [comesBefore_iff]
        unfold gapBefore at hg
        omega
      · exact hB e he1
    rw [List.cons_append, List.findIdx_cons, hrest]
    cases rangeAcomesBeforeB r m1 <;> simp

theorem Split.result_valid {A M B : List RowRange} {r : RowRange} (h : Split A M B r) :
    allValid (A ++ midRange M r :: B) := by
  rw [allValid_append, allValid_cons]
  exact ⟨h.validA, midRange_isValid h, h.validB⟩

theorem Split.result_pairwise {A M B : List RowRange} {r : RowRange} (h : Split A M B r) :
    (A ++ midRange M r :: B).Pairwise gapBefore := by
  have hp := List.pairwise_append.1 h.pairwise
  have hp2 := List.pairwise_append.1 h.pairwiseMB
  rw [List.pairwise_append]
  refine ⟨hp.1, List.pairwise_cons.2 ⟨midRange_gapAfter h, hp2.2.1⟩, ?_⟩
  intro a ha x hx
  rcases List.mem_cons.1 hx with rfl | hx
  · exact midRange_gapBefore h a ha
  · exact hp.2.2 a ha x (List.mem_append_right _ hx)

/-- What addRange computes on a list cut in three with respect to the range: the
elements to merge are replaced by one range, the other elements are kept. -/
theorem addRange_split {A M B : List RowRange} {r : RowRange} (h : Split A M B r) :
    RowRangeList.addRange (A ++ (M ++ B)) r = some (A ++ midRange M r :: B) := by
  have hc := checks_of_pairwise _ h.valid h.pairwise
  have hcr := checks_of_pairwise _ h.result_valid h.result_pairwise
  have hnr := (elementsAreNotMergeable_iff _).2 hcr
  unfold RowRangeList.addRange
  by_cases hem : (A ++ (M ++ B)) = []
  · have hA : A = [] := (List.append_eq_nil.1 hem).1
    have hM : M = [] := (List.append_eq_nil.1 (List.append_eq_nil.1 hem).2).1
    have hB : B = [] := (List.append_eq_nil.1 (List.append_eq_nil.1 hem).2).2
    subst hA hM hB
    simp [midRange]
  · have hem1 : (A ++ (M ++ B)).isEmpty = false := by
      cases hl : A ++ (M ++ B) with
      | nil => exact absurd hl hem
      | cons _ _ => rfl
    simp only [hem1, Bool.false_eq_true, if_false, Option.bind_eq_bind]
    cases M with
    | nil =>
      have hip := h.insertionPoint.1 rfl
      have hall : ∀ e ∈ A ++ ([] ++ B), rangesShouldBeMerged e r = false := by
        intro e he
        rcases List.mem_append.1 he with he1 | he1
        · exact h.notMergedA e he1
        · exact h.notMergedB e (by simpa using he1)
      have hf := findFirstElementToMerge_none (A ++ ([] ++ B)) A.length r hem hc.1 hall
        (by simp)
      rw [hip, hf]
      simp only [midRange] at hcr hnr
      simp only [Option.some_bind, if_true, List.nil_append, List.take_left, List.drop_left,
        midRange, hcr.1, hnr, cassert_true]
    | cons m1 rest =>
      have hf := findFirstElementToMerge_some A (rest ++ B) m1 r
        (findPotentialInsertionPoint (A ++ (m1 :: rest ++ B)) r) hc.1 h.notMergedA
        (h.touch m1 (by simp))
        (by rcases h.insertionPoint.2 with h1 | h1
            · exact Or.inl h1
            · exact Or.inr h1.2)
      have hmr := mergeRangesUntil_run m1 rest B r
        ((allValid_append _ _).1 h.valid).2 h.rvalid h.pairwiseMB (h.touch m1 (by simp))
        (fun e he => h.touch e (List.mem_cons_of_mem _ he)) h.notMergedB
      obtain ⟨l1, e, hm1, hm2⟩ := hmr
      have hne : ¬ (A.length = (A ++ (m1 :: rest ++ B)).length) := by simp
      simp only [List.cons_append] at hf hne ⊢
      rw [hf]
      simp only [Option.some_bind, hne, if_false, List.drop_left, hm1, List.take_left, hm2]
      simp only [midRange] at hcr hnr
      simp only [midRange, hcr.1, hnr, cassert_true, Option.some_bind]

theorem covers_cons (a : RowRange) (l : List RowRange) (x : Int) :
    covers (a :: l) x ↔ a.contains x ∨ covers l x := by
  simp [covers]

theorem covers_append (l1 l2 : List RowRange) (x : Int) :
    covers (l1 ++ l2) x ↔ covers l1 x ∨ covers l2 x := by
  simp only [covers, List.mem_append]
  constructor
  · rintro ⟨r, hr | hr, hx⟩
    · exact Or.inl ⟨r, hr, hx⟩
    · exact Or.inr ⟨r, hr, hx⟩
  · rintro (⟨r, hr, hx⟩ | ⟨r, hr, hx⟩)
    · exact ⟨r, Or.inl hr, hx⟩
    · exact ⟨r, Or.inr hr, hx⟩

/-- Every list of valid, pairwise separated ranges can be cut in three with respect
to a valid range. -/
theorem exists_split (r : RowRange) (hr : r.isValid) : ∀ L : List RowRange,
    allValid L → L.Pairwise gapBefore →
    ∃ A M B, L = A ++ (M ++ B) ∧ Split A M B r
  | [], _, _ => ⟨[], [], [], rfl, ⟨by simp [allValid], hr, by simp, by simp, by simp, by simp⟩⟩
  | e :: t, hv, hp => by
    have hve : e.isValid := hv e (by simp)
    have hvt : allValid t := ((allValid_cons e t).1 hv).2
    have hpc := List.pairwise_cons.1 hp
    obtain ⟨A1, M1, B1, ht, hs⟩ := exists_split r hr t hvt hpc.2
    by_cases h1 : gapBefore e r
    · refine ⟨e :: A1, M1, B1, by rw [ht]; rfl, ?_⟩
      refine ⟨?_, hr, ?_, ?_, hs.touch, hs.after⟩
      · rw [List.cons_append, ← ht]; exact hv
      · rw [List.cons_append, ← ht]; exact hp
      · intro a ha
        rcases List.mem_cons.1 ha with rfl | ha
        · exact h1
        · exact hs.before a ha
    · by_cases h2 : gapBefore r e
      · refine ⟨[], [], e :: t, rfl, ?_⟩
        refine ⟨hv, hr, hp, by simp, by simp, ?_⟩
        intro b hb
        rcases List.mem_cons.1 hb with rfl | hb
        · exact h2
        · exact gapBefore_trans r e b hve h2 (hpc.1 b hb)
      · have hA1 : A1 = [] := by
          apply List.eq_nil_iff_forall_not_mem.2
          intro a ha
          have g1 : gapBefore e a := hpc.1 a (by rw [ht]; exact List.mem_append_left _ ha)
          have g2 := hs.before a ha
          exact h1 (gapBefore_trans e a r (hs.validA a ha) g1 g2)
        subst hA1
        have htouch : rangesShouldBeMerged e r = true := by
          by_contra hc
          have hc1 : rangesShouldBeMerged e r = false := by simpa using hc
          rcases (shouldBeMerged_false_iff e r hve hr).1 hc1 with h3 | h3
          · exact h1 h3
          · exact h2 h3
        refine ⟨[], e :: M1, B1, by rw [ht]; rfl, ?_⟩
        have he : [] ++ (e :: M1 ++ B1) = e :: t := by rw [ht]; rfl
        refine ⟨?_, hr, ?_, by simp, ?_, hs.after⟩
        · rw [he]; exact hv
        · rw [he]; exact hp
        · intro m hm
          rcases List.mem_cons.1 hm with rfl | hm
          · exact htouch
          · exact hs.touch m hm

/-- The full statement about one call of addRange on a list that passes isSorted and
elementsAreNotMergeable: it returns a list, the list passes both checks again, all its
ranges are valid, and it covers the rows covered before and the rows of the range. -/
theorem addRange_spec (L : List RowRange) (r : RowRange) (hv : allValid L)
    (hs : isSorted L = true) (hm : elementsAreNotMergeable L = some true) (hr : r.isValid) :
    ∃ L1, RowRangeList.addRange L r = some L1 ∧ allValid L1 ∧ isSorted L1 = true ∧
      elementsAreNotMergeable L1 = some true ∧
      ∀ x, covers L1 x ↔ covers L x ∨ r.contains x := by
  have hp := pairwise_of_checks L hv hs ((elementsAreNotMergeable_iff L).1 hm).2
  obtain ⟨A, M, B, hL, h⟩ := exists_split r hr L hv hp
  subst hL
  have hc := checks_of_pairwise _ h.result_valid h.result_pairwise
  refine ⟨_, addRange_split h, h.result_valid, hc.1, (elementsAreNotMergeable_iff _).2 hc, ?_⟩
  intro x
  rw [covers_append, covers_cons, midRange_contains h, covers_append, covers_append]
  tauto

/-! ## The stored form is determined by the rows covered -/

theorem covers_tail_gt (a : RowRange) (t : List RowRange)
    (hp : (a :: t).Pairwise gapBefore) (x : Int) (hx : covers t x) : a.lastRow + 1 < x := by
  obtain ⟨e, he, hx1, _⟩ := hx
  have hg := (List.pairwise_cons.1 hp).1 e he
  unfold gapBefore at hg
  omega

theorem covers_head_le (a : RowRange) (t : List RowRange) (hva : a.isValid)
    (hp : (a :: t).Pairwise gapBefore) (x : Int) (hx : covers (a :: t) x) :
    a.firstRow ≤ x := by
  rw [covers_cons] at hx
  rcases hx with hx | hx
  · exact hx.1
  · have := covers_tail_gt a t hp x hx
    rw [isValid_iff] at hva
    omega

/-- Two lists of valid, pairwise separated ranges that cover the same rows are equal. -/
theorem eq_of_covers_eq : ∀ (L1 L2 : List RowRange), allValid L1 → allValid L2 →
    L1.Pairwise gapBefore → L2.Pairwise gapBefore →
    (∀ x, covers L1 x ↔ covers L2 x) → L1 = L2
  | [], [], _, _, _, _, _ => rfl
  | [], b :: t2, _, hv2, _, _, hc => by
    have hb := (isValid_iff _).1 (hv2 b (by simp))
    have : covers (b :: t2) b.firstRow := ⟨b, by simp, le_refl _, hb.2⟩
    exact absurd ((hc _).2 this) (by simp [covers])
  | a :: t1, [], hv1, _, _, _, hc => by
    have ha := (isValid_iff _).1 (hv1 a (by simp))
    have : covers (a :: t1) a.firstRow := ⟨a, by simp, le_refl _, ha.2⟩
    exact absurd ((hc _).1 this) (by simp [covers])
  | a :: t1, b :: t2, hv1, hv2, hp1, hp2, hc => by
    have hva := hv1 a (by simp)
    have hvb := hv2 b (by simp)
    have ha := (isValid_iff _).1 hva
    have hb := (isValid_iff _).1 hvb
    have ca : covers (a :: t1) a.firstRow := ⟨a, by simp, le_refl _, ha.2⟩
    have cb : covers (b :: t2) b.firstRow := ⟨b, by simp, le_refl _, hb.2⟩
    have f1 : b.firstRow ≤ a.firstRow := covers_head_le b t2 hvb hp2 _ ((hc _).1 ca)
    have f2 : a.firstRow ≤ b.firstRow := covers_head_le a t1 hva hp1 _ ((hc _).2 cb)
    have l1 : ¬ a.lastRow < b.lastRow := by
      intro hlt
      have cx : covers (b :: t2) (a.lastRow + 1) := ⟨b, by simp, by omega, by omega⟩
      have cy := (hc _).2 cx
      rw [covers_cons] at cy
      rcases cy with cy | cy
      · have := cy.2; omega
      · have := covers_tail_gt a t1 hp1 _ cy; omega
    have l2 : ¬ b.lastRow < a.lastRow := by
      intro hlt
      have cx : covers (a :: t1) (b.lastRow + 1) := ⟨a, by simp, by omega, by omega⟩
      have cy := (hc _).1 cx
      rw [covers_cons] at cy
      rcases cy with cy | cy
      · have := cy.2; omega
      · have := covers_tail_gt b t2 hp2 _ cy; omega
    have hab : a = b := by
      cases a; cases b
      simp only [RowRange.mk.injEq] at *
      omega
    subst hab
    have ht : t1 = t2 := by
      apply eq_of_covers_eq t1 t2 ((allValid_cons _ _).1 hv1).2 ((allValid_cons _ _).1 hv2).2
        (List.pairwise_cons.1 hp1).2 (List.pairwise_cons.1 hp2).2
      intro x
      constructor
      · intro hx
        have h1 := covers_tail_gt a t1 hp1 x hx
        have h2 := (hc x).1 ((covers_cons _ _ _).2 (Or.inr hx))
        rw [covers_cons] at h2
        rcases h2 with h2 | h2
        · have := h2.2; omega
        · exact h2
      · intro hx
        have h1 := covers_tail_gt a t2 hp2 x hx
        have h2 := (hc x).2 ((covers_cons _ _ _).2 (Or.inr hx))
        rw [covers_cons] at h2
        rcases h2 with h2 | h2
        · have := h2.2; omega
        · exact h2
    rw [ht]

/-- The same, in terms of the two checks made by the code. -/
theorem eq_of_checks_of_covers_eq (L1 L2 : List RowRange)
    (hv1 : allValid L1) (hs1 : isSorted L1 = true)
    (hm1 : elementsAreNotMergeable L1 = some true)
    (hv2 : allValid L2) (hs2 : isSorted L2 = true)
    (hm2 : elementsAreNotMergeable L2 = some true)
    (hc : ∀ x, covers L1 x ↔ covers L2 x) : L1 = L2 :=
  eq_of_covers_eq L1 L2 hv1 hv2
    (pairwise_of_checks L1 hv1 hs1 ((elementsAreNotMergeable_iff L1).1 hm1).2)
    (pairwise_of_checks L2 hv2 hs2 ((elementsAreNotMergeable_iff L2).1 hm2).2) hc

/-! ## Repeated addRange -/

theorem checks_nil : isSorted [] = true ∧ elementsAreNotMergeable [] = some true := by
  constructor
  · rfl
  · rfl

theorem addRanges_spec : ∀ (rs L : List RowRange), allValid L → isSorted L = true →
    elementsAreNotMergeable L = some true → allValid rs →
    ∃ L1, addRanges L rs = some L1 ∧ allValid L1 ∧ isSorted L1 = true ∧
      elementsAreNotMergeable L1 = some true ∧
      ∀ x, covers L1 x ↔ covers L x ∨ covers rs x
  | [], L, hv, hs, hm, _ => ⟨L, rfl, hv, hs, hm, by simp [covers]⟩
  | r :: rest, L, hv, hs, hm, hrs => by
    have hr := hrs r (by simp)
    obtain ⟨L1, h1, hv1, hs1, hm1, hc1⟩ := addRange_spec L r hv hs hm hr
    obtain ⟨L2, h2, hv2, hs2, hm2, hc2⟩ :=
      addRanges_spec rest L1 hv1 hs1 hm1 ((allValid_cons _ _).1 hrs).2
    refine ⟨L2, ?_, hv2, hs2, hm2, ?_⟩
    · simp only [addRanges, h1, Option.bind_eq_bind, Option.some_bind]
      exact h2
    · intro x
      rw [hc2, hc1, covers_cons]
      tauto

/-! ## The forward row cursor -/

theorem RowListView.collect_stop (l : List RowRange) (fuel : Nat)
    (first last : RowListViewConstIterator)
    (h : RowListViewConstIterator.eq first last = true) :
    RowListView.collect l fuel first last = some [] := by
  unfold RowListView.collect
  simp [h]

theorem RowListView.collect_step (l : List RowRange) (fuel : Nat)
    (first last next : RowListViewConstIterator) (row : Int)
    (h : RowListViewConstIterator.eq first last = false)
    (hd : RowListViewConstIterator.deref l first = some row)
    (hi : RowListViewConstIterator.increment l first = some next) :
    RowListView.collect l (fuel + 1) first last =
      (RowListView.collect l fuel next last).map (fun rest => row :: rest) := by
  rw [RowListView.collect]
  simp only [h, Bool.false_eq_true, if_false, hd, hi, Option.bind_eq_bind, Option.some_bind]
  cases RowListView.collect l fuel next last <;> rfl

theorem RowListViewConstIterator.eq_false_of_row (c : Int) (i j : Nat) (hc : 0 ≤ c) :
    RowListViewConstIterator.eq ⟨c, i⟩ (RowListViewConstIterator.mk1 j) = false := by
  have : c ≠ -1 := by omega
  simp [RowListViewConstIterator.eq, RowListViewConstIterator.mk1, this]

theorem RowListViewConstIterator.eq_false_of_idx (c : Int) (i j : Nat) (hij : i ≠ j) :
    RowListViewConstIterator.eq ⟨c, i⟩ (RowListViewConstIterator.mk1 j) = false := by
  simp [RowListViewConstIterator.eq, RowListViewConstIterator.mk1, hij]

/-- From a cursor inside a range, at row c, the loop yields the rows c, c+1, ... up to
the last row of the range and goes on from the next range. -/
theorem RowListView.collect_inside (l : List RowRange) (idx : Nat) (r : RowRange)
    (hl : l[idx]? = some r) (hI : r.lastRow ≤ intMax) (fuel : Nat) :
    ∀ (d : Nat) (c : Int), 0 ≤ c → c + d = r.lastRow →
      RowListView.collect l (d + 1 + fuel) ⟨c, idx⟩ (RowListView.cend l) =
        (RowListView.collect l fuel ⟨-1, idx + 1⟩ (RowListView.cend l)).map
          (fun rest => rowsFrom c (d + 1) ++ rest)
  | 0, c, hc, hd => by
    have hne := RowListViewConstIterator.eq_false_of_row c idx l.length hc
    have hdr : RowListViewConstIterator.deref l ⟨c, idx⟩ = some c := by
      simp [RowListViewConstIterator.deref, not_lt.2 hc]
    have hin : RowListViewConstIterator.increment l ⟨c, idx⟩ = some ⟨-1, idx + 1⟩ := by
      have : c = r.lastRow := by omega
      unfold RowListViewConstIterator.increment
      simp only [hl, Option.bind_eq_bind, Option.some_bind, if_neg (not_lt.2 hc)]
      rw [if_pos this]
    rw [show 0 + 1 + fuel = fuel + 1 by omega]
    rw [RowListView.cend, RowListView.collect_step l fuel _ _ _ _ hne hdr hin]
    rfl
  | d + 1, c, hc, hd => by
    have hne := RowListViewConstIterator.eq_false_of_row c idx l.length hc
    have hdr : RowListViewConstIterator.deref l ⟨c, idx⟩ = some c := by
      simp [RowListViewConstIterator.deref, not_lt.2 hc]
    have hin : RowListViewConstIterator.increment l ⟨c, idx⟩ = some ⟨c + 1, idx⟩ := by
      have h1 : ¬ c = r.lastRow := by omega
      have h2 : c + 1 ≤ intMax := by omega
      unfold RowListViewConstIterator.increment
      simp only [hl, Option.bind_eq_bind, Option.some_bind, if_neg (not_lt.2 hc)]
      rw [if_neg h1]
      simp [h2, cassert]
    have ih := RowListView.collect_inside l idx r hl hI fuel d (c + 1) (by omega) (by omega)
    rw [show d + 1 + 1 + fuel = (d + 1 + fuel) + 1 by omega]
    rw [RowListView.cend] at ih ⊢
    rw [RowListView.collect_step l _ _ _ _ _ hne hdr hin, ih, Option.map_map]
    rfl

/-- A cursor whose row is not set behaves like the cursor at the first row of its
range. -/
theorem RowListView.collect_unset (l : List RowRange) (idx : Nat) (r : RowRange)
    (hl : l[idx]? = some r) (hf : 0 ≤ r.firstRow) (fuel : Nat) :
    RowListView.collect l fuel ⟨-1, idx⟩ (RowListView.cend l) =
      RowListView.collect l fuel ⟨r.firstRow, idx⟩ (RowListView.cend l) := by
  have hlt : idx < l.length := (List.getElem?_eq_some.1 hl).1
  have hne1 := RowListViewConstIterator.eq_false_of_idx (-1) idx l.length (by omega)
  have hne2 := RowListViewConstIterator.eq_false_of_row r.firstRow idx l.length hf
  cases fuel with
  | zero =>
    rw [RowListView.cend, RowListView.collect, RowListView.collect]
    simp [hne1, hne2]
  | succ fuel =>
    rw [RowListView.cend, RowListView.collect, RowListView.collect]
    simp only [hne1, hne2, Bool.false_eq_true, if_false]
    have h1 : RowListViewConstIterator.deref l ⟨-1, idx⟩
        = RowListViewConstIterator.deref l ⟨r.firstRow, idx⟩ := by
      simp [RowListViewConstIterator.deref, hl, not_lt.2 hf]
    have h2 : RowListViewConstIterator.increment l ⟨-1, idx⟩
        = RowListViewConstIterator.increment l ⟨r.firstRow, idx⟩ := by
      simp [RowListViewConstIterator.increment, hl, not_lt.2 hf]
    rw [h1, h2]

theorem RowRange.size_pos (r : RowRange) (hv : r.isValid) :
    ∃ d : Nat, r.size = d + 1 ∧ r.firstRow + d = r.lastRow := by
  rw [isValid_iff] at hv
  refine ⟨(r.lastRow - r.firstRow).toNat, ?_, ?_⟩
  · unfold RowRange.size; omega
  · omega

/-- The loop over forward cursors, started at the beginning of a range with the row
not set, yields the rows of this range and of all the following ones, in order. -/
theorem RowListView.collect_from : ∀ (post pre : List RowRange) (fuel : Nat),
    allValid post → allFitInt post → totalRows post ≤ fuel →
    RowListView.collect (pre ++ post) fuel ⟨-1, pre.length⟩ (RowListView.cend (pre ++ post)) =
      some (post.flatMap RowRange.rows)
  | [], pre, fuel, _, _, _ => by
    apply RowListView.collect_stop
    simp [RowListView.cend, RowListViewConstIterator.eq, RowListViewConstIterator.mk1]
  | r :: post, pre, fuel, hv, hI, hf => by
    have hvr := hv r (by simp)
    have hl : (pre ++ r :: post)[pre.length]? = some r := getElem?_append_cons_length pre post r
    obtain ⟨d, hd1, hd2⟩ := r.size_pos hvr
    have hfuel : totalRows (r :: post) = d + 1 + totalRows post := by
      simp [totalRows, hd1]
    obtain ⟨fuel1, rfl⟩ : ∃ fuel1, fuel = d + 1 + fuel1 := ⟨fuel - (d + 1), by omega⟩
    have ih := RowListView.collect_from post (pre ++ [r]) fuel1
      ((allValid_cons _ _).1 hv).2 (fun x hx => hI x (List.mem_cons_of_mem _ hx)) (by omega)
    simp only [List.append_assoc, List.singleton_append, List.length_append,
      List.length_singleton] at ih
    rw [RowListView.collect_unset _ _ r hl ((isValid_iff r).1 hvr).1,
      RowListView.collect_inside _ _ r hl (hI r (by simp)).2.2.2 fuel1 d r.firstRow
        ((isValid_iff r).1 hvr).1 hd2, ih]
    simp [RowRange.rows, hd1]

/-- With enough fuel, iterating a RowListView over valid ranges yields the rows of the
ranges, range after range. -/
theorem RowListView.rows_eq (l : List RowRange) (fuel : Nat) (hv : allValid l)
    (hI : allFitInt l) (hf : totalRows l ≤ fuel) :
    RowListView.rows fuel l = some (l.flatMap RowRange.rows) := by
  have := RowListView.collect_from l [] fuel hv hI hf
  simpa [RowListView.rows, RowListView.cbegin, RowListViewConstIterator.mk1] using this

/-! ## The reverse row cursor -/

theorem ReverseRowListView.rev_collect_stop (l : List RowRange) (fuel : Nat)
    (first last : ReverseRowListViewConstIterator)
    (h : ReverseRowListViewConstIterator.eq first last = true) :
    ReverseRowListView.collect l fuel first last = some [] := by
  unfold ReverseRowListView.collect
  simp [h]

theorem ReverseRowListView.rev_collect_step (l : List RowRange) (fuel : Nat)
    (first last next : ReverseRowListViewConstIterator) (row : Int)
    (h : ReverseRowListViewConstIterator.eq first last = false)
    (hd : ReverseRowListViewConstIterator.deref l first = some row)
    (hi : ReverseRowListViewConstIterator.increment l first = some next) :
    ReverseRowListView.collect l (fuel + 1) first last =
      (ReverseRowListView.collect l fuel next last).map (fun rest => row :: rest) := by
  rw [ReverseRowListView.collect]
  simp only [h, Bool.false_eq_true, if_false, hd, hi, Option.bind_eq_bind, Option.some_bind]
  cases ReverseRowListView.collect l fuel next last <;> rfl

theorem ReverseRowListViewConstIterator.rev_eq_false_of_row (c : Int) (i j : Nat) (hc : 0 ≤ c) :
    ReverseRowListViewConstIterator.eq ⟨c, i⟩ (ReverseRowListViewConstIterator.mk1 j)
      = false := by
  have : c ≠ -1 := by omega
  simp [ReverseRowListViewConstIterator.eq, ReverseRowListViewConstIterator.mk1, this]

theorem ReverseRowListViewConstIterator.rev_eq_false_of_idx (c : Int) (i j : Nat) (hij : i ≠ j) :
    ReverseRowListViewConstIterator.eq ⟨c, i⟩ (ReverseRowListViewConstIterator.mk1 j)
      = false := by
  simp [ReverseRowListViewConstIterator.eq, ReverseRowListViewConstIterator.mk1, hij]

/-- From a reverse cursor inside a range, at row c, the loop yields the rows c, c-1, ...
down to the first row of the range and goes on from the range before. -/
theorem ReverseRowListView.rev_collect_inside (l : List RowRange) (base : Nat) (r : RowRange)
    (hl : reverseIteratorDeref l base = some r) (hf : 0 ≤ r.firstRow) (fuel : Nat) :
    ∀ (d : Nat) (c : Int), r.firstRow + d = c →
      ReverseRowListView.collect l (d + 1 + fuel) ⟨c, base⟩ (ReverseRowListView.cend l) =
        (ReverseRowListView.collect l fuel ⟨-1, base - 1⟩ (ReverseRowListView.cend l)).map
          (fun rest => rowsDownFrom c (d + 1) ++ rest)
  | 0, c, hd => by
    have hc : 0 ≤ c := by omega
    have hne := ReverseRowListViewConstIterator.rev_eq_false_of_row c base 0 hc
    have hdr : ReverseRowListViewConstIterator.deref l ⟨c, base⟩ = some c := by
      simp [ReverseRowListViewConstIterator.deref, not_lt.2 hc]
    have hin : ReverseRowListViewConstIterator.increment l ⟨c, base⟩
        = some ⟨-1, base - 1⟩ := by
      have : c = r.firstRow := by omega
      unfold ReverseRowListViewConstIterator.increment
      simp only [hl, Option.bind_eq_bind, Option.some_bind, if_neg (not_lt.2 hc)]
      rw [if_pos this]
    rw [show 0 + 1 + fuel = fuel + 1 by omega]
    rw [ReverseRowListView.cend, ReverseRowListView.rev_collect_step l fuel _ _ _ _ hne hdr hin]
    rfl
  | d + 1, c, hd => by
    have hc : 0 ≤ c := by omega
    have hne := ReverseRowListViewConstIterator.rev_eq_false_of_row c base 0 hc
    have hdr : ReverseRowListViewConstIterator.deref l ⟨c, base⟩ = some c := by
      simp [ReverseRowListViewConstIterator.deref, not_lt.2 hc]
    have hin : ReverseRowListViewConstIterator.increment l ⟨c, base⟩
        = some ⟨c - 1, base⟩ := by
      have h1 : ¬ c = r.firstRow := by omega
      have h2 : intMin ≤ c - 1 := by unfold intMin; omega
      unfold ReverseRowListViewConstIterator.increment
      simp only [hl, Option.bind_eq_bind, Option.some_bind, if_neg (not_lt.2 hc)]
      rw [if_neg h1]
      simp [h2, cassert]
    have ih := ReverseRowListView.rev_collect_inside l base r hl hf fuel d (c - 1) (by omega)
    rw [show d + 1 + 1 + fuel = (d + 1 + fuel) + 1 by omega]
    rw [ReverseRowListView.cend] at ih ⊢
    rw [ReverseRowListView.rev_collect_step l _ _ _ _ _ hne hdr hin, ih, Option.map_map]
    rfl

/-- A reverse cursor whose row is not set behaves like the cursor at the last row of
its range. -/
theorem ReverseRowListView.rev_collect_unset (l : List RowRange) (base : Nat) (r : RowRange)
    (hl : reverseIteratorDeref l base = some r) (hf : 0 ≤ r.lastRow) (fuel : Nat) :
    ReverseRowListView.collect l fuel ⟨-1, base⟩ (ReverseRowListView.cend l) =
      ReverseRowListView.collect l fuel ⟨r.lastRow, base⟩ (ReverseRowListView.cend l) := by
  have hb : base ≠ 0 := by
    intro h0
    simp [reverseIteratorDeref, h0] at hl
  have hne1 := ReverseRowListViewConstIterator.rev_eq_false_of_idx (-1) base 0 hb
  have hne2 := ReverseRowListViewConstIterator.rev_eq_false_of_row r.lastRow base 0 hf
  cases fuel with
  | zero =>
    rw [ReverseRowListView.cend, ReverseRowListView.collect, ReverseRowListView.collect]
    simp [hne1, hne2]
  | succ fuel =>
    rw [ReverseRowListView.cend, ReverseRowListView.collect, ReverseRowListView.collect]
    simp only [hne1, hne2, Bool.false_eq_true, if_false]
    have h1 : ReverseRowListViewConstIterator.deref l ⟨-1, base⟩
        = ReverseRowListViewConstIterator.deref l ⟨r.lastRow, base⟩ := by
      simp [ReverseRowListViewConstIterator.deref, hl, not_lt.2 hf]
    have h2 : ReverseRowListViewConstIterator.increment l ⟨-1, base⟩
        = ReverseRowListViewConstIterator.increment l ⟨r.lastRow, base⟩ := by
      simp [ReverseRowListViewConstIterator.increment, hl, not_lt.2 hf]
    rw [h1, h2]

/-- The loop over reverse cursors, started at the end of a range with the row not set,
yields the rows of this range and of all the ranges before it, from the last to the
first. -/
theorem ReverseRowListView.rev_collect_from : ∀ (q post : List RowRange) (fuel : Nat),
    allValid q → totalRows q ≤ fuel →
    ReverseRowListView.collect (q.reverse ++ post) fuel ⟨-1, q.length⟩
        (ReverseRowListView.cend (q.reverse ++ post)) =
      some (q.flatMap RowRange.rowsDown)
  | [], post, fuel, _, _ => by
    apply ReverseRowListView.rev_collect_stop
    simp [ReverseRowListView.cend, ReverseRowListViewConstIterator.eq,
      ReverseRowListViewConstIterator.mk1]
  | r :: q, post, fuel, hv, hf => by
    have hvr := (isValid_iff r).1 (hv r (by simp))
    have hlist : (r :: q).reverse ++ post = q.reverse ++ r :: post := by simp
    have hl : reverseIteratorDeref (q.reverse ++ r :: post) (q.length + 1) = some r := by
      have := getElem?_append_cons_length q.reverse post r
      rw [List.length_reverse] at this
      simp [reverseIteratorDeref, this]
    obtain ⟨d, hd1, hd2⟩ := r.size_pos (hv r (by simp))
    have hfuel : totalRows (r :: q) = d + 1 + totalRows q := by
      simp [totalRows, hd1]
    obtain ⟨fuel1, rfl⟩ : ∃ fuel1, fuel = d + 1 + fuel1 := ⟨fuel - (d + 1), by omega⟩
    have ih := ReverseRowListView.rev_collect_from q (r :: post) fuel1
      ((allValid_cons _ _).1 hv).2 (by omega)
    rw [hlist, List.length_cons,
      ReverseRowListView.rev_collect_unset _ _ r hl (by omega),
      ReverseRowListView.rev_collect_inside _ _ r hl hvr.1 fuel1 d r.lastRow hd2]
    simp only [Nat.add_sub_cancel]
    rw [ih]
    simp [RowRange.rowsDown, hd1]

/-- With enough fuel, iterating a ReverseRowListView over valid ranges yields the rows
of the ranges in descending order, from the last range to the first. -/
theorem ReverseRowListView.rev_rows_eq (l : List RowRange) (fuel : Nat) (hv : allValid l)
    (hf : totalRows l ≤ fuel) :
    ReverseRowListView.rows fuel l = some (l.reverse.flatMap RowRange.rowsDown) := by
  have hv1 : allValid l.reverse := fun r hr => hv r (List.mem_reverse.1 hr)
  have hf1 : totalRows l.reverse ≤ fuel := by
    have : totalRows l.reverse = totalRows l := by
      simp [totalRows, List.map_reverse, List.sum_reverse]
    omega
  have := ReverseRowListView.rev_collect_from l.reverse [] fuel hv1 hf1
  simpa [ReverseRowListView.rows, ReverseRowListView.cbegin,
    ReverseRowListViewConstIterator.mk1] using this

theorem rowsFrom_succ (f : Int) (n : Nat) :
    rowsFrom f (n + 1) = rowsFrom f n ++ [f + n] := by
  induction n generalizing f with
  | zero => simp [rowsFrom]
  | succ n ih =>
    rw [rowsFrom, ih (f + 1)]
    simp only [rowsFrom, List.cons_append, Nat.cast_add, Nat.cast_one]
    rw [show f + 1 + (n : Int) = f + ((n : Int) + 1) by omega]

theorem rowsDownFrom_eq_reverse (f : Int) (n : Nat) :
    rowsDownFrom (f + n - 1) n = (rowsFrom f n).reverse := by
  induction n with
  | zero => simp [rowsFrom, rowsDownFrom]
  | succ n ih =>
    rw [rowsFrom_succ, List.reverse_append, rowsDownFrom]
    simp only [List.reverse_cons, List.reverse_nil, List.nil_append, List.singleton_append,
      Nat.cast_add, Nat.cast_one]
    rw [show f + ((n : Int) + 1) - 1 = f + n by omega,
      show f + (n : Int) - 1 = f + n - 1 by omega, ih]

theorem RowRange.rowsDown_eq_reverse (r : RowRange) (hv : r.isValid) :
    r.rowsDown = r.rows.reverse := by
  obtain ⟨d, hd1, hd2⟩ := r.size_pos hv
  unfold RowRange.rowsDown RowRange.rows
  rw [← rowsDownFrom_eq_reverse, hd1]
  congr 1
  push_cast
  omega

/-! ## The rows of a list of ranges -/

theorem mem_rowsFrom (x f : Int) : ∀ n : Nat, x ∈ rowsFrom f n ↔ f ≤ x ∧ x < f + n := by
  intro n
  induction n generalizing f with
  | zero => simp [rowsFrom]
  | succ n ih =>
    rw [rowsFrom, List.mem_cons, ih (f + 1)]
    push_cast
    omega

theorem mem_rows (r : RowRange) (x : Int) : x ∈ r.rows ↔ r.contains x := by
  unfold RowRange.rows RowRange.size RowRange.contains
  rw [mem_rowsFrom]
  omega

theorem pairwise_rowsFrom (f : Int) (n : Nat) :
    (rowsFrom f n).Pairwise (fun a b => a < b) := by
  induction n generalizing f with
  | zero => exact List.Pairwise.nil
  | succ n ih =>
    rw [rowsFrom]
    refine List.pairwise_cons.2 ⟨?_, ih (f + 1)⟩
    intro y hy
    have := (mem_rowsFrom y (f + 1) n).1 hy
    omega

theorem mem_flatMap_rows (l : List RowRange) (x : Int) :
    x ∈ l.flatMap RowRange.rows ↔ covers l x := by
  simp only [List.mem_flatMap, mem_rows, covers]

/-- The rows of pairwise separated ranges, range after range, are strictly ascending. -/
theorem pairwise_flatMap_rows (l : List RowRange) (hp : l.Pairwise gapBefore) :
    (l.flatMap RowRange.rows).Pairwise (fun a b => a < b) := by
  rw [List.pairwise_flatMap]
  refine ⟨fun r _ => pairwise_rowsFrom _ _, ?_⟩
  refine hp.imp ?_
  intro a b hab x hx y hy
  have h1 := (mem_rows a x).1 hx
  have h2 := (mem_rows b y).1 hy
  unfold gapBefore at hab
  unfold RowRange.contains at h1 h2
  omega

theorem flatMap_rowsDown_reverse (l : List RowRange) (hv : allValid l) :
    l.reverse.flatMap RowRange.rowsDown = (l.flatMap RowRange.rows).reverse := by
  induction l with
  | nil => rfl
  | cons a t ih =>
    rw [List.reverse_cons, List.flatMap_append, ih ((allValid_cons _ _).1 hv).2]
    simp [RowRange.rowsDown_eq_reverse a (hv a (by simp))]

theorem count_eq_one_of_pairwise_lt (rows : List Int)
    (hp : rows.Pairwise (fun a b => a < b)) (x : Int) (hx : x ∈ rows) :
    rows.count x = 1 := by
  apply List.count_eq_one_of_mem _ hx
  exact hp.imp (fun h => ne_of_lt h)

/-! ## Building a row selection -/

theorem fromItemSelectionLoop_eq (qtIsValid qtIsEmpty : QItemSelectionRange → Bool) :
    ∀ (sel : List QItemSelectionRange) (L : List RowRange),
    (∀ s ∈ sel, qtIsValid s = true ∧ qtIsEmpty s = false) →
    (∀ s ∈ sel, 0 ≤ s.top ∧ s.top ≤ s.bottom) →
    RowSelection.fromItemSelectionLoop qtIsValid qtIsEmpty L sel =
      addRanges L (sel.map rowRangeOf)
  | [], _, _, _ => rfl
  | s :: rest, L, hq, hrows => by
    have h1 := hq s (by simp)
    have h2 := hrows s (by simp)
    have hr : rowRangeFromItemSelectionRange qtIsValid qtIsEmpty s = some (rowRangeOf s) := by
      unfold rowRangeFromItemSelectionRange
      simp only [h1.1, h1.2, cassert_true, Bool.not_false, Option.bind_eq_bind,
        Option.some_bind]
      exact fromFirstAndLastRow_eq _ _ h2
    simp only [RowSelection.fromItemSelectionLoop, hr, List.map_cons, addRanges,
      Option.bind_eq_bind, Option.some_bind]
    cases hL : RowRangeList.addRange L (rowRangeOf s) with
    | none => rfl
    | some L1 =>
      simp only [Option.some_bind]
      exact fromItemSelectionLoop_eq qtIsValid qtIsEmpty rest L1
        (fun x hx => hq x (List.mem_cons_of_mem _ hx))
        (fun x hx => hrows x (List.mem_cons_of_mem _ hx))

theorem allValid_map_rowRangeOf (sel : List QItemSelectionRange)
    (hrows : ∀ s ∈ sel, 0 ≤ s.top ∧ s.top ≤ s.bottom) : allValid (sel.map rowRangeOf) := by
  intro r hr
  obtain ⟨s, hs, rfl⟩ := List.mem_map.1 hr
  exact (isValid_iff _).2 (hrows s hs)

theorem covers_map_rowRangeOf (sel : List QItemSelectionRange) (x : Int) :
    covers (sel.map rowRangeOf) x ↔ ∃ s ∈ sel, s.top ≤ x ∧ x ≤ s.bottom := by
  simp [covers, rowRangeOf, RowRange.contains]

/-! ## The claims -/

/-- C1: starting from the empty list, for every finite sequence of valid ranges handed
one after the other to addRange, every call returns, and after each call (after the
first k ranges, for every k) the list passes isSorted and elementsAreNotMergeable. -/
theorem C1_addRange_keeps_list_sorted_and_merged (ranges : List RowRange)
    (hv : allValid ranges) (k : Nat) :
    ∃ L, addRanges [] (ranges.take k) = some L ∧ isSorted L = true ∧
      elementsAreNotMergeable L = some true := by
  have hvk : allValid (ranges.take k) := fun r hr => hv r (List.mem_of_mem_take hr)
  obtain ⟨L, h1, _, h3, h4, _⟩ :=
    addRanges_spec (ranges.take k) [] (by simp [allValid]) checks_nil.1 checks_nil.2 hvk
  exact ⟨L, h1, h3, h4⟩

theorem C1_witness :
    allValid [⟨3, 3⟩, ⟨0, 0⟩, ⟨2, 2⟩] ∧
    ∃ L, addRanges [] (([⟨3, 3⟩, ⟨0, 0⟩, ⟨2, 2⟩] : List RowRange).take 2) = some L ∧
      isSorted L = true ∧ elementsAreNotMergeable L = some true :=
  ⟨by decide, C1_addRange_keeps_list_sorted_and_merged [⟨3, 3⟩, ⟨0, 0⟩, ⟨2, 2⟩] (by decide) 2⟩

/-- C2: for a list of valid ranges that passes isSorted and elementsAreNotMergeable and
a valid range r, addRange returns a list that covers exactly the rows covered before
together with the rows firstRow .. lastRow of r. -/
theorem C2_addRange_covers_union (L : List RowRange) (r : RowRange) (hv : allValid L)
    (hs : isSorted L = true) (hm : elementsAreNotMergeable L = some true)
    (hr : r.isValid) :
    ∃ L1, RowRangeList.addRange L r = some L1 ∧
      ∀ x, covers L1 x ↔ covers L x ∨ (r.firstRow ≤ x ∧ x ≤ r.lastRow) := by
  obtain ⟨L1, h1, _, _, _, h5⟩ := addRange_spec L r hv hs hm hr
  exact ⟨L1, h1, h5⟩

theorem C2_witness :
    allValid [⟨0, 1⟩, ⟨6, 8⟩] ∧ isSorted [⟨0, 1⟩, ⟨6, 8⟩] = true ∧
    elementsAreNotMergeable [⟨0, 1⟩, ⟨6, 8⟩] = some true ∧ RowRange.isValid ⟨2, 4⟩ ∧
    (∃ L1, RowRangeList.addRange [⟨0, 1⟩, ⟨6, 8⟩] ⟨2, 4⟩ = some L1 ∧
      ∀ x, covers L1 x ↔ covers [⟨0, 1⟩, ⟨6, 8⟩] x ∨ ((2 : Int) ≤ x ∧ x ≤ 4)) ∧
    RowRangeList.addRange [⟨0, 1⟩, ⟨6, 8⟩] ⟨2, 4⟩ = some [⟨0, 4⟩, ⟨6, 8⟩] ∧
    RowRangeList.addRange [⟨0, 1⟩, ⟨6, 8⟩] ⟨3, 4⟩ = some [⟨0, 1⟩, ⟨3, 4⟩, ⟨6, 8⟩] :=
  ⟨by decide, by decide, by decide, by decide,
    C2_addRange_covers_union [⟨0, 1⟩, ⟨6, 8⟩] ⟨2, 4⟩ (by decide) (by decide) (by decide)
      (by decide),
    by decide, by decide⟩

/-- C3: RowSelection::fromItemSelection, given item ranges that pass the assertions of
rowRangeFromItemSelectionRange and have 0 <= top <= bottom, returns a list of row ranges
that covers exactly the rows top .. bottom of the input ranges; the empty collection
gives the empty list; and any other input with the same tops and bottoms, whatever its
columns, gives the same list. -/
theorem C3_fromItemSelection_covers_rows (qtIsValid qtIsEmpty : QItemSelectionRange → Bool)
    (sel : List QItemSelectionRange)
    (hq : ∀ s ∈ sel, qtIsValid s = true ∧ qtIsEmpty s = false)
    (hrows : ∀ s ∈ sel, 0 ≤ s.top ∧ s.top ≤ s.bottom) :
    ∃ L, RowSelection.fromItemSelection qtIsValid qtIsEmpty sel = some L ∧
      (∀ x, covers L x ↔ ∃ s ∈ sel, s.top ≤ x ∧ x ≤ s.bottom) ∧
      (sel = [] → L = []) ∧
      (∀ sel2 : List QItemSelectionRange,
        (∀ s ∈ sel2, qtIsValid s = true ∧ qtIsEmpty s = false) →
        sel2.map (fun s => (s.top, s.bottom)) = sel.map (fun s => (s.top, s.bottom)) →
        RowSelection.fromItemSelection qtIsValid qtIsEmpty sel2 = some L) := by
  obtain ⟨L, h1, _, _, _, h5⟩ := addRanges_spec (sel.map rowRangeOf) []
    (by simp [allValid]) checks_nil.1 checks_nil.2 (allValid_map_rowRangeOf sel hrows)
  have hL : RowSelection.fromItemSelection qtIsValid qtIsEmpty sel = some L := by
    unfold RowSelection.fromItemSelection
    rw [fromItemSelectionLoop_eq qtIsValid qtIsEmpty sel [] hq hrows, h1]
  refine ⟨L, hL, ?_, ?_, ?_⟩
  · intro x
    rw [h5, covers_map_rowRangeOf]
    simp [covers]
  · intro he
    subst he
    simpa [RowSelection.fromItemSelection, RowSelection.fromItemSelectionLoop] using hL.symm
  · intro sel2 hq2 hmap
    have hmap2 : sel2.map rowRangeOf = sel.map rowRangeOf := by
      have := congrArg (List.map (fun p : Int × Int => (⟨p.1, p.2⟩ : RowRange))) hmap
      simpa [List.map_map, Function.comp, rowRangeOf] using this
    have hrows2 : ∀ s ∈ sel2, 0 ≤ s.top ∧ s.top ≤ s.bottom := by
      intro s hs
      have hv := allValid_map_rowRangeOf sel hrows
      rw [← hmap2] at hv
      exact (isValid_iff _).1 (hv (rowRangeOf s) (List.mem_map_of_mem _ hs))
    unfold RowSelection.fromItemSelection
    rw [fromItemSelectionLoop_eq qtIsValid qtIsEmpty sel2 [] hq2 hrows2, hmap2, h1]

theorem C3_witness :
    (∀ s ∈ ([⟨0, 0, 0, 0⟩, ⟨2, 1, 2, 1⟩, ⟨3, 0, 3, 2⟩] : List QItemSelectionRange),
      (fun s : QItemSelectionRange => decide (s.left ≤ s.right)) s = true ∧
      (fun _ : QItemSelectionRange => false) s = false) ∧
    (∀ s ∈ ([⟨0, 0, 0, 0⟩, ⟨2, 1, 2, 1⟩, ⟨3, 0, 3, 2⟩] : List QItemSelectionRange),
      0 ≤ s.top ∧ s.top ≤ s.bottom) ∧
    RowSelection.fromItemSelection (fun s => decide (s.left ≤ s.right)) (fun _ => false)
      [⟨0, 0, 0, 0⟩, ⟨2, 1, 2, 1⟩, ⟨3, 0, 3, 2⟩] = some [⟨0, 0⟩, ⟨2, 3⟩] ∧
    ∃ L, RowSelection.fromItemSelection (fun s => decide (s.left ≤ s.right)) (fun _ => false)
        [⟨0, 0, 0, 0⟩, ⟨2, 1, 2, 1⟩, ⟨3, 0, 3, 2⟩] = some L ∧
      (∀ x, covers L x ↔
        ∃ s ∈ ([⟨0, 0, 0, 0⟩, ⟨2, 1, 2, 1⟩, ⟨3, 0, 3, 2⟩] : List QItemSelectionRange),
          s.top ≤ x ∧ x ≤ s.bottom) ∧
      (([⟨0, 0, 0, 0⟩, ⟨2, 1, 2, 1⟩, ⟨3, 0, 3, 2⟩] : List QItemSelectionRange) = [] →
        L = []) ∧
      (∀ sel2 : List QItemSelectionRange,
        (∀ s ∈ sel2, (fun s : QItemSelectionRange => decide (s.left ≤ s.right)) s = true ∧
          (fun _ : QItemSelectionRange => false) s = false) →
        sel2.map (fun s => (s.top, s.bottom)) =
          ([⟨0, 0, 0, 0⟩, ⟨2, 1, 2, 1⟩, ⟨3, 0, 3, 2⟩] : List QItemSelectionRange).map
            (fun s => (s.top, s.bottom)) →
        RowSelection.fromItemSelection (fun s => decide (s.left ≤ s.right)) (fun _ => false)
          sel2 = some L) :=
  ⟨by decide, by decide, by decide,
    C3_fromItemSelection_covers_rows (fun s => decide (s.left ≤ s.right)) (fun _ => false)
      [⟨0, 0, 0, 0⟩, ⟨2, 1, 2, 1⟩, ⟨3, 0, 3, 2⟩] (by decide) (by decide)⟩

/-- C4: for item ranges that pass the assertions of rowRangeFromItemSelectionRange and
have 0 <= top <= bottom, and for every permutation of them,
RowSelection::fromItemSelection returns the identical list of row ranges: same ranges,
same order. -/
theorem C4_fromItemSelection_order_independent
    (qtIsValid qtIsEmpty : QItemSelectionRange → Bool)
    (sel1 sel2 : List QItemSelectionRange) (hperm : sel1.Perm sel2)
    (hq : ∀ s ∈ sel1, qtIsValid s = true ∧ qtIsEmpty s = false)
    (hrows : ∀ s ∈ sel1, 0 ≤ s.top ∧ s.top ≤ s.bottom) :
    ∃ L, RowSelection.fromItemSelection qtIsValid qtIsEmpty sel1 = some L ∧
      RowSelection.fromItemSelection qtIsValid qtIsEmpty sel2 = some L := by
  have hq2 : ∀ s ∈ sel2, qtIsValid s = true ∧ qtIsEmpty s = false :=
    fun s hs => hq s (hperm.mem_iff.2 hs)
  have hrows2 : ∀ s ∈ sel2, 0 ≤ s.top ∧ s.top ≤ s.bottom :=
    fun s hs => hrows s (hperm.mem_iff.2 hs)
  obtain ⟨L1, a1, a2, a3, a4, a5⟩ := addRanges_spec (sel1.map rowRangeOf) []
    (by simp [allValid]) checks_nil.1 checks_nil.2 (allValid_map_rowRangeOf sel1 hrows)
  obtain ⟨L2, b1, b2, b3, b4, b5⟩ := addRanges_spec (sel2.map rowRangeOf) []
    (by simp [allValid]) checks_nil.1 checks_nil.2 (allValid_map_rowRangeOf sel2 hrows2)
  have hc : ∀ x, covers L1 x ↔ covers L2 x := by
    intro x
    rw [a5, b5, covers_map_rowRangeOf, covers_map_rowRangeOf]
    constructor
    · rintro (h | ⟨s, hs, hx⟩)
      · exact Or.inl h
      · exact Or.inr ⟨s, hperm.mem_iff.1 hs, hx⟩
    · rintro (h | ⟨s, hs, hx⟩)
      · exact Or.inl h
      · exact Or.inr ⟨s, hperm.mem_iff.2 hs, hx⟩
  have hL : L1 = L2 := eq_of_checks_of_covers_eq L1 L2 a2 a3 a4 b2 b3 b4 hc
  refine ⟨L1, ?_, ?_⟩
  · unfold RowSelection.fromItemSelection
    rw [fromItemSelectionLoop_eq qtIsValid qtIsEmpty sel1 [] hq hrows, a1]
  · unfold RowSelection.fromItemSelection
    rw [fromItemSelectionLoop_eq qtIsValid qtIsEmpty sel2 [] hq2 hrows2, b1, hL]

theorem C4_witness :
    ([⟨0, 0, 0, 0⟩, ⟨2, 0, 2, 0⟩, ⟨3, 0, 3, 0⟩] : List QItemSelectionRange).Perm
      [⟨3, 0, 3, 0⟩, ⟨0, 0, 0, 0⟩, ⟨2, 0, 2, 0⟩] ∧
    (∀ s ∈ ([⟨0, 0, 0, 0⟩, ⟨2, 0, 2, 0⟩, ⟨3, 0, 3, 0⟩] : List QItemSelectionRange),
      (fun _ : QItemSelectionRange => true) s = true ∧
      (fun _ : QItemSelectionRange => false) s = false) ∧
    (∀ s ∈ ([⟨0, 0, 0, 0⟩, ⟨2, 0, 2, 0⟩, ⟨3, 0, 3, 0⟩] : List QItemSelectionRange),
      0 ≤ s.top ∧ s.top ≤ s.bottom) ∧
    ∃ L, RowSelection.fromItemSelection (fun _ => true) (fun _ => false)
        [⟨0, 0, 0, 0⟩, ⟨2, 0, 2, 0⟩, ⟨3, 0, 3, 0⟩] = some L ∧
      RowSelection.fromItemSelection (fun _ => true) (fun _ => false)
        [⟨3, 0, 3, 0⟩, ⟨0, 0, 0, 0⟩, ⟨2, 0, 2, 0⟩] = some L :=
  ⟨by decide, by decide, by decide,
    C4_fromItemSelection_order_independent (fun _ => true) (fun _ => false)
      [⟨0, 0, 0, 0⟩, ⟨2, 0, 2, 0⟩, ⟨3, 0, 3, 0⟩] [⟨3, 0, 3, 0⟩, ⟨0, 0, 0, 0⟩, ⟨2, 0, 2, 0⟩]
      (by decide) (by decide) (by decide)⟩

/-- C5: on a list of valid ranges that passes isSorted and elementsAreNotMergeable,
addRange(A) then addRange(B), and addRange(B) then addRange(A), both return, and the
two lists cover the same rows. -/
theorem C5_addRange_two_ranges_commute_on_rows (L : List RowRange) (A B : RowRange)
    (hv : allValid L) (hs : isSorted L = true)
    (hm : elementsAreNotMergeable L = some true) (hA : A.isValid) (hB : B.isValid) :
    ∃ L1 L2,
      (RowRangeList.addRange L A).bind (fun LA => RowRangeList.addRange LA B) = some L1 ∧
      (RowRangeList.addRange L B).bind (fun LB => RowRangeList.addRange LB A) = some L2 ∧
      ∀ x, covers L1 x ↔ covers L2 x := by
  obtain ⟨LA, a1, a2, a3, a4, a5⟩ := addRange_spec L A hv hs hm hA
  obtain ⟨LAB, b1, _, _, _, b5⟩ := addRange_spec LA B a2 a3 a4 hB
  obtain ⟨LB, c1, c2, c3, c4, c5⟩ := addRange_spec L B hv hs hm hB
  obtain ⟨LBA, d1, _, _, _, d5⟩ := addRange_spec LB A c2 c3 c4 hA
  refine ⟨LAB, LBA, by simp [a1, b1], by simp [c1, d1], ?_⟩
  intro x
  rw [b5, a5, d5, c5]
  tauto

theorem C5_witness :
    allValid [⟨5, 6⟩] ∧ isSorted [⟨5, 6⟩] = true ∧
    elementsAreNotMergeable [⟨5, 6⟩] = some true ∧
    RowRange.isValid ⟨0, 1⟩ ∧ RowRange.isValid ⟨2, 4⟩ ∧
    ∃ L1 L2,
      (RowRangeList.addRange [⟨5, 6⟩] ⟨0, 1⟩).bind
        (fun LA => RowRangeList.addRange LA ⟨2, 4⟩) = some L1 ∧
      (RowRangeList.addRange [⟨5, 6⟩] ⟨2, 4⟩).bind
        (fun LB => RowRangeList.addRange LB ⟨0, 1⟩) = some L2 ∧
      ∀ x, covers L1 x ↔ covers L2 x :=
  ⟨by decide, by decide, by decide, by decide, by decide,
    C5_addRange_two_ranges_commute_on_rows [⟨5, 6⟩] ⟨0, 1⟩ ⟨2, 4⟩ (by decide) (by decide)
      (by decide) (by decide) (by decide)⟩

/-- C6: on a list of valid ranges that passes isSorted and elementsAreNotMergeable,
adding a valid range that is fully covered by one element of the list returns the list
unchanged: same number of ranges, same ranges, same order. -/
theorem C6_addRange_of_covered_range_changes_nothing (L : List RowRange) (r e : RowRange)
    (hv : allValid L) (hs : isSorted L = true)
    (hm : elementsAreNotMergeable L = some true) (hr : r.isValid)
    (he : e ∈ L) (h1 : e.firstRow ≤ r.firstRow) (h2 : r.lastRow ≤ e.lastRow) :
    RowRangeList.addRange L r = some L := by
  obtain ⟨L1, a1, a2, a3, a4, a5⟩ := addRange_spec L r hv hs hm hr
  have hc : ∀ x, covers L1 x ↔ covers L x := by
    intro x
    rw [a5]
    constructor
    · rintro (h | h)
      · exact h
      · exact ⟨e, he, le_trans h1 h.1, le_trans h.2 h2⟩
    · exact Or.inl
  rw [a1, eq_of_checks_of_covers_eq L1 L a2 a3 a4 hv hs hm hc]

theorem C6_witness :
    allValid [⟨0, 1⟩, ⟨3, 7⟩] ∧ isSorted [⟨0, 1⟩, ⟨3, 7⟩] = true ∧
    elementsAreNotMergeable [⟨0, 1⟩, ⟨3, 7⟩] = some true ∧ RowRange.isValid ⟨4, 5⟩ ∧
    (⟨3, 7⟩ : RowRange) ∈ [(⟨0, 1⟩ : RowRange), ⟨3, 7⟩] ∧ (3 : Int) ≤ 4 ∧ (5 : Int) ≤ 7 ∧
    RowRangeList.addRange [⟨0, 1⟩, ⟨3, 7⟩] ⟨4, 5⟩ = some [⟨0, 1⟩, ⟨3, 7⟩] :=
  ⟨by decide, by decide, by decide, by decide, by decide, by decide, by decide,
    C6_addRange_of_covered_range_changes_nothing [⟨0, 1⟩, ⟨3, 7⟩] ⟨4, 5⟩ ⟨3, 7⟩ (by decide)
      (by decide) (by decide) (by decide) (by decide) (by decide) (by decide)⟩

/-- C7: for a list of valid ranges that passes isSorted and elementsAreNotMergeable, the
forward RowListView yields a sequence of rows, and adding each of these rows r, in this
order, as the unit range [r,r] to an empty list returns exactly the list one started
from. -/
theorem C7_rows_then_unit_ranges_round_trip (L : List RowRange) (fuel : Nat)
    (hv : allValid L) (hI : allFitInt L) (hs : isSorted L = true)
    (hm : elementsAreNotMergeable L = some true) (hf : totalRows L ≤ fuel) :
    ∃ rows, RowListView.rows fuel L = some rows ∧
      addRanges [] (rows.map unitRange) = some L := by
  refine ⟨L.flatMap RowRange.rows, RowListView.rows_eq L fuel hv hI hf, ?_⟩
  have hvu : allValid ((L.flatMap RowRange.rows).map unitRange) := by
    intro u hu
    obtain ⟨x, hx, rfl⟩ := List.mem_map.1 hu
    obtain ⟨r, hr, hxr⟩ := (mem_flatMap_rows L x).1 hx
    have := (isValid_iff r).1 (hv r hr)
    exact (isValid_iff _).2 ⟨le_trans this.1 hxr.1, le_refl _⟩
  obtain ⟨L1, a1, a2, a3, a4, a5⟩ := addRanges_spec _ [] (by simp [allValid]) checks_nil.1
    checks_nil.2 hvu
  have hc : ∀ x, covers L1 x ↔ covers L x := by
    intro x
    rw [a5, ← mem_flatMap_rows L x]
    simp only [covers, List.mem_map, unitRange, RowRange.contains]
    constructor
    · rintro (⟨_, h, _⟩ | ⟨_, ⟨y, hy, rfl⟩, h3, h4⟩)
      · simp at h
      · have : x = y := le_antisymm h4 h3
        rw [this]; exact hy
    · intro hx
      exact Or.inr ⟨_, ⟨x, hx, rfl⟩, le_refl _, le_refl _⟩
  rw [a1, eq_of_checks_of_covers_eq L1 L a2 a3 a4 hv hs hm hc]

theorem C7_witness :
    allValid [⟨0, 2⟩, ⟨4, 5⟩] ∧ allFitInt [⟨0, 2⟩, ⟨4, 5⟩] ∧
    isSorted [⟨0, 2⟩, ⟨4, 5⟩] = true ∧
    elementsAreNotMergeable [⟨0, 2⟩, ⟨4, 5⟩] = some true ∧
    totalRows [⟨0, 2⟩, ⟨4, 5⟩] ≤ 5 ∧
    ∃ rows, RowListView.rows 5 [⟨0, 2⟩, ⟨4, 5⟩] = some rows ∧
      addRanges [] (rows.map unitRange) = some [⟨0, 2⟩, ⟨4, 5⟩] :=
  ⟨by decide, by decide, by decide, by decide, by decide,
    C7_rows_then_unit_ranges_round_trip [⟨0, 2⟩, ⟨4, 5⟩] 5 (by decide) (by decide)
      (by decide) (by decide) (by decide)⟩

/-- C8: for every list of valid ranges, iterating a RowListView from cbegin() to cend()
yields exactly the rows firstRow, firstRow+1, ..., lastRow of each range, range after
range in list order; when the list passes isSorted and elementsAreNotMergeable these
rows are strictly ascending, they are the covered rows and no other row, and every
covered row comes exactly once. -/
theorem C8_forward_view_yields_rows_of_ranges (l : List RowRange) (fuel : Nat)
    (hv : allValid l) (hI : allFitInt l) (hf : totalRows l ≤ fuel) :
    RowListView.rows fuel l = some (l.flatMap RowRange.rows) ∧
    (isSorted l = true → elementsAreNotMergeable l = some true →
      (l.flatMap RowRange.rows).Pairwise (fun a b => a < b) ∧
      (∀ x, x ∈ l.flatMap RowRange.rows ↔ covers l x) ∧
      (∀ x, covers l x → (l.flatMap RowRange.rows).count x = 1)) := by
  refine ⟨RowListView.rows_eq l fuel hv hI hf, ?_⟩
  intro hs hm
  have hp := pairwise_of_checks l hv hs ((elementsAreNotMergeable_iff l).1 hm).2
  have hlt := pairwise_flatMap_rows l hp
  refine ⟨hlt, mem_flatMap_rows l, ?_⟩
  intro x hx
  exact count_eq_one_of_pairwise_lt _ hlt x ((mem_flatMap_rows l x).2 hx)

theorem C8_witness :
    allValid [⟨0, 2⟩, ⟨4, 5⟩] ∧ allFitInt [⟨0, 2⟩, ⟨4, 5⟩] ∧
    totalRows [⟨0, 2⟩, ⟨4, 5⟩] ≤ 5 ∧
    RowListView.rows 5 [⟨0, 2⟩, ⟨4, 5⟩] = some [0, 1, 2, 4, 5] ∧
    RowListView.rows 5 [⟨0, 2⟩, ⟨4, 5⟩]
      = some (([⟨0, 2⟩, ⟨4, 5⟩] : List RowRange).flatMap RowRange.rows) ∧
    (([⟨0, 2⟩, ⟨4, 5⟩] : List RowRange).flatMap RowRange.rows).Pairwise (fun a b => a < b) ∧
    (∀ x, x ∈ ([⟨0, 2⟩, ⟨4, 5⟩] : List RowRange).flatMap RowRange.rows ↔
      covers [⟨0, 2⟩, ⟨4, 5⟩] x) ∧
    (∀ x, covers [⟨0, 2⟩, ⟨4, 5⟩] x →
      (([⟨0, 2⟩, ⟨4, 5⟩] : List RowRange).flatMap RowRange.rows).count x = 1) :=
  ⟨by decide, by decide, by decide, by decide,
    (C8_forward_view_yields_rows_of_ranges [⟨0, 2⟩, ⟨4, 5⟩] 5 (by decide) (by decide)
      (by decide)).1,
    (C8_forward_view_yields_rows_of_ranges [⟨0, 2⟩, ⟨4, 5⟩] 5 (by decide) (by decide)
      (by decide)).2 (by decide) (by decide)⟩

/-- C9: for every list of valid ranges that passes isSorted and elementsAreNotMergeable,
iterating a ReverseRowListView from cbegin() to cend() yields the rows lastRow, ...,
firstRow of each range, from the last range to the first; these rows are strictly
descending, they are the covered rows and no other row, and every covered row comes
exactly once. -/
theorem C9_reverse_view_yields_rows_descending (l : List RowRange) (fuel : Nat)
    (hv : allValid l) (hs : isSorted l = true)
    (hm : elementsAreNotMergeable l = some true) (hf : totalRows l ≤ fuel) :
    ∃ rows, ReverseRowListView.rows fuel l = some rows ∧
      rows = l.reverse.flatMap RowRange.rowsDown ∧
      rows.Pairwise (fun a b => a > b) ∧
      (∀ x, x ∈ rows ↔ covers l x) ∧
      (∀ x, covers l x → rows.count x = 1) := by
  have hp := pairwise_of_checks l hv hs ((elementsAreNotMergeable_iff l).1 hm).2
  have hlt := pairwise_flatMap_rows l hp
  have hrev := flatMap_rowsDown_reverse l hv
  refine ⟨_, ReverseRowListView.rev_rows_eq l fuel hv hf, rfl, ?_, ?_, ?_⟩
  · rw [hrev, List.pairwise_reverse]
    exact hlt
  · intro x
    rw [hrev, List.mem_reverse]
    exact mem_flatMap_rows l x
  · intro x hx
    rw [hrev, List.count_reverse]
    exact count_eq_one_of_pairwise_lt _ hlt x ((mem_flatMap_rows l x).2 hx)

theorem C9_witness :
    allValid [⟨0, 1⟩, ⟨3, 5⟩] ∧ isSorted [⟨0, 1⟩, ⟨3, 5⟩] = true ∧
    elementsAreNotMergeable [⟨0, 1⟩, ⟨3, 5⟩] = some true ∧
    totalRows [⟨0, 1⟩, ⟨3, 5⟩] ≤ 5 ∧
    ReverseRowListView.rows 5 [⟨0, 1⟩, ⟨3, 5⟩] = some [5, 4, 3, 1, 0] ∧
    ∃ rows, ReverseRowListView.rows 5 [⟨0, 1⟩, ⟨3, 5⟩] = some rows ∧
      rows = ([⟨0, 1⟩, ⟨3, 5⟩] : List RowRange).reverse.flatMap RowRange.rowsDown ∧
      rows.Pairwise (fun a b => a > b) ∧
      (∀ x, x ∈ rows ↔ covers [⟨0, 1⟩, ⟨3, 5⟩] x) ∧
      (∀ x, covers [⟨0, 1⟩, ⟨3, 5⟩] x → rows.count x = 1) :=
  ⟨by decide, by decide, by decide, by decide, by decide,
    C9_reverse_view_yields_rows_descending [⟨0, 1⟩, ⟨3, 5⟩] 5 (by decide) (by decide)
      (by decide) (by decide)⟩

/-- C10: for every list of valid ranges (non-empty or not), the rows produced by the
forward RowListView, reversed, are the rows produced by the ReverseRowListView over the
same list. -/
theorem C10_forward_rows_reversed_are_reverse_rows (l : List RowRange) (fuel : Nat)
    (hv : allValid l) (hI : allFitInt l) (hf : totalRows l ≤ fuel) :
    ∃ forwardRows reverseRows, RowListView.rows fuel l = some forwardRows ∧
      ReverseRowListView.rows fuel l = some reverseRows ∧
      forwardRows.reverse = reverseRows :=
  ⟨_, _, RowListView.rows_eq l fuel hv hI hf, ReverseRowListView.rev_rows_eq l fuel hv hf,
    (flatMap_rowsDown_reverse l hv).symm⟩

theorem C10_witness :
    allValid [⟨0, 1⟩, ⟨3, 5⟩] ∧ allFitInt [⟨0, 1⟩, ⟨3, 5⟩] ∧
    totalRows [⟨0, 1⟩, ⟨3, 5⟩] ≤ 7 ∧
    ∃ forwardRows reverseRows, RowListView.rows 7 [⟨0, 1⟩, ⟨3, 5⟩] = some forwardRows ∧
      ReverseRowListView.rows 7 [⟨0, 1⟩, ⟨3, 5⟩] = some reverseRows ∧
      forwardRows.reverse = reverseRows :=
  ⟨by decide, by decide, by decide,
    C10_forward_rows_reversed_are_reverse_rows [⟨0, 1⟩, ⟨3, 5⟩] 7 (by decide) (by decide)
      (by decide)⟩

/-! ## Removing the selected rows -/

theorem wrapInt_eq (x : Int) (h1 : intMin ≤ x) (h2 : x ≤ intMax) : wrapInt x = x := by
  unfold intMin at h1
  unfold intMax at h2
  unfold wrapInt
  omega

theorem rowCount_eq (r : RowRange) (hv : r.isValid) (h : r.lastRow - r.firstRow < intMax) :
    r.rowCount = r.lastRow - r.firstRow + 1 := by
  rw [isValid_iff] at hv
  unfold intMax at h
  unfold RowRange.rowCount wrapInt
  omega

theorem rowIsCovered_iff (l : List RowRange) (row : Int) :
    rowIsCovered l row = true ↔ covers l row := by
  simp [rowIsCovered, covers, RowRange.contains]

theorem rowsNotIn_append {α : Type} (p : Int → Bool) : ∀ (A B : List α) (i : Int),
    rowsNotIn p i (A ++ B) = rowsNotIn p i A ++ rowsNotIn p (i + A.length) B
  | [], B, i => by simp [rowsNotIn]
  | a :: A, B, i => by
    have ih := rowsNotIn_append p A B (i + 1)
    have e : i + 1 + (A.length : Int) = i + ((a :: A).length : Int) := by
      simp only [List.length_cons]; push_cast; omega
    rw [e] at ih
    rw [List.cons_append, rowsNotIn, rowsNotIn, ih]
    split_ifs <;> rfl

theorem rowsNotIn_congr {α : Type} (p q : Int → Bool) : ∀ (l : List α) (i : Int),
    (∀ j, i ≤ j → j < i + l.length → p j = q j) → rowsNotIn p i l = rowsNotIn q i l
  | [], _, _ => rfl
  | a :: l, i, h => by
    have h0 : p i = q i := h i (le_refl _) (by simp only [List.length_cons]; push_cast; omega)
    have ih := rowsNotIn_congr p q l (i + 1) (fun j h1 h2 =>
      h j (by omega) (by simp only [List.length_cons]; push_cast; omega))
    simp only [rowsNotIn, h0, ih]

theorem rowsNotIn_of_none {α : Type} (p : Int → Bool) : ∀ (l : List α) (i : Int),
    (∀ j, i ≤ j → j < i + l.length → p j = false) → rowsNotIn p i l = l
  | [], _, _ => rfl
  | a :: l, i, h => by
    have h0 : p i = false := h i (le_refl _) (by simp only [List.length_cons]; push_cast; omega)
    have ih := rowsNotIn_of_none p l (i + 1) (fun j h1 h2 =>
      h j (by omega) (by simp only [List.length_cons]; push_cast; omega))
    simp [rowsNotIn, h0, ih]

theorem rowsNotIn_of_all {α : Type} (p : Int → Bool) : ∀ (l : List α) (i : Int),
    (∀ j, i ≤ j → j < i + l.length → p j = true) → rowsNotIn p i l = []
  | [], _, _ => rfl
  | a :: l, i, h => by
    have h0 : p i = true := h i (le_refl _) (by simp only [List.length_cons]; push_cast; omega)
    have ih := rowsNotIn_of_all p l (i + 1) (fun j h1 h2 =>
      h j (by omega) (by simp only [List.length_cons]; push_cast; omega))
    simp [rowsNotIn, h0, ih]

/-- Removing the rows f .. l from a list of rows, when every other covered row is
below f - 1, leaves the rows that are not covered once the range [f, l] is counted in. -/
theorem rowsNotIn_remove_top {α : Type} (p q : Int → Bool) (rows : List α) (f c : Nat)
    (hlen : f + c ≤ rows.length)
    (hlow : ∀ j : Int, j < f → q j = p j)
    (hmid : ∀ j : Int, (f : Int) ≤ j → j < f + c → q j = true)
    (hhigh : ∀ j : Int, (f : Int) + c ≤ j → q j = false)
    (hp : ∀ j : Int, (f : Int) ≤ j → p j = false) :
    rowsNotIn p 0 (rows.take f ++ rows.drop (f + c)) = rowsNotIn q 0 rows := by
  have e1 : rows = rows.take f ++ ((rows.drop f).take c ++ rows.drop (f + c)) := by
    rw [← List.drop_drop, List.take_append_drop, List.take_append_drop]
  have l1 : (rows.take f).length = f := by rw [List.length_take]; omega
  have l2 : ((rows.drop f).take c).length = c := by
    rw [List.length_take, List.length_drop]; omega
  conv_rhs => rw [e1]
  rw [rowsNotIn_append, rowsNotIn_append, rowsNotIn_append, l1, l2]
  rw [rowsNotIn_congr q p (rows.take f) 0 (fun j _ h2 => hlow j (by rw [l1] at h2; omega))]
  rw [rowsNotIn_of_all q ((rows.drop f).take c) _ (fun j h1 h2 =>
    hmid j (by omega) (by rw [l2] at h2; omega))]
  rw [rowsNotIn_of_none q (rows.drop (f + c)) _ (fun j h1 _ => hhigh j (by omega))]
  rw [rowsNotIn_of_none p (rows.drop (f + c)) _ (fun j h1 _ => hp j (by omega))]
  simp

theorem rowIsCovered_cons (r : RowRange) (Q : List RowRange) (j : Int) :
    rowIsCovered (r :: Q) j =
      ((decide (r.firstRow ≤ j) && decide (j ≤ r.lastRow)) || rowIsCovered Q j) := by
  simp [rowIsCovered]

theorem listRemoveRows_range {α : Type} (rows : List α) (r : RowRange) (hv : r.isValid)
    (hl : r.lastRow < rows.length) (hI : (rows.length : Int) ≤ intMax) :
    listRemoveRows rows r.firstRow r.rowCount =
      some (rows.take r.firstRow.toNat ++
        rows.drop (r.firstRow.toNat + (r.lastRow - r.firstRow + 1).toNat)) := by
  have hc := rowCount_eq r hv (by rw [isValid_iff] at hv; omega)
  rw [isValid_iff] at hv
  have hval : rowAndCountIsValidForRemoveRows rows.length r.firstRow
      (r.lastRow - r.firstRow + 1) = true := by
    unfold rowAndCountIsValidForRemoveRows
    split_ifs <;> first | omega | rfl
  unfold listRemoveRows
  rw [hc, hval, if_pos rfl]
  congr 3
  omega

/-- The loop of removeSelectedRows on the list model that keeps its calls: on valid
row ranges, each at least two rows above the next one and all inside the model, every
call succeeds, the calls are those of the ranges in the order of the loop, and the rows
left are the rows that no range covers. -/
theorem removeSelectedRowsLoop_logged {α : Type} : ∀ (Q S : List RowRange) (rows : List α)
    (log : List (Int × Int)),
    allValid Q → Q.Pairwise (fun a b => gapBefore b a) →
    (∀ r ∈ Q, r.lastRow < rows.length) → (rows.length : Int) ≤ intMax →
    removeSelectedRowsLoop loggedRemoveRows (Q.reverse ++ S) Q.length (rows, log) =
        some (true, (rowsNotIn (rowIsCovered Q) 0 rows, log ++ Q.map removeRowsCallOf)) ∧
      replayRemoveRows rows (Q.map removeRowsCallOf) =
        some (rowsNotIn (rowIsCovered Q) 0 rows)
  | [], S, rows, log, _, _, _, _ => by
    have h : rowsNotIn (rowIsCovered []) 0 rows = rows :=
      rowsNotIn_of_none _ _ _ (fun j _ _ => by simp [rowIsCovered])
    simp [removeSelectedRowsLoop, replayRemoveRows, h]
  | r :: Q, S, rows, log, hv, hp, hl, hI => by
    have hvr := hv r (by simp)
    have hvr1 := (isValid_iff r).1 hvr
    have hlr := hl r (by simp)
    have hpc := List.pairwise_cons.1 hp
    have hlist : (r :: Q).reverse ++ S = Q.reverse ++ r :: S := by simp
    have hd : reverseIteratorDeref (Q.reverse ++ r :: S) (Q.length + 1) = some r := by
      have := getElem?_append_cons_length Q.reverse S r
      rw [List.length_reverse] at this
      simp [reverseIteratorDeref, this]
    have hrm := listRemoveRows_range rows r hvr hlr hI
    have hlen1 : r.firstRow ≤ ((rows.take r.firstRow.toNat ++
        rows.drop (r.firstRow.toNat + (r.lastRow - r.firstRow + 1).toNat)).length : Int) := by
      rw [List.length_append, List.length_take, List.length_drop]
      omega
    have hlen2 : ((rows.take r.firstRow.toNat ++
        rows.drop (r.firstRow.toNat + (r.lastRow - r.firstRow + 1).toNat)).length : Int)
          ≤ intMax := by
      rw [List.length_append, List.length_take, List.length_drop]
      omega
    have ih := removeSelectedRowsLoop_logged Q (r :: S)
      (rows.take r.firstRow.toNat ++
        rows.drop (r.firstRow.toNat + (r.lastRow - r.firstRow + 1).toNat))
      (log ++ [removeRowsCallOf r]) ((allValid_cons _ _).1 hv).2 hpc.2
      (fun q hq => by
        have hg := hpc.1 q hq
        unfold gapBefore at hg
        omega) hlen2
    have hnot : ∀ j : Int, r.firstRow ≤ j → rowIsCovered Q j = false := by
      intro j hj
      by_contra hc
      have hc1 : rowIsCovered Q j = true := by simpa using hc
      obtain ⟨q, hq, _, hq2⟩ := (rowIsCovered_iff Q j).1 hc1
      have hg := hpc.1 q hq
      unfold gapBefore at hg
      omega
    have hrows := rowsNotIn_remove_top (rowIsCovered Q) (rowIsCovered (r :: Q)) rows
      r.firstRow.toNat (r.lastRow - r.firstRow + 1).toNat (by omega)
      (fun j hj => by
        rw [rowIsCovered_cons]
        have : decide (r.firstRow ≤ j) = false := by simp; omega
        simp [this])
      (fun j h1 h2 => by
        rw [rowIsCovered_cons]
        have e1 : decide (r.firstRow ≤ j) = true := by simp; omega
        have e2 : decide (j ≤ r.lastRow) = true := by simp; omega
        simp [e1, e2])
      (fun j h1 => by
        rw [rowIsCovered_cons, hnot j (by omega)]
        have : decide (j ≤ r.lastRow) = false := by simp; omega
        simp [this])
      (fun j h1 => hnot j (by omega))
    constructor
    · rw [hlist, List.length_cons, removeSelectedRowsLoop]
      simp only [hd, Option.bind_eq_bind, Option.some_bind, loggedRemoveRows, hrm]
      rw [show (r.firstRow, r.rowCount) = removeRowsCallOf r from rfl, ih.1, hrows]
      simp
    · rw [List.map_cons, replayRemoveRows]
      have e : (removeRowsCallOf r).1 = r.firstRow ∧ (removeRowsCallOf r).2 = r.rowCount :=
        ⟨rfl, rfl⟩
      simp only [e.1, e.2, hrm, Option.bind_eq_bind, Option.some_bind]
      rw [ih.2, hrows]

theorem rowIsSelected_iff (sel : List QItemSelectionRange) (row : Int) :
    rowIsSelected sel row = true ↔ ∃ s ∈ sel, s.top ≤ row ∧ row ≤ s.bottom := by
  simp [rowIsSelected]

theorem covers_reverse (l : List RowRange) (x : Int) : covers l.reverse x ↔ covers l x := by
  simp [covers]

/-- C11: the target is a list of rows that keeps the calls made on it, whose removeRows
deletes a span and fails on a span that is not inside the list. For every item selection
whose rows are all inside the model, removeSelectedRows returns true; it makes one call
removeRows(firstRow, lastRow - firstRow + 1) per range of the derived row selection, whose
ranges are pairwise disjoint and not adjacent, from the last range to the first; made
in this order on the model every one of these calls is valid; and the model is left
with exactly the rows in which no item was selected, in their original order. -/
theorem C11_removeSelectedRows_removes_selected_rows {α : Type}
    (qtIsValid qtIsEmpty : QItemSelectionRange → Bool) (rows : List α)
    (sel : List QItemSelectionRange)
    (hq : ∀ s ∈ sel, qtIsValid s = true ∧ qtIsEmpty s = false)
    (hrows : ∀ s ∈ sel, 0 ≤ s.top ∧ s.top ≤ s.bottom ∧ s.bottom < rows.length)
    (hI : (rows.length : Int) ≤ intMax) :
    ∃ rowSelection,
      RowSelection.fromItemSelection qtIsValid qtIsEmpty sel = some rowSelection ∧
      rowSelection.Pairwise gapBefore ∧
      (∀ r ∈ rowSelection, removeRowsCallOf r = (r.firstRow, r.lastRow - r.firstRow + 1)) ∧
      removeSelectedRows qtIsValid qtIsEmpty loggedRemoveRows (rows, []) sel =
        some (true, (unselectedRows sel rows, rowSelection.reverse.map removeRowsCallOf)) ∧
      replayRemoveRows rows (rowSelection.reverse.map removeRowsCallOf) =
        some (unselectedRows sel rows) := by
  have hrows1 : ∀ s ∈ sel, 0 ≤ s.top ∧ s.top ≤ s.bottom := fun s hs =>
    ⟨(hrows s hs).1, (hrows s hs).2.1⟩
  obtain ⟨L, h1, h2, h3, h4, h5⟩ := addRanges_spec (sel.map rowRangeOf) []
    (by simp [allValid]) checks_nil.1 checks_nil.2 (allValid_map_rowRangeOf sel hrows1)
  have hL : RowSelection.fromItemSelection qtIsValid qtIsEmpty sel = some L := by
    unfold RowSelection.fromItemSelection
    rw [fromItemSelectionLoop_eq qtIsValid qtIsEmpty sel [] hq hrows1, h1]
  have hp := pairwise_of_checks L h2 h3 ((elementsAreNotMergeable_iff L).1 h4).2
  have hcov : ∀ x, covers L x ↔ ∃ s ∈ sel, s.top ≤ x ∧ x ≤ s.bottom := by
    intro x
    rw [h5, covers_map_rowRangeOf]
    simp [covers]
  have hlast : ∀ r ∈ L, r.lastRow < rows.length := by
    intro r hr
    have hvr := (isValid_iff r).1 (h2 r hr)
    obtain ⟨s, hs, _, hs2⟩ := (hcov r.lastRow).1 ⟨r, hr, hvr.2, le_refl _⟩
    have := (hrows s hs).2.2
    omega
  have hcall : ∀ r ∈ L, removeRowsCallOf r = (r.firstRow, r.lastRow - r.firstRow + 1) := by
    intro r hr
    have hvr := (isValid_iff r).1 (h2 r hr)
    have := hlast r hr
    unfold removeRowsCallOf
    rw [rowCount_eq r (h2 r hr) (by omega)]
  have hloop := removeSelectedRowsLoop_logged L.reverse [] rows []
    (fun r hr => h2 r (List.mem_reverse.1 hr))
    (List.pairwise_reverse.2 hp)
    (fun r hr => hlast r (List.mem_reverse.1 hr)) hI
  have hsame : rowsNotIn (rowIsCovered L.reverse) 0 rows = unselectedRows sel rows := by
    unfold unselectedRows
    apply rowsNotIn_congr
    intro j _ _
    rw [Bool.eq_iff_iff, rowIsCovered_iff, covers_reverse, hcov, rowIsSelected_iff]
  rw [hsame] at hloop
  simp only [List.reverse_reverse, List.append_nil, List.length_reverse, List.nil_append]
    at hloop
  refine ⟨L, hL, hp, hcall, ?_, hloop.2⟩
  unfold removeSelectedRows
  simp only [hL, Option.bind_eq_bind, Option.some_bind]
  exact hloop.1

theorem C11_witness :
    (∀ s ∈ ([⟨0, 0, 0, 0⟩, ⟨2, 0, 2, 0⟩, ⟨3, 0, 3, 0⟩] : List QItemSelectionRange),
      (fun _ : QItemSelectionRange => true) s = true ∧
      (fun _ : QItemSelectionRange => false) s = false) ∧
    (∀ s ∈ ([⟨0, 0, 0, 0⟩, ⟨2, 0, 2, 0⟩, ⟨3, 0, 3, 0⟩] : List QItemSelectionRange),
      0 ≤ s.top ∧ s.top ≤ s.bottom ∧ s.bottom < (["A", "B", "C", "D"] : List String).length) ∧
    ((["A", "B", "C", "D"] : List String).length : Int) ≤ intMax ∧
    removeSelectedRows (fun _ => true) (fun _ => false) loggedRemoveRows
      (["A", "B", "C", "D"], []) [⟨0, 0, 0, 0⟩, ⟨2, 0, 2, 0⟩, ⟨3, 0, 3, 0⟩]
      = some (true, (["B"], [(2, 2), (0, 1)])) ∧
    ∃ rowSelection,
      RowSelection.fromItemSelection (fun _ => true) (fun _ => false)
        [⟨0, 0, 0, 0⟩, ⟨2, 0, 2, 0⟩, ⟨3, 0, 3, 0⟩] = some rowSelection ∧
      rowSelection.Pairwise gapBefore ∧
      (∀ r ∈ rowSelection, removeRowsCallOf r = (r.firstRow, r.lastRow - r.firstRow + 1)) ∧
      removeSelectedRows (fun _ => true) (fun _ => false) loggedRemoveRows
        (["A", "B", "C", "D"], []) [⟨0, 0, 0, 0⟩, ⟨2, 0, 2, 0⟩, ⟨3, 0, 3, 0⟩] =
        some (true, (unselectedRows [⟨0, 0, 0, 0⟩, ⟨2, 0, 2, 0⟩, ⟨3, 0, 3, 0⟩]
          ["A", "B", "C", "D"], rowSelection.reverse.map removeRowsCallOf)) ∧
      replayRemoveRows ["A", "B", "C", "D"] (rowSelection.reverse.map removeRowsCallOf) =
        some (unselectedRows [⟨0, 0, 0, 0⟩, ⟨2, 0, 2, 0⟩, ⟨3, 0, 3, 0⟩]
          ["A", "B", "C", "D"]) :=
  ⟨by decide, by decide, by decide, by decide,
    C11_removeSelectedRows_removes_selected_rows (fun _ => true) (fun _ => false)
      ["A", "B", "C", "D"] [⟨0, 0, 0, 0⟩, ⟨2, 0, 2, 0⟩, ⟨3, 0, 3, 0⟩]
      (by decide) (by decide) (by decide)⟩

/-! ## addRange runs without a failed assertion -/

/-- The calls made by addRange on a non-empty list cut in three: the search of the
first element to merge returns, and when it finds an element, the search of the last
element to merge and mergeRangesUntil return on the elements from there on. -/
theorem Split.calls_return {A M B : List RowRange} {r : RowRange} (h : Split A M B r)
    (hne : A ++ (M ++ B) ≠ []) :
    ∃ p, findFirstElementToMerge (A ++ (M ++ B))
        (findPotentialInsertionPoint (A ++ (M ++ B)) r) r = some p ∧
      p ≤ (A ++ (M ++ B)).length ∧
      (p ≠ (A ++ (M ++ B)).length →
        (∃ k, findLastElementToMerge ((A ++ (M ++ B)).drop p) r = some k) ∧
        (∃ l1 e, mergeRangesUntil ((A ++ (M ++ B)).drop p) r = some (l1, e))) := by
  have hc := checks_of_pairwise _ h.valid h.pairwise
  cases M with
  | nil =>
    have hip := h.insertionPoint.1 rfl
    have hall : ∀ e ∈ A ++ ([] ++ B), rangesShouldBeMerged e r = false := by
      intro e he
      rcases List.mem_append.1 he with he1 | he1
      · exact h.notMergedA e he1
      · exact h.notMergedB e (by simpa using he1)
    have hf := findFirstElementToMerge_none (A ++ ([] ++ B)) A.length r hne hc.1 hall
      (by simp)
    rw [hip]
    exact ⟨_, hf, le_refl _, fun hne1 => absurd rfl hne1⟩
  | cons m1 rest =>
    have hf := findFirstElementToMerge_some A (rest ++ B) m1 r
      (findPotentialInsertionPoint (A ++ (m1 :: rest ++ B)) r) hc.1 h.notMergedA
      (h.touch m1 (by simp))
      (by rcases h.insertionPoint.2 with h1 | h1
          · exact Or.inl h1
          · exact Or.inr h1.2)
    have hvMB : allValid (m1 :: (rest ++ B)) := ((allValid_append _ _).1 h.valid).2
    have hcMB := checks_of_pairwise _ hvMB h.pairwiseMB
    have hlast := findLastElementToMerge_run m1 rest B r hcMB.1 (h.touch m1 (by simp))
      (fun e he => h.touch e (List.mem_cons_of_mem _ he)) h.notMergedB
    obtain ⟨l1, e, hm1, _⟩ := mergeRangesUntil_run m1 rest B r hvMB h.rvalid h.pairwiseMB
      (h.touch m1 (by simp)) (fun e he => h.touch e (List.mem_cons_of_mem _ he)) h.notMergedB
    simp only [List.cons_append] at hf ⊢
    refine ⟨A.length, hf, by simp, fun _ => ?_⟩
    rw [List.drop_left]
    exact ⟨⟨_, hlast⟩, ⟨l1, e, hm1⟩⟩

/-- C12: for every list of valid ranges that passes isSorted and elementsAreNotMergeable
and every valid range, addRange runs to its end: no assertion fails and no position
outside of the list is dereferenced, the list returned holds valid ranges only and
passes the two closing assertions; on a non-empty list findFirstElementToMerge returns,
and when it finds an element, findLastElementToMerge and mergeRangesUntil (with the
assertions of their preconditions, of mergeRanges and of fromFirstAndLastRow) return. -/
theorem C12_addRange_violates_no_assertion (L : List RowRange) (r : RowRange)
    (hv : allValid L) (hs : isSorted L = true)
    (hm : elementsAreNotMergeable L = some true) (hr : r.isValid) :
    (∃ L1, RowRangeList.addRange L r = some L1 ∧ allValid L1 ∧ isSorted L1 = true ∧
      elementsAreNotMergeable L1 = some true) ∧
    (L ≠ [] →
      ∃ p, findFirstElementToMerge L (findPotentialInsertionPoint L r) r = some p ∧
        p ≤ L.length ∧
        (p ≠ L.length →
          (∃ k, findLastElementToMerge (L.drop p) r = some k) ∧
          (∃ l1 e, mergeRangesUntil (L.drop p) r = some (l1, e)))) := by
  constructor
  · obtain ⟨L1, h1, h2, h3, h4, _⟩ := addRange_spec L r hv hs hm hr
    exact ⟨L1, h1, h2, h3, h4⟩
  · intro hne
    have hp := pairwise_of_checks L hv hs ((elementsAreNotMergeable_iff L).1 hm).2
    obtain ⟨A, M, B, hL, h⟩ := exists_split r hr L hv hp
    subst hL
    exact h.calls_return hne

theorem C12_witness :
    allValid [⟨0, 1⟩, ⟨3, 4⟩, ⟨6, 7⟩, ⟨9, 10⟩] ∧
    isSorted [⟨0, 1⟩, ⟨3, 4⟩, ⟨6, 7⟩, ⟨9, 10⟩] = true ∧
    elementsAreNotMergeable [⟨0, 1⟩, ⟨3, 4⟩, ⟨6, 7⟩, ⟨9, 10⟩] = some true ∧
    RowRange.isValid ⟨2, 5⟩ ∧
    (∃ L1, RowRangeList.addRange [⟨0, 1⟩, ⟨3, 4⟩, ⟨6, 7⟩, ⟨9, 10⟩] ⟨2, 5⟩ = some L1 ∧
      allValid L1 ∧ isSorted L1 = true ∧ elementsAreNotMergeable L1 = some true) ∧
    (([⟨0, 1⟩, ⟨3, 4⟩, ⟨6, 7⟩, ⟨9, 10⟩] : List RowRange) ≠ [] →
      ∃ p, findFirstElementToMerge [⟨0, 1⟩, ⟨3, 4⟩, ⟨6, 7⟩, ⟨9, 10⟩]
          (findPotentialInsertionPoint [⟨0, 1⟩, ⟨3, 4⟩, ⟨6, 7⟩, ⟨9, 10⟩] ⟨2, 5⟩) ⟨2, 5⟩
          = some p ∧
        p ≤ ([⟨0, 1⟩, ⟨3, 4⟩, ⟨6, 7⟩, ⟨9, 10⟩] : List RowRange).length ∧
        (p ≠ ([⟨0, 1⟩, ⟨3, 4⟩, ⟨6, 7⟩, ⟨9, 10⟩] : List RowRange).length →
          (∃ k, findLastElementToMerge
            (([⟨0, 1⟩, ⟨3, 4⟩, ⟨6, 7⟩, ⟨9, 10⟩] : List RowRange).drop p) ⟨2, 5⟩ = some k) ∧
          (∃ l1 e, mergeRangesUntil
            (([⟨0, 1⟩, ⟨3, 4⟩, ⟨6, 7⟩, ⟨9, 10⟩] : List RowRange).drop p) ⟨2, 5⟩
              = some (l1, e)))) :=
  ⟨by decide, by decide, by decide, by decide,
    C12_addRange_violates_no_assertion [⟨0, 1⟩, ⟨3, 4⟩, ⟨6, 7⟩, ⟨9, 10⟩] ⟨2, 5⟩ (by decide)
      (by decide) (by decide) (by decide)⟩

/-- C13: in every list of valid ranges that passes isSorted and
elementsAreNotMergeable, any two elements at positions i < j satisfy
list[i].lastRow + 1 < list[j].firstRow; this holds in particular for every list that
repeated addRange builds from the empty list. -/
theorem C13_ranges_pairwise_disjoint_not_adjacent (l : List RowRange) (hv : allValid l)
    (hs : isSorted l = true) (hm : elementsAreNotMergeable l = some true) :
    (∀ (i j : Nat) (hi : i < j) (hj : j < l.length),
      (l.get ⟨i, lt_trans hi hj⟩).lastRow + 1 < (l.get ⟨j, hj⟩).firstRow) ∧
    (∀ ranges : List RowRange, allValid ranges →
      ∃ L, addRanges l ranges = some L ∧
        ∀ (i j : Nat) (hi : i < j) (hj : j < L.length),
          (L.get ⟨i, lt_trans hi hj⟩).lastRow + 1 < (L.get ⟨j, hj⟩).firstRow) := by
  have key : ∀ L : List RowRange, L.Pairwise gapBefore →
      ∀ (i j : Nat) (hi : i < j) (hj : j < L.length),
        (L.get ⟨i, lt_trans hi hj⟩).lastRow + 1 < (L.get ⟨j, hj⟩).firstRow := by
    intro L hp i j hi hj
    exact List.pairwise_iff_get.1 hp ⟨i, lt_trans hi hj⟩ ⟨j, hj⟩ hi
  constructor
  · exact key l (pairwise_of_checks l hv hs ((elementsAreNotMergeable_iff l).1 hm).2)
  · intro ranges hvr
    obtain ⟨L, h1, h2, h3, h4, _⟩ := addRanges_spec ranges l hv hs hm hvr
    exact ⟨L, h1, key L (pairwise_of_checks L h2 h3 ((elementsAreNotMergeable_iff L).1 h4).2)⟩

theorem C13_witness :
    allValid [⟨0, 1⟩, ⟨3, 4⟩, ⟨9, 10⟩] ∧ isSorted [⟨0, 1⟩, ⟨3, 4⟩, ⟨9, 10⟩] = true ∧
    elementsAreNotMergeable [⟨0, 1⟩, ⟨3, 4⟩, ⟨9, 10⟩] = some true ∧
    (∀ (i j : Nat) (hi : i < j)
      (hj : j < ([⟨0, 1⟩, ⟨3, 4⟩, ⟨9, 10⟩] : List RowRange).length),
      (([⟨0, 1⟩, ⟨3, 4⟩, ⟨9, 10⟩] : List RowRange).get ⟨i, lt_trans hi hj⟩).lastRow + 1 <
        (([⟨0, 1⟩, ⟨3, 4⟩, ⟨9, 10⟩] : List RowRange).get ⟨j, hj⟩).firstRow) ∧
    (∀ ranges : List RowRange, allValid ranges →
      ∃ L, addRanges [⟨0, 1⟩, ⟨3, 4⟩, ⟨9, 10⟩] ranges = some L ∧
        ∀ (i j : Nat) (hi : i < j) (hj : j < L.length),
          (L.get ⟨i, lt_trans hi hj⟩).lastRow + 1 < (L.get ⟨j, hj⟩).firstRow) :=
  ⟨by decide, by decide, by decide,
    C13_ranges_pairwise_disjoint_not_adjacent [⟨0, 1⟩, ⟨3, 4⟩, ⟨9, 10⟩] (by decide)
      (by decide) (by decide)⟩

/-! ## The cursors reach the end after as many increments as there are rows -/

theorem RowListViewConstIterator.incrementN_add (l : List RowRange) :
    ∀ (a b : Nat) (it : RowListViewConstIterator),
    RowListViewConstIterator.incrementN l (a + b) it =
      (RowListViewConstIterator.incrementN l a it).bind
        (RowListViewConstIterator.incrementN l b)
  | 0, b, it => by simp [RowListViewConstIterator.incrementN]
  | a + 1, b, it => by
    rw [show a + 1 + b = (a + b) + 1 by omega]
    simp only [RowListViewConstIterator.incrementN, Option.bind_eq_bind]
    cases RowListViewConstIterator.increment l it with
    | none => rfl
    | some it1 =>
      simp only [Option.some_bind]
      exact RowListViewConstIterator.incrementN_add l a b it1

theorem RowListViewConstIterator.increment_inner (l : List RowRange) (idx : Nat)
    (r : RowRange) (c : Int) (hl : l[idx]? = some r) (hc : 0 ≤ c) (h1 : c < r.lastRow)
    (hI : r.lastRow ≤ intMax) :
    RowListViewConstIterator.increment l ⟨c, idx⟩ = some ⟨c + 1, idx⟩ := by
  have h2 : c + 1 ≤ intMax := by omega
  unfold RowListViewConstIterator.increment
  simp only [hl, Option.bind_eq_bind, Option.some_bind, if_neg (not_lt.2 hc)]
  rw [if_neg (by omega)]
  simp [h2, cassert]

theorem RowListViewConstIterator.increment_last (l : List RowRange) (idx : Nat)
    (r : RowRange) (c : Int) (hl : l[idx]? = some r) (hc : 0 ≤ c) (h1 : c = r.lastRow) :
    RowListViewConstIterator.increment l ⟨c, idx⟩ = some ⟨-1, idx + 1⟩ := by
  unfold RowListViewConstIterator.increment
  simp only [hl, Option.bind_eq_bind, Option.some_bind, if_neg (not_lt.2 hc)]
  rw [if_pos h1]

theorem RowListViewConstIterator.increment_unset (l : List RowRange) (idx : Nat)
    (r : RowRange) (hl : l[idx]? = some r) (hf : 0 ≤ r.firstRow) :
    RowListViewConstIterator.increment l ⟨-1, idx⟩ =
      RowListViewConstIterator.increment l ⟨r.firstRow, idx⟩ := by
  simp [RowListViewConstIterator.increment, hl, not_lt.2 hf]

/-- Increments of a forward cursor inside a range, from row c on: after j increments,
j at most the number d of rows left after c, the cursor is at row c + j of the same
range; one increment more and it is at the next range, its row not set. -/
theorem RowListViewConstIterator.incrementN_inside (l : List RowRange) (idx : Nat)
    (r : RowRange) (hl : l[idx]? = some r) (hI : r.lastRow ≤ intMax) :
    ∀ (d : Nat) (c : Int), 0 ≤ c → c + d = r.lastRow →
      (∀ j : Nat, j ≤ d →
        RowListViewConstIterator.incrementN l j ⟨c, idx⟩ = some ⟨c + j, idx⟩) ∧
      RowListViewConstIterator.incrementN l (d + 1) ⟨c, idx⟩ = some ⟨-1, idx + 1⟩
  | 0, c, hc, hd => by
    constructor
    · intro j hj
      have : j = 0 := by omega
      subst this
      simp [RowListViewConstIterator.incrementN]
    · simp only [RowListViewConstIterator.incrementN, Option.bind_eq_bind]
      rw [RowListViewConstIterator.increment_last l idx r c hl hc (by omega)]
      rfl
  | d + 1, c, hc, hd => by
    have hin := RowListViewConstIterator.increment_inner l idx r c hl hc (by omega) hI
    have ih := RowListViewConstIterator.incrementN_inside l idx r hl hI d (c + 1)
      (by omega) (by push_cast at hd; omega)
    constructor
    · intro j hj
      cases j with
      | zero => simp [RowListViewConstIterator.incrementN]
      | succ j =>
        simp only [RowListViewConstIterator.incrementN, Option.bind_eq_bind, hin,
          Option.some_bind]
        rw [ih.1 j (by omega)]
        congr 2
        push_cast
        omega
    · rw [RowListViewConstIterator.incrementN]
      simp only [Option.bind_eq_bind, hin, Option.some_bind]
      exact ih.2

/-- Increments of a forward cursor from the beginning of a valid range of d + 1 rows,
its row not set: after at most d increments it is still at this range and can be
dereferenced, after d + 1 increments it is at the next range, its row not set. -/
theorem RowListViewConstIterator.incrementN_range (l : List RowRange) (idx : Nat)
    (r : RowRange) (hl : l[idx]? = some r) (hv : r.isValid) (hI : r.lastRow ≤ intMax)
    (d : Nat) (hd : r.firstRow + d = r.lastRow) :
    (∀ j : Nat, j ≤ d → ∃ it, RowListViewConstIterator.incrementN l j ⟨-1, idx⟩ = some it ∧
      it.mRowRangeListIterator = idx ∧ (RowListViewConstIterator.deref l it).isSome = true) ∧
    RowListViewConstIterator.incrementN l (d + 1) ⟨-1, idx⟩ = some ⟨-1, idx + 1⟩ := by
  have hf := ((isValid_iff r).1 hv).1
  have hin := RowListViewConstIterator.incrementN_inside l idx r hl hI d r.firstRow hf hd
  have hun := RowListViewConstIterator.increment_unset l idx r hl hf
  have hstep : ∀ j : Nat, RowListViewConstIterator.incrementN l (j + 1) ⟨-1, idx⟩ =
      RowListViewConstIterator.incrementN l (j + 1) ⟨r.firstRow, idx⟩ := by
    intro j
    simp only [RowListViewConstIterator.incrementN, hun]
  constructor
  · intro j hj
    cases j with
    | zero =>
      refine ⟨⟨-1, idx⟩, rfl, rfl, ?_⟩
      simp [RowListViewConstIterator.deref, hl]
    | succ j =>
      rw [hstep j, hin.1 (j + 1) hj]
      refine ⟨_, rfl, rfl, ?_⟩
      have : ¬ (r.firstRow + ((j + 1 : Nat) : Int) < 0) := by omega
      unfold RowListViewConstIterator.deref
      rw [if_neg this]
      rfl
  · rw [hstep d, hin.2]

/-- Increments of a forward cursor from the beginning of a range on, through this range
and the following ones (post): before all their rows are passed the cursor is at a
range of the list and can be dereferenced; when all are passed it is the cursor made
from cend(). -/
theorem RowListViewConstIterator.incrementN_from : ∀ (post pre : List RowRange),
    allValid post → allFitInt post →
    (∀ k : Nat, k < totalRows post →
      ∃ it, RowListViewConstIterator.incrementN (pre ++ post) k ⟨-1, pre.length⟩ = some it ∧
        it.mRowRangeListIterator < (pre ++ post).length ∧
        (RowListViewConstIterator.deref (pre ++ post) it).isSome = true) ∧
    RowListViewConstIterator.incrementN (pre ++ post) (totalRows post) ⟨-1, pre.length⟩ =
      some ⟨-1, (pre ++ post).length⟩
  | [], pre, _, _ => by
    simp [totalRows, RowListViewConstIterator.incrementN]
  | r :: post, pre, hv, hI => by
    have hvr := hv r (by simp)
    have hl : (pre ++ r :: post)[pre.length]? = some r := getElem?_append_cons_length pre post r
    obtain ⟨d, hd1, hd2⟩ := r.size_pos hvr
    have hT : totalRows (r :: post) = d + 1 + totalRows post := by
      simp [totalRows, hd1]
    have hrange := RowListViewConstIterator.incrementN_range (pre ++ r :: post) pre.length r
      hl hvr (hI r (by simp)).2.2.2 d hd2
    have ih := RowListViewConstIterator.incrementN_from post (pre ++ [r])
      ((allValid_cons _ _).1 hv).2 (fun x hx => hI x (List.mem_cons_of_mem _ hx))
    simp only [List.append_assoc, List.singleton_append, List.length_append,
      List.length_singleton] at ih
    constructor
    · intro k hk
      by_cases hkd : k ≤ d
      · obtain ⟨it, h1, h2, h3⟩ := hrange.1 k hkd
        refine ⟨it, h1, ?_, h3⟩
        rw [h2]; simp
      · obtain ⟨k1, rfl⟩ : ∃ k1, k = d + 1 + k1 := ⟨k - (d + 1), by omega⟩
        rw [RowListViewConstIterator.incrementN_add, hrange.2]
        simp only [Option.some_bind]
        obtain ⟨it, h1, h2, h3⟩ := ih.1 k1 (by omega)
        refine ⟨it, h1, ?_, h3⟩
        simpa using h2
    · rw [hT, RowListViewConstIterator.incrementN_add, hrange.2]
      simp only [Option.some_bind]
      rw [ih.2]
      simp

theorem ReverseRowListViewConstIterator.rev_incrementN_add (l : List RowRange) :
    ∀ (a b : Nat) (it : ReverseRowListViewConstIterator),
    ReverseRowListViewConstIterator.incrementN l (a + b) it =
      (ReverseRowListViewConstIterator.incrementN l a it).bind
        (ReverseRowListViewConstIterator.incrementN l b)
  | 0, b, it => by simp [ReverseRowListViewConstIterator.incrementN]
  | a + 1, b, it => by
    rw [show a + 1 + b = (a + b) + 1 by omega]
    simp only [ReverseRowListViewConstIterator.incrementN, Option.bind_eq_bind]
    cases ReverseRowListViewConstIterator.increment l it with
    | none => rfl
    | some it1 =>
      simp only [Option.some_bind]
      exact ReverseRowListViewConstIterator.rev_incrementN_add l a b it1

theorem ReverseRowListViewConstIterator.rev_increment_inner (l : List RowRange) (base : Nat)
    (r : RowRange) (c : Int) (hl : reverseIteratorDeref l base = some r)
    (hf : 0 ≤ r.firstRow) (h1 : r.firstRow < c) :
    ReverseRowListViewConstIterator.increment l ⟨c, base⟩ = some ⟨c - 1, base⟩ := by
  have hc : 0 ≤ c := by omega
  have h2 : intMin ≤ c - 1 := by unfold intMin; omega
  unfold ReverseRowListViewConstIterator.increment
  simp only [hl, Option.bind_eq_bind, Option.some_bind, if_neg (not_lt.2 hc)]
  rw [if_neg (by omega)]
  simp [h2, cassert]

theorem ReverseRowListViewConstIterator.rev_increment_last (l : List RowRange) (base : Nat)
    (r : RowRange) (c : Int) (hl : reverseIteratorDeref l base = some r)
    (hc : 0 ≤ c) (h1 : c = r.firstRow) :
    ReverseRowListViewConstIterator.increment l ⟨c, base⟩ = some ⟨-1, base - 1⟩ := by
  unfold ReverseRowListViewConstIterator.increment
  simp only [hl, Option.bind_eq_bind, Option.some_bind, if_neg (not_lt.2 hc)]
  rw [if_pos h1]

theorem ReverseRowListViewConstIterator.rev_increment_unset (l : List RowRange) (base : Nat)
    (r : RowRange) (hl : reverseIteratorDeref l base = some r) (hf : 0 ≤ r.lastRow) :
    ReverseRowListViewConstIterator.increment l ⟨-1, base⟩ =
      ReverseRowListViewConstIterator.increment l ⟨r.lastRow, base⟩ := by
  simp [ReverseRowListViewConstIterator.increment, hl, not_lt.2 hf]

/-- Increments of a reverse cursor inside a range, from row c on: after j increments,
j at most the number d of rows left before c, the cursor is at row c - j of the same
range; one increment more and it is at the range before, its row not set. -/
theorem ReverseRowListViewConstIterator.rev_incrementN_inside (l : List RowRange)
    (base : Nat) (r : RowRange) (hl : reverseIteratorDeref l base = some r)
    (hf : 0 ≤ r.firstRow) :
    ∀ (d : Nat) (c : Int), r.firstRow + d = c →
      (∀ j : Nat, j ≤ d →
        ReverseRowListViewConstIterator.incrementN l j ⟨c, base⟩ = some ⟨c - j, base⟩) ∧
      ReverseRowListViewConstIterator.incrementN l (d + 1) ⟨c, base⟩ = some ⟨-1, base - 1⟩
  | 0, c, hd => by
    constructor
    · intro j hj
      have : j = 0 := by omega
      subst this
      simp [ReverseRowListViewConstIterator.incrementN]
    · simp only [ReverseRowListViewConstIterator.incrementN, Option.bind_eq_bind]
      rw [ReverseRowListViewConstIterator.rev_increment_last l base r c hl (by omega)
        (by omega)]
      rfl
  | d + 1, c, hd => by
    have hin := ReverseRowListViewConstIterator.rev_increment_inner l base r c hl hf
      (by push_cast at hd; omega)
    have ih := ReverseRowListViewConstIterator.rev_incrementN_inside l base r hl hf d (c - 1)
      (by push_cast at hd; omega)
    constructor
    · intro j hj
      cases j with
      | zero => simp [ReverseRowListViewConstIterator.incrementN]
      | succ j =>
        simp only [ReverseRowListViewConstIterator.incrementN, Option.bind_eq_bind, hin,
          Option.some_bind]
        rw [ih.1 j (by omega)]
        congr 2
        push_cast
        omega
    · rw [ReverseRowListViewConstIterator.incrementN]
      simp only [Option.bind_eq_bind, hin, Option.some_bind]
      exact ih.2

/-- Increments of a reverse cursor from the end of a valid range of d + 1 rows, its
row not set: after at most d increments it is still at this range and can be
dereferenced, after d + 1 increments it is at the range before, its row not set. -/
theorem ReverseRowListViewConstIterator.rev_incrementN_range (l : List RowRange)
    (base : Nat) (r : RowRange) (hl : reverseIteratorDeref l base = some r)
    (hv : r.isValid) (d : Nat) (hd : r.firstRow + d = r.lastRow) :
    (∀ j : Nat, j ≤ d →
      ∃ it, ReverseRowListViewConstIterator.incrementN l j ⟨-1, base⟩ = some it ∧
        it.mRowRangeListIterator = base ∧
        (ReverseRowListViewConstIterator.deref l it).isSome = true) ∧
    ReverseRowListViewConstIterator.incrementN l (d + 1) ⟨-1, base⟩ = some ⟨-1, base - 1⟩ := by
  have hf := ((isValid_iff r).1 hv).1
  have hin := ReverseRowListViewConstIterator.rev_incrementN_inside l base r hl hf d
    r.lastRow hd
  have hun := ReverseRowListViewConstIterator.rev_increment_unset l base r hl (by omega)
  have hstep : ∀ j : Nat, ReverseRowListViewConstIterator.incrementN l (j + 1) ⟨-1, base⟩ =
      ReverseRowListViewConstIterator.incrementN l (j + 1) ⟨r.lastRow, base⟩ := by
    intro j
    simp only [ReverseRowListViewConstIterator.incrementN, hun]
  constructor
  · intro j hj
    cases j with
    | zero =>
      refine ⟨⟨-1, base⟩, rfl, rfl, ?_⟩
      simp [ReverseRowListViewConstIterator.deref, hl]
    | succ j =>
      rw [hstep j, hin.1 (j + 1) hj]
      refine ⟨_, rfl, rfl, ?_⟩
      have : ¬ (r.lastRow - ((j + 1 : Nat) : Int) < 0) := by omega
      unfold ReverseRowListViewConstIterator.deref
      rw [if_neg this]
      rfl
  · rw [hstep d, hin.2]

/-- Increments of a reverse cursor from the end of a range on, through this range and
the ranges before it (q, from the last to the first): before all their rows are passed
the cursor is at a range of the list and can be dereferenced; when all are passed it is
the cursor made from crend(). -/
theorem ReverseRowListViewConstIterator.rev_incrementN_from :
    ∀ (q post : List RowRange), allValid q →
    (∀ k : Nat, k < totalRows q →
      ∃ it, ReverseRowListViewConstIterator.incrementN (q.reverse ++ post) k ⟨-1, q.length⟩
          = some it ∧
        0 < it.mRowRangeListIterator ∧
        (ReverseRowListViewConstIterator.deref (q.reverse ++ post) it).isSome = true) ∧
    ReverseRowListViewConstIterator.incrementN (q.reverse ++ post) (totalRows q)
      ⟨-1, q.length⟩ = some ⟨-1, 0⟩
  | [], post, _ => by
    simp [totalRows, ReverseRowListViewConstIterator.incrementN]
  | r :: q, post, hv => by
    have hvr := hv r (by simp)
    have hlist : (r :: q).reverse ++ post = q.reverse ++ r :: post := by simp
    have hl : reverseIteratorDeref (q.reverse ++ r :: post) (q.length + 1) = some r := by
      have := getElem?_append_cons_length q.reverse post r
      rw [List.length_reverse] at this
      simp [reverseIteratorDeref, this]
    obtain ⟨d, hd1, hd2⟩ := r.size_pos hvr
    have hT : totalRows (r :: q) = d + 1 + totalRows q := by
      simp [totalRows, hd1]
    have hrange := ReverseRowListViewConstIterator.rev_incrementN_range
      (q.reverse ++ r :: post) (q.length + 1) r hl hvr d hd2
    have ih := ReverseRowListViewConstIterator.rev_incrementN_from q (r :: post)
      ((allValid_cons _ _).1 hv).2
    rw [hlist, List.length_cons]
    simp only [Nat.add_sub_cancel] at hrange
    constructor
    · intro k hk
      by_cases hkd : k ≤ d
      · obtain ⟨it, h1, h2, h3⟩ := hrange.1 k hkd
        refine ⟨it, h1, ?_, h3⟩
        rw [h2]; omega
      · obtain ⟨k1, rfl⟩ : ∃ k1, k = d + 1 + k1 := ⟨k - (d + 1), by omega⟩
        rw [ReverseRowListViewConstIterator.rev_incrementN_add, hrange.2]
        simp only [Option.some_bind]
        exact ih.1 k1 (by omega)
    · rw [hT, ReverseRowListViewConstIterator.rev_incrementN_add, hrange.2]
      simp only [Option.some_bind]
      exact ih.2

/-- C14: for every list of valid ranges holding int values (a range may end at the
largest int), with N the sum of lastRow - firstRow + 1 over the ranges: after every
number k < N of increments the forward cursor made from cbegin() exists (no increment
left the list or overflowed), is not equal to the cursor made from cend() and can be
dereferenced; after exactly N increments it is equal to the cursor made from cend().
The same holds for the reverse cursor between crbegin() and crend(). -/
theorem C14_cursors_meet_the_end_after_all_rows (l : List RowRange) (hv : allValid l)
    (hI : allFitInt l) :
    (∀ k : Nat, k < totalRows l →
      ∃ it, RowListViewConstIterator.incrementN l k (RowListView.cbegin l) = some it ∧
        RowListViewConstIterator.eq it (RowListView.cend l) = false ∧
        (RowListViewConstIterator.deref l it).isSome = true) ∧
    (∃ it, RowListViewConstIterator.incrementN l (totalRows l) (RowListView.cbegin l)
        = some it ∧
      RowListViewConstIterator.eq it (RowListView.cend l) = true) ∧
    (∀ k : Nat, k < totalRows l →
      ∃ it, ReverseRowListViewConstIterator.incrementN l k (ReverseRowListView.cbegin l)
          = some it ∧
        ReverseRowListViewConstIterator.eq it (ReverseRowListView.cend l) = false ∧
        (ReverseRowListViewConstIterator.deref l it).isSome = true) ∧
    (∃ it, ReverseRowListViewConstIterator.incrementN l (totalRows l)
        (ReverseRowListView.cbegin l) = some it ∧
      ReverseRowListViewConstIterator.eq it (ReverseRowListView.cend l) = true) := by
  have hfw := RowListViewConstIterator.incrementN_from l [] hv hI
  simp only [List.nil_append, List.length_nil] at hfw
  have hvr : allValid l.reverse := fun r hr => hv r (List.mem_reverse.1 hr)
  have hTr : totalRows l.reverse = totalRows l := by
    simp [totalRows, List.map_reverse, List.sum_reverse]
  have hrv := ReverseRowListViewConstIterator.rev_incrementN_from l.reverse [] hvr
  simp only [List.reverse_reverse, List.append_nil, List.length_reverse, hTr] at hrv
  refine ⟨?_, ?_, ?_, ?_⟩
  · intro k hk
    obtain ⟨it, h1, h2, h3⟩ := hfw.1 k hk
    refine ⟨it, h1, ?_, h3⟩
    have : it.mRowRangeListIterator ≠ l.length := by omega
    simp [RowListViewConstIterator.eq, RowListView.cend, RowListViewConstIterator.mk1, this]
  · refine ⟨_, hfw.2, ?_⟩
    simp [RowListViewConstIterator.eq, RowListView.cend, RowListViewConstIterator.mk1]
  · intro k hk
    obtain ⟨it, h1, h2, h3⟩ := hrv.1 k hk
    refine ⟨it, h1, ?_, h3⟩
    have : it.mRowRangeListIterator ≠ 0 := by omega
    simp [ReverseRowListViewConstIterator.eq, ReverseRowListView.cend,
      ReverseRowListViewConstIterator.mk1, this]
  · refine ⟨_, hrv.2, ?_⟩
    simp [ReverseRowListViewConstIterator.eq, ReverseRowListView.cend,
      ReverseRowListViewConstIterator.mk1]

theorem C14_witness :
    allValid [⟨0, 1⟩, ⟨2147483646, 2147483647⟩] ∧
    allFitInt [⟨0, 1⟩, ⟨2147483646, 2147483647⟩] ∧
    totalRows [⟨0, 1⟩, ⟨2147483646, 2147483647⟩] = 4 ∧
    RowListViewConstIterator.incrementN [⟨0, 1⟩, ⟨2147483646, 2147483647⟩] 3
      (RowListView.cbegin [⟨0, 1⟩, ⟨2147483646, 2147483647⟩]) = some ⟨2147483647, 1⟩ ∧
    ((∀ k : Nat, k < totalRows [⟨0, 1⟩, ⟨2147483646, 2147483647⟩] →
      ∃ it, RowListViewConstIterator.incrementN [⟨0, 1⟩, ⟨2147483646, 2147483647⟩] k
          (RowListView.cbegin [⟨0, 1⟩, ⟨2147483646, 2147483647⟩]) = some it ∧
        RowListViewConstIterator.eq it
          (RowListView.cend [⟨0, 1⟩, ⟨2147483646, 2147483647⟩]) = false ∧
        (RowListViewConstIterator.deref [⟨0, 1⟩, ⟨2147483646, 2147483647⟩] it).isSome
          = true) ∧
    (∃ it, RowListViewConstIterator.incrementN [⟨0, 1⟩, ⟨2147483646, 2147483647⟩]
        (totalRows [⟨0, 1⟩, ⟨2147483646, 2147483647⟩])
        (RowListView.cbegin [⟨0, 1⟩, ⟨2147483646, 2147483647⟩]) = some it ∧
      RowListViewConstIterator.eq it
        (RowListView.cend [⟨0, 1⟩, ⟨2147483646, 2147483647⟩]) = true) ∧
    (∀ k : Nat, k < totalRows [⟨0, 1⟩, ⟨2147483646, 2147483647⟩] →
      ∃ it, ReverseRowListViewConstIterator.incrementN
          [⟨0, 1⟩, ⟨2147483646, 2147483647⟩] k
          (ReverseRowListView.cbegin [⟨0, 1⟩, ⟨2147483646, 2147483647⟩]) = some it ∧
        ReverseRowListViewConstIterator.eq it
          (ReverseRowListView.cend [⟨0, 1⟩, ⟨2147483646, 2147483647⟩]) = false ∧
        (ReverseRowListViewConstIterator.deref [⟨0, 1⟩, ⟨2147483646, 2147483647⟩] it).isSome
          = true) ∧
    (∃ it, ReverseRowListViewConstIterator.incrementN [⟨0, 1⟩, ⟨2147483646, 2147483647⟩]
        (totalRows [⟨0, 1⟩, ⟨2147483646, 2147483647⟩])
        (ReverseRowListView.cbegin [⟨0, 1⟩, ⟨2147483646, 2147483647⟩]) = some it ∧
      ReverseRowListViewConstIterator.eq it
        (ReverseRowListView.cend [⟨0, 1⟩, ⟨2147483646, 2147483647⟩]) = true)) :=
  ⟨by decide, by decide, by decide, by decide,
    C14_cursors_meet_the_end_after_all_rows [⟨0, 1⟩, ⟨2147483646, 2147483647⟩] (by decide)
      (by decide)⟩

/-! ## The gate of ItemSelectionModel -/

theorem canSetCurrentIndex_iff (self : ItemSelectionModel) (index : QModelIndex) :
    self.canSetCurrentIndex index = true ↔
      (self.changeCurrentRowIsAllowed = true ∨ index.row = self.currentIndex.row) := by
  unfold ItemSelectionModel.canSetCurrentIndex ItemSelectionModel.isRowChangeRequestIndex
    ItemSelectionModel.isRowChangeRequest
  by_cases h : self.changeCurrentRowIsAllowed = true
  · simp [h]
  · simp [h]

/-- C15: canSetCurrentIndex(index) returns true iff changing the current row is allowed
or the row of index is the row of the current index; a request that changes only the
column is always accepted; with change not allowed and current row 0, row 1 is
rejected and row 0 in any column is accepted, and once setChangeCurrentRowAllowed(true)
is called row 1 is accepted. -/
theorem C15_canSetCurrentIndex_iff_allowed_or_same_row :
    (∀ (self : ItemSelectionModel) (index : QModelIndex),
      self.canSetCurrentIndex index = true ↔
        (self.changeCurrentRowIsAllowed = true ∨ index.row = self.currentIndex.row)) ∧
    (∀ (self : ItemSelectionModel) (column : Int),
      self.canSetCurrentIndex ⟨self.currentIndex.row, column⟩ = true) ∧
    (∀ (column0 column : Int) (selection : List QItemSelectionRange) (enabled : Bool),
      ItemSelectionModel.canSetCurrentIndex ⟨⟨0, column0⟩, selection, false, enabled⟩
        ⟨1, column⟩ = false ∧
      ItemSelectionModel.canSetCurrentIndex ⟨⟨0, column0⟩, selection, false, enabled⟩
        ⟨0, column⟩ = true ∧
      ItemSelectionModel.canSetCurrentIndex
        ((⟨⟨0, column0⟩, selection, false, enabled⟩ :
          ItemSelectionModel).setChangeCurrentRowAllowed true) ⟨1, column⟩ = true) := by
  have key := canSetCurrentIndex_iff
  refine ⟨key, ?_, ?_⟩
  · intro self column
    exact (key self _).2 (Or.inr rfl)
  · intro column0 column selection enabled
    refine ⟨?_, ?_, ?_⟩
    · rw [← Bool.not_eq_true, key]
      simp [ItemSelectionModel.changeCurrentRowIsAllowed]
    · exact (key _ _).2 (Or.inr rfl)
    · exact (key _ _).2 (Or.inl rfl)

theorem isMultipleItemsSelectionRange_iff (qtIsValid : QItemSelectionRange → Bool)
    (range : QItemSelectionRange) (hv : qtIsValid range = true) :
    ItemSelectionModel.isMultipleItemsSelectionRange qtIsValid range = true ↔
      range.topLeft ≠ range.bottomRight := by
  simp [ItemSelectionModel.isMultipleItemsSelectionRange, hv]

theorem firstMultiplePred_false_iff (qtIsValid : QItemSelectionRange → Bool)
    (a b : QItemSelectionRange) :
    ItemSelectionModel.firstMultiplePred qtIsValid a b = false ↔
      ItemSelectionModel.isMultipleItemsSelectionRange qtIsValid a = false ∧ a = b := by
  unfold ItemSelectionModel.firstMultiplePred
  by_cases h : ItemSelectionModel.isMultipleItemsSelectionRange qtIsValid a = true
  · simp [h]
  · have h1 : ItemSelectionModel.isMultipleItemsSelectionRange qtIsValid a = false := by
      simpa using h
    simp [h1]

/-- The search of isMultipleItemsSelection over the consecutive pairs finds nothing
exactly when all the ranges equal the first one and, if there are two ranges at least,
the first one does not contain multiple items. -/
theorem adjacentFind_firstMultiplePred (qtIsValid : QItemSelectionRange → Bool) :
    ∀ (a : QItemSelectionRange) (l : List QItemSelectionRange),
    stdAdjacentFind (ItemSelectionModel.firstMultiplePred qtIsValid) (a :: l)
        = (a :: l).length ↔
      (∀ x ∈ a :: l, x = a) ∧
      (l ≠ [] → ItemSelectionModel.isMultipleItemsSelectionRange qtIsValid a = false)
  | a, [] => by simp [stdAdjacentFind]
  | a, b :: t => by
    rw [stdAdjacentFind_cons_cons, firstMultiplePred_false_iff,
      adjacentFind_firstMultiplePred qtIsValid b t]
    constructor
    · rintro ⟨⟨h1, rfl⟩, h2, _⟩
      refine ⟨?_, fun _ => h1⟩
      intro x hx
      rcases List.mem_cons.1 hx with rfl | hx
      · rfl
      · exact h2 x hx
    · rintro ⟨h1, h2⟩
      have hab : b = a := h1 b (by simp)
      subst hab
      refine ⟨⟨h2 (by simp), rfl⟩, ?_, fun _ => h2 (by simp)⟩
      intro x hx
      exact h1 x (List.mem_cons_of_mem _ hx)

/-- What isMultipleItemsSelection computes, for any selection: one of its ranges
contains multiple items, or two of its ranges are not equal. -/
theorem isMultipleItemsSelection_iff (qtIsValid : QItemSelectionRange → Bool)
    (sel : List QItemSelectionRange) :
    ItemSelectionModel.isMultipleItemsSelection qtIsValid sel = true ↔
      (∃ r ∈ sel, ItemSelectionModel.isMultipleItemsSelectionRange qtIsValid r = true) ∨
      (∃ r1 ∈ sel, ∃ r2 ∈ sel, r1 ≠ r2) := by
  cases sel with
  | nil => simp [ItemSelectionModel.isMultipleItemsSelection]
  | cons a l =>
    have haf := adjacentFind_firstMultiplePred qtIsValid a l
    unfold ItemSelectionModel.isMultipleItemsSelection
    by_cases hm : ItemSelectionModel.isMultipleItemsSelectionRange qtIsValid a = true
    · simp only [hm, if_true, true_iff]
      exact Or.inl ⟨a, by simp, hm⟩
    · have hm1 : ItemSelectionModel.isMultipleItemsSelectionRange qtIsValid a = false := by
        simpa using hm
      simp only [hm1, Bool.false_eq_true, if_false, bne_iff_ne, ne_eq]
      rw [haf]
      constructor
      · intro h
        have hex : ∃ x ∈ a :: l, x ≠ a := by
          by_contra hc
          push_neg at hc
          exact h ⟨hc, fun _ => hm1⟩
        obtain ⟨x, hx, hxa⟩ := hex
        exact Or.inr ⟨x, hx, a, by simp, hxa⟩
      · rintro (⟨r, hr, hrm⟩ | ⟨r1, hr1, r2, hr2, hne⟩) ⟨hall, _⟩
        · rw [hall r hr, hm1] at hrm
          exact Bool.false_ne_true hrm
        · exact hne ((hall r1 hr1).trans (hall r2 hr2).symm)

/-- C18: for every selection made of valid ranges, isMultipleItemsSelection returns true
iff one of its ranges spans more than one cell (its topLeft differs from its
bottomRight) or it contains two ranges that are not equal; the empty selection and a
selection made of any number of copies of one single-cell range are not multi-item. -/
theorem C18_isMultipleItemsSelection_iff (qtIsValid : QItemSelectionRange → Bool)
    (sel : List QItemSelectionRange) (hv : ∀ r ∈ sel, qtIsValid r = true) :
    (ItemSelectionModel.isMultipleItemsSelection qtIsValid sel = true ↔
      (∃ r ∈ sel, r.topLeft ≠ r.bottomRight) ∨ (∃ r1 ∈ sel, ∃ r2 ∈ sel, r1 ≠ r2)) ∧
    ItemSelectionModel.isMultipleItemsSelection qtIsValid [] = false ∧
    (∀ (n : Nat) (r : QItemSelectionRange), r.topLeft = r.bottomRight →
      ItemSelectionModel.isMultipleItemsSelection qtIsValid (List.replicate n r) = false) := by
  refine ⟨?_, rfl, ?_⟩
  · rw [isMultipleItemsSelection_iff]
    constructor
    · rintro (⟨r, hr, hm⟩ | h)
      · exact Or.inl ⟨r, hr, (isMultipleItemsSelectionRange_iff qtIsValid r (hv r hr)).1 hm⟩
      · exact Or.inr h
    · rintro (⟨r, hr, hm⟩ | h)
      · exact Or.inl ⟨r, hr, (isMultipleItemsSelectionRange_iff qtIsValid r (hv r hr)).2 hm⟩
      · exact Or.inr h
  · intro n r hr
    rw [← Bool.not_eq_true, isMultipleItemsSelection_iff]
    rintro (⟨x, hx, hm⟩ | ⟨r1, hr1, r2, hr2, hne⟩)
    · have hxr : x = r := List.eq_of_mem_replicate hx
      subst hxr
      simp [ItemSelectionModel.isMultipleItemsSelectionRange, hr] at hm
    · exact hne ((List.eq_of_mem_replicate hr1).trans (List.eq_of_mem_replicate hr2).symm)

theorem C18_witness :
    (∀ r ∈ ([⟨0, 0, 0, 0⟩, ⟨0, 0, 0, 0⟩, ⟨0, 0, 0, 1⟩] : List QItemSelectionRange),
      (fun s : QItemSelectionRange => decide (s.top ≤ s.bottom) && decide (s.left ≤ s.right))
        r = true) ∧
    ItemSelectionModel.isMultipleItemsSelection
      (fun s => decide (s.top ≤ s.bottom) && decide (s.left ≤ s.right))
      [⟨0, 0, 0, 0⟩, ⟨0, 0, 0, 0⟩, ⟨0, 0, 0, 1⟩] = true ∧
    ((ItemSelectionModel.isMultipleItemsSelection
        (fun s => decide (s.top ≤ s.bottom) && decide (s.left ≤ s.right))
        [⟨0, 0, 0, 0⟩, ⟨0, 0, 0, 0⟩, ⟨0, 0, 0, 1⟩] = true ↔
      (∃ r ∈ ([⟨0, 0, 0, 0⟩, ⟨0, 0, 0, 0⟩, ⟨0, 0, 0, 1⟩] : List QItemSelectionRange),
        r.topLeft ≠ r.bottomRight) ∨
      (∃ r1 ∈ ([⟨0, 0, 0, 0⟩, ⟨0, 0, 0, 0⟩, ⟨0, 0, 0, 1⟩] : List QItemSelectionRange),
        ∃ r2 ∈ ([⟨0, 0, 0, 0⟩, ⟨0, 0, 0, 0⟩, ⟨0, 0, 0, 1⟩] : List QItemSelectionRange),
          r1 ≠ r2)) ∧
    ItemSelectionModel.isMultipleItemsSelection
      (fun s => decide (s.top ≤ s.bottom) && decide (s.left ≤ s.right)) [] = false ∧
    (∀ (n : Nat) (r : QItemSelectionRange), r.topLeft = r.bottomRight →
      ItemSelectionModel.isMultipleItemsSelection
        (fun s => decide (s.top ≤ s.bottom) && decide (s.left ≤ s.right))
        (List.replicate n r) = false)) :=
  ⟨by decide, by decide,
    C18_isMultipleItemsSelection_iff
      (fun s => decide (s.top ≤ s.bottom) && decide (s.left ≤ s.right))
      [⟨0, 0, 0, 0⟩, ⟨0, 0, 0, 0⟩, ⟨0, 0, 0, 1⟩] (by decide)⟩

theorem isMultipleItemsSelection_singleCell (qtIsValid : QItemSelectionRange → Bool)
    (r : QItemSelectionRange) (hr : isSingleCell qtIsValid r) :
    ItemSelectionModel.isMultipleItemsSelection qtIsValid [r] = false := by
  obtain ⟨_, h2, h3⟩ := hr
  simp [ItemSelectionModel.isMultipleItemsSelection,
    ItemSelectionModel.isMultipleItemsSelectionRange, stdAdjacentFind,
    QItemSelectionRange.topLeft, QItemSelectionRange.bottomRight, h2, h3]

/-- With change of the current row not allowed, the gate accepts a selection made of
one single cell exactly when the cell is in the current row, and no assertion fails. -/
theorem canSelect_singleCell (qtIsValid : QItemSelectionRange → Bool)
    (self : ItemSelectionModel) (r : QItemSelectionRange)
    (ha : self.mChangeCurrentRowIsAllowed = false) (hr : isSingleCell qtIsValid r) :
    self.canSelect qtIsValid [r] = some (decide (r.top = self.currentIndex.row)) := by
  have hm := isMultipleItemsSelection_singleCell qtIsValid r hr
  obtain ⟨h1, h2, _⟩ := hr
  unfold ItemSelectionModel.canSelect ItemSelectionModel.changeCurrentRowIsAllowed
    ItemSelectionModel.isRowChangeRequestSelection ItemSelectionModel.isRowChangeRequest
  simp only [ha, hm, Bool.false_eq_true, if_false, List.isEmpty_cons, List.length_singleton,
    beq_self_eq_true, cassert_true, Option.bind_eq_bind, Option.some_bind,
    List.getElem?_cons_zero, h1, h2]
  by_cases hrow : r.bottom = self.currentIndex.row
  · simp [hrow]
  · simp [hrow]

theorem canSelect_nil (qtIsValid : QItemSelectionRange → Bool) (self : ItemSelectionModel) :
    self.canSelect qtIsValid [] = some true := by
  unfold ItemSelectionModel.canSelect ItemSelectionModel.isRowChangeRequestSelection
  cases self.changeCurrentRowIsAllowed <;>
    simp [ItemSelectionModel.isMultipleItemsSelection]

theorem canSelect_of_multiple (qtIsValid : QItemSelectionRange → Bool)
    (self : ItemSelectionModel) (sel : List QItemSelectionRange)
    (h : self.mChangeCurrentRowIsAllowed = true ∨
      ItemSelectionModel.isMultipleItemsSelection qtIsValid sel = true) :
    self.canSelect qtIsValid sel = some true := by
  unfold ItemSelectionModel.canSelect ItemSelectionModel.changeCurrentRowIsAllowed
  rcases h with h | h
  · simp [h]
  · simp [h]

/-- C16: for every candidate selection that contains multiple items or is made of
exactly one single-cell range, canSelect returns (no assertion fails), and it returns
true iff changing the current row is allowed, or the selection contains multiple items,
or it is the single cell and the row of the cell is the current row. -/
theorem C16_canSelect_iff (qtIsValid : QItemSelectionRange → Bool)
    (self : ItemSelectionModel) (sel : List QItemSelectionRange)
    (h : ItemSelectionModel.isMultipleItemsSelection qtIsValid sel = true ∨
      ∃ r, sel = [r] ∧ isSingleCell qtIsValid r) :
    ∃ b, self.canSelect qtIsValid sel = some b ∧
      (b = true ↔
        (self.changeCurrentRowIsAllowed = true ∨
          ItemSelectionModel.isMultipleItemsSelection qtIsValid sel = true ∨
          ∃ r, sel = [r] ∧ isSingleCell qtIsValid r ∧ r.top = self.currentIndex.row)) := by
  by_cases ha : self.mChangeCurrentRowIsAllowed = true
  · exact ⟨true, canSelect_of_multiple qtIsValid self sel (Or.inl ha),
      by simp [ItemSelectionModel.changeCurrentRowIsAllowed, ha]⟩
  · have ha1 : self.mChangeCurrentRowIsAllowed = false := by simpa using ha
    rcases h with h | ⟨r, rfl, hr⟩
    · exact ⟨true, canSelect_of_multiple qtIsValid self sel (Or.inr h), by simp [h]⟩
    · refine ⟨_, canSelect_singleCell qtIsValid self r ha1 hr, ?_⟩
      have hm := isMultipleItemsSelection_singleCell qtIsValid r hr
      simp only [decide_eq_true_eq, ItemSelectionModel.changeCurrentRowIsAllowed, ha1, hm,
        Bool.false_eq_true, false_or]
      constructor
      · intro hrow
        exact ⟨r, rfl, hr, hrow⟩
      · rintro ⟨r1, h1, _, hrow⟩
        have : r = r1 := by simpa using h1
        rw [this]; exact hrow

theorem C16_witness :
    (ItemSelectionModel.isMultipleItemsSelection (fun _ => true) [⟨1, 0, 1, 0⟩] = true ∨
      ∃ r, ([⟨1, 0, 1, 0⟩] : List QItemSelectionRange) = [r] ∧
        isSingleCell (fun _ => true) r) ∧
    ItemSelectionModel.canSelect (fun _ => true) ⟨⟨0, 0⟩, [], false, false⟩ [⟨1, 0, 1, 0⟩]
      = some false ∧
    ∃ b, ItemSelectionModel.canSelect (fun _ => true) ⟨⟨0, 0⟩, [], false, false⟩
        [⟨1, 0, 1, 0⟩] = some b ∧
      (b = true ↔
        (ItemSelectionModel.changeCurrentRowIsAllowed ⟨⟨0, 0⟩, [], false, false⟩ = true ∨
          ItemSelectionModel.isMultipleItemsSelection (fun _ => true) [⟨1, 0, 1, 0⟩] = true ∨
          ∃ r, ([⟨1, 0, 1, 0⟩] : List QItemSelectionRange) = [r] ∧
            isSingleCell (fun _ => true) r ∧
            r.top = (⟨⟨0, 0⟩, [], false, false⟩ : ItemSelectionModel).currentIndex.row)) :=
  ⟨Or.inr ⟨⟨1, 0, 1, 0⟩, rfl, rfl, rfl, rfl⟩, by decide,
    C16_canSelect_iff (fun _ => true) ⟨⟨0, 0⟩, [], false, false⟩ [⟨1, 0, 1, 0⟩]
      (Or.inr ⟨⟨1, 0, 1, 0⟩, rfl, rfl, rfl, rfl⟩)⟩

/-- C19, the input on which it fails: with change of the current row not allowed, for
a selection made of two copies of one single-cell range canSelect does not return: the
selection does not contain multiple items, and the assertion of isRowChangeRequest that
the selection holds exactly one range fails. -/
theorem C19_canSelect_assertion_fails_on_repeated_cell
    (qtIsValid : QItemSelectionRange → Bool) (currentIndex : QModelIndex)
    (selection : List QItemSelectionRange) (enabled : Bool) (row column : Int) :
    ItemSelectionModel.isMultipleItemsSelection qtIsValid
      [⟨row, column, row, column⟩, ⟨row, column, row, column⟩] = false ∧
    ItemSelectionModel.canSelect qtIsValid ⟨currentIndex, selection, false, enabled⟩
      [⟨row, column, row, column⟩, ⟨row, column, row, column⟩] = none := by
  have hm : ItemSelectionModel.isMultipleItemsSelection qtIsValid
      [⟨row, column, row, column⟩, ⟨row, column, row, column⟩] = false := by
    rw [← Bool.not_eq_true, isMultipleItemsSelection_iff]
    rintro (⟨x, hx, hmx⟩ | ⟨r1, hr1, r2, hr2, hne⟩)
    · have hxr : x = ⟨row, column, row, column⟩ := by simpa using hx
      subst hxr
      simp [ItemSelectionModel.isMultipleItemsSelectionRange, QItemSelectionRange.topLeft,
        QItemSelectionRange.bottomRight] at hmx
    · have e1 : r1 = ⟨row, column, row, column⟩ := by simpa using hr1
      have e2 : r2 = ⟨row, column, row, column⟩ := by simpa using hr2
      exact hne (e1.trans e2.symm)
  refine ⟨hm, ?_⟩
  unfold ItemSelectionModel.canSelect ItemSelectionModel.changeCurrentRowIsAllowed
    ItemSelectionModel.isRowChangeRequestSelection
  simp [hm, cassert]

/-- C20, the input on which it fails: with setCurrentIndexToFirstRowAfterReset enabled
and change of the current row not allowed, after reset() the current index is not valid
(there is no current row) whatever the number of rows of the model, since the request to
set the current index to the first row is a request to leave the row -1 that reset left. -/
theorem C20_reset_sets_no_current_row_when_change_not_allowed
    (qtIsValid : QItemSelectionRange → Bool)
    (qtSelect : List QItemSelectionRange → List QItemSelectionRange → Nat →
      List QItemSelectionRange)
    (currentIndex : QModelIndex) (selection : List QItemSelectionRange)
    (rowCount columnCount : Int) :
    ItemSelectionModel.reset qtIsValid qtSelect rowCount columnCount
      ⟨currentIndex, selection, false, true⟩ = some ⟨QModelIndex.invalid, [], false, true⟩ := by
  unfold ItemSelectionModel.reset QItemSelectionModel.reset
    ItemSelectionModel.setCurrentIndexToFirstRowAfterResetIsEnabled
  simp only [if_true]
  by_cases h : (modelIndex rowCount columnCount 0 0).isValid = true
  · have hrow : (modelIndex rowCount columnCount 0 0).row = 0 := by
      unfold modelIndex at h ⊢
      split_ifs at h ⊢
      · rfl
      · simp [QModelIndex.invalid, QModelIndex.isValid] at h
    simp only [h, if_true]
    unfold ItemSelectionModel.setCurrentIndex ItemSelectionModel.canSetCurrentIndex
      ItemSelectionModel.changeCurrentRowIsAllowed ItemSelectionModel.isRowChangeRequestIndex
      ItemSelectionModel.isRowChangeRequest
    simp [hrow, QModelIndex.invalid]
  · simp [h]

/-! ## Requests made while changing the current row is not allowed -/

theorem select_keeps_current (qtIsValid : QItemSelectionRange → Bool)
    (qtSelect : List QItemSelectionRange → List QItemSelectionRange → Nat →
      List QItemSelectionRange)
    (self self1 : ItemSelectionModel) (sel : List QItemSelectionRange) (command : Nat)
    (h : ItemSelectionModel.select qtIsValid qtSelect self sel command = some self1) :
    self1.currentIndex = self.currentIndex ∧
      self1.mChangeCurrentRowIsAllowed = self.mChangeCurrentRowIsAllowed := by
  unfold ItemSelectionModel.select at h
  cases hc : self.canSelect qtIsValid sel with
  | none => simp [hc] at h
  | some b =>
    cases b with
    | true =>
      simp only [hc, Option.bind_eq_bind, Option.some_bind, if_true, Option.some.injEq] at h
      rw [← h]
      exact ⟨rfl, rfl⟩
    | false =>
      simp only [hc, Option.bind_eq_bind, Option.some_bind, Bool.false_eq_true, if_false,
        Option.some.injEq] at h
      rw [← h]
      exact ⟨rfl, rfl⟩

theorem select_of_canSelect (qtIsValid : QItemSelectionRange → Bool)
    (qtSelect : List QItemSelectionRange → List QItemSelectionRange → Nat →
      List QItemSelectionRange)
    (self : ItemSelectionModel) (sel : List QItemSelectionRange) (command : Nat) (b : Bool)
    (hc : self.canSelect qtIsValid sel = some b) :
    ItemSelectionModel.select qtIsValid qtSelect self sel command =
      some (if b then { self with selection := qtSelect self.selection sel command }
        else self) := by
  unfold ItemSelectionModel.select
  cases b <;> simp [hc]

theorem canSelect_of_index (qtIsValid : QItemSelectionRange → Bool)
    (self : ItemSelectionModel) (index : QModelIndex)
    (ha : self.mChangeCurrentRowIsAllowed = false)
    (hcell : ∀ i : QModelIndex, i.isValid = true →
      qtIsValid ⟨i.row, i.column, i.row, i.column⟩ = true)
    (hrow : index.row = self.currentIndex.row) :
    self.canSelect qtIsValid (qItemSelectionOfIndex index) = some true := by
  unfold qItemSelectionOfIndex
  by_cases hv : index.isValid = true
  · rw [if_pos hv, canSelect_singleCell qtIsValid self _ ha ⟨hcell index hv, rfl, rfl⟩]
    simp [hrow]
  · rw [if_neg hv]
    exact canSelect_nil qtIsValid self

theorem setCurrentIndex_same_row (qtIsValid : QItemSelectionRange → Bool)
    (qtSelect : List QItemSelectionRange → List QItemSelectionRange → Nat →
      List QItemSelectionRange)
    (self : ItemSelectionModel) (index : QModelIndex) (command : Nat)
    (ha : self.mChangeCurrentRowIsAllowed = false)
    (hcell : ∀ i : QModelIndex, i.isValid = true →
      qtIsValid ⟨i.row, i.column, i.row, i.column⟩ = true)
    (hrow : index.row = self.currentIndex.row) :
    ItemSelectionModel.setCurrentIndex qtIsValid qtSelect self index command =
      some { self with
        currentIndex := index
        selection := if command = NoUpdate then self.selection
          else qtSelect self.selection (qItemSelectionOfIndex index) command } := by
  have hcan : self.canSetCurrentIndex index = true :=
    (canSetCurrentIndex_iff self index).2 (Or.inr hrow)
  unfold ItemSelectionModel.setCurrentIndex QItemSelectionModel.setCurrentIndex
    ItemSelectionModel.selectIndex
  rw [if_pos hcan]
  by_cases hn : command = NoUpdate
  · simp [hn]
  · have hne : (command != NoUpdate) = true := by simpa using hn
    simp only [hne, if_true, if_neg hn]
    rw [select_of_canSelect qtIsValid qtSelect _ _ command true
      (canSelect_of_index qtIsValid { self with currentIndex := index } index ha hcell rfl)]
    rfl

theorem setCurrentIndex_other_row (qtIsValid : QItemSelectionRange → Bool)
    (qtSelect : List QItemSelectionRange → List QItemSelectionRange → Nat →
      List QItemSelectionRange)
    (self : ItemSelectionModel) (index : QModelIndex) (command : Nat)
    (ha : self.mChangeCurrentRowIsAllowed = false)
    (hrow : index.row ≠ self.currentIndex.row) :
    ItemSelectionModel.setCurrentIndex qtIsValid qtSelect self index command = some self := by
  have hcan : self.canSetCurrentIndex index = false := by
    rw [← Bool.not_eq_true, canSetCurrentIndex_iff]
    simp [ItemSelectionModel.changeCurrentRowIsAllowed, ha, hrow]
  unfold ItemSelectionModel.setCurrentIndex
  simp [hcan]

theorem setCurrentIndex_keeps_row (qtIsValid : QItemSelectionRange → Bool)
    (qtSelect : List QItemSelectionRange → List QItemSelectionRange → Nat →
      List QItemSelectionRange)
    (self self1 : ItemSelectionModel) (index : QModelIndex) (command : Nat)
    (ha : self.mChangeCurrentRowIsAllowed = false)
    (h : ItemSelectionModel.setCurrentIndex qtIsValid qtSelect self index command
      = some self1) :
    self1.currentIndex.row = self.currentIndex.row ∧
      self1.mChangeCurrentRowIsAllowed = false := by
  by_cases hrow : index.row = self.currentIndex.row
  · have hcan : self.canSetCurrentIndex index = true :=
      (canSetCurrentIndex_iff self index).2 (Or.inr hrow)
    unfold ItemSelectionModel.setCurrentIndex QItemSelectionModel.setCurrentIndex
      ItemSelectionModel.selectIndex at h
    rw [if_pos hcan] at h
    by_cases hn : (command != NoUpdate) = true
    · simp only [hn, if_true] at h
      have := select_keeps_current qtIsValid qtSelect _ _ _ _ h
      rw [this.1, this.2]
      exact ⟨hrow, ha⟩
    · simp only [hn, Bool.false_eq_true, if_false, Option.some.injEq] at h
      rw [← h]
      exact ⟨hrow, ha⟩
  · rw [setCurrentIndex_other_row qtIsValid qtSelect self index command ha hrow] at h
    have : self = self1 := by simpa using h
    rw [← this]
    exact ⟨rfl, ha⟩

theorem handleAll_keeps_row (qtIsValid : QItemSelectionRange → Bool)
    (qtSelect : List QItemSelectionRange → List QItemSelectionRange → Nat →
      List QItemSelectionRange) :
    ∀ (requests : List SelectionRequest) (self self1 : ItemSelectionModel),
    self.mChangeCurrentRowIsAllowed = false →
    ItemSelectionModel.handleAll qtIsValid qtSelect self requests = some self1 →
    self1.currentIndex.row = self.currentIndex.row ∧ self1.mChangeCurrentRowIsAllowed = false
  | [], self, self1, ha, h => by
    have : self = self1 := by simpa [ItemSelectionModel.handleAll] using h
    rw [← this]
    exact ⟨rfl, ha⟩
  | request :: rest, self, self1, ha, h => by
    simp only [ItemSelectionModel.handleAll, Option.bind_eq_bind] at h
    cases hs : ItemSelectionModel.handle qtIsValid qtSelect self request with
    | none => simp [hs] at h
    | some self2 =>
      rw [hs, Option.some_bind] at h
      have hstep : self2.currentIndex.row = self.currentIndex.row ∧
          self2.mChangeCurrentRowIsAllowed = false := by
        cases request with
        | setCurrentIndex index command =>
          exact setCurrentIndex_keeps_row qtIsValid qtSelect self self2 index command ha hs
        | select selection command =>
          have := select_keeps_current qtIsValid qtSelect self self2 selection command hs
          rw [this.1, this.2]
          exact ⟨rfl, ha⟩
      have ih := handleAll_keeps_row qtIsValid qtSelect rest self2 self1 hstep.2 h
      exact ⟨ih.1.trans hstep.1, ih.2⟩

theorem handle_returns (qtIsValid : QItemSelectionRange → Bool)
    (qtSelect : List QItemSelectionRange → List QItemSelectionRange → Nat →
      List QItemSelectionRange)
    (self : ItemSelectionModel) (request : SelectionRequest)
    (ha : self.mChangeCurrentRowIsAllowed = false)
    (hcell : ∀ i : QModelIndex, i.isValid = true →
      qtIsValid ⟨i.row, i.column, i.row, i.column⟩ = true)
    (hw : request.wellFormed qtIsValid) :
    ∃ self1, ItemSelectionModel.handle qtIsValid qtSelect self request = some self1 := by
  cases request with
  | setCurrentIndex index command =>
    by_cases hrow : index.row = self.currentIndex.row
    · exact ⟨_, setCurrentIndex_same_row qtIsValid qtSelect self index command ha hcell hrow⟩
    · exact ⟨_, setCurrentIndex_other_row qtIsValid qtSelect self index command ha hrow⟩
  | select selection command =>
    have hc : ∃ b, self.canSelect qtIsValid selection = some b := by
      rcases hw with h | h | ⟨r, rfl, hr⟩
      · subst h
        exact ⟨_, canSelect_nil qtIsValid self⟩
      · exact ⟨_, canSelect_of_multiple qtIsValid self selection (Or.inr h)⟩
      · exact ⟨_, canSelect_singleCell qtIsValid self r ha hr⟩
    obtain ⟨b, hb⟩ := hc
    exact ⟨_, select_of_canSelect qtIsValid qtSelect self selection command b hb⟩

theorem handleAll_returns (qtIsValid : QItemSelectionRange → Bool)
    (qtSelect : List QItemSelectionRange → List QItemSelectionRange → Nat →
      List QItemSelectionRange)
    (hcell : ∀ i : QModelIndex, i.isValid = true →
      qtIsValid ⟨i.row, i.column, i.row, i.column⟩ = true) :
    ∀ (requests : List SelectionRequest) (self : ItemSelectionModel),
    self.mChangeCurrentRowIsAllowed = false →
    (∀ request ∈ requests, request.wellFormed qtIsValid) →
    ∃ self1, ItemSelectionModel.handleAll qtIsValid qtSelect self requests = some self1
  | [], self, _, _ => ⟨self, rfl⟩
  | request :: rest, self, ha, hw => by
    obtain ⟨self2, hs⟩ := handle_returns qtIsValid qtSelect self request ha hcell
      (hw request (by simp))
    have hstep := handleAll_keeps_row qtIsValid qtSelect [request] self self2 ha
      (by simp [ItemSelectionModel.handleAll, hs])
    obtain ⟨self1, h1⟩ := handleAll_returns qtIsValid qtSelect hcell rest self2 hstep.2
      (fun x hx => hw x (List.mem_cons_of_mem _ hx))
    exact ⟨self1, by simp [ItemSelectionModel.handleAll, hs, h1]⟩

/-- C17: while changing the current row is not allowed, a setCurrentIndex request to another
row and a single-cell select request in another row leave the whole state unchanged, the same
requests inside the current row are applied, every sequence of requests that returns keeps
the row of the current index and the flag, and every sequence of well-formed requests
returns. -/
theorem C17_current_row_kept_while_change_not_allowed
    (qtIsValid : QItemSelectionRange → Bool)
    (qtSelect : List QItemSelectionRange → List QItemSelectionRange → Nat →
      List QItemSelectionRange)
    (self : ItemSelectionModel)
    (ha : self.changeCurrentRowIsAllowed = false)
    (hcell : ∀ i : QModelIndex, i.isValid = true →
      qtIsValid ⟨i.row, i.column, i.row, i.column⟩ = true) :
    (∀ (index : QModelIndex) (command : Nat), index.row ≠ self.currentIndex.row →
      ItemSelectionModel.setCurrentIndex qtIsValid qtSelect self index command = some self) ∧
    (∀ (range : QItemSelectionRange) (command : Nat), isSingleCell qtIsValid range →
      range.top ≠ self.currentIndex.row →
      ItemSelectionModel.select qtIsValid qtSelect self [range] command = some self) ∧
    (∀ (index : QModelIndex) (command : Nat), index.row = self.currentIndex.row →
      ItemSelectionModel.setCurrentIndex qtIsValid qtSelect self index command =
        some { self with
          currentIndex := index
          selection := if command = NoUpdate then self.selection
            else qtSelect self.selection (qItemSelectionOfIndex index) command }) ∧
    (∀ (range : QItemSelectionRange) (command : Nat), isSingleCell qtIsValid range →
      range.top = self.currentIndex.row →
      ItemSelectionModel.select qtIsValid qtSelect self [range] command =
        some { self with selection := qtSelect self.selection [range] command }) ∧
    (∀ (requests : List SelectionRequest) (self1 : ItemSelectionModel),
      ItemSelectionModel.handleAll qtIsValid qtSelect self requests = some self1 →
      self1.currentIndex.row = self.currentIndex.row ∧
        self1.changeCurrentRowIsAllowed = false) ∧
    (∀ requests : List SelectionRequest,
      (∀ request ∈ requests, request.wellFormed qtIsValid) →
      ∃ self1, ItemSelectionModel.handleAll qtIsValid qtSelect self requests = some self1) := by
  have ha1 : self.mChangeCurrentRowIsAllowed = false := ha
  refine ⟨?_, ?_, ?_, ?_, ?_, ?_⟩
  · intro index command hrow
    exact setCurrentIndex_other_row qtIsValid qtSelect self index command ha1 hrow
  · intro range command hr hrow
    rw [select_of_canSelect qtIsValid qtSelect self [range] command _
      (canSelect_singleCell qtIsValid self range ha1 hr)]
    simp [hrow]
  · intro index command hrow
    exact setCurrentIndex_same_row qtIsValid qtSelect self index command ha1 hcell hrow
  · intro range command hr hrow
    rw [select_of_canSelect qtIsValid qtSelect self [range] command _
      (canSelect_singleCell qtIsValid self range ha1 hr)]
    simp [hrow]
  · intro requests self1 h
    exact handleAll_keeps_row qtIsValid qtSelect requests self self1 ha1 h
  · intro requests hw
    exact handleAll_returns qtIsValid qtSelect hcell requests self ha1 hw

theorem C17_witness :
    ItemSelectionModel.setCurrentIndex (fun _ => true) (fun _ s _ => s)
        ⟨⟨0, 0⟩, [⟨0, 0, 0, 0⟩], false, false⟩ ⟨1, 0⟩ ClearAndSelect
      = some ⟨⟨0, 0⟩, [⟨0, 0, 0, 0⟩], false, false⟩ ∧
    ItemSelectionModel.setCurrentIndex (fun _ => true) (fun _ s _ => s)
        ⟨⟨0, 0⟩, [⟨0, 0, 0, 0⟩], false, false⟩ ⟨0, 1⟩ ClearAndSelect
      = some ⟨⟨0, 1⟩, [⟨0, 1, 0, 1⟩], false, false⟩ ∧
    ItemSelectionModel.select (fun _ => true) (fun _ s _ => s)
        ⟨⟨0, 0⟩, [⟨0, 0, 0, 0⟩], false, false⟩ [⟨1, 0, 1, 0⟩] ClearAndSelect
      = some ⟨⟨0, 0⟩, [⟨0, 0, 0, 0⟩], false, false⟩ ∧
    ItemSelectionModel.handleAll (fun _ => true) (fun _ s _ => s)
        ⟨⟨0, 0⟩, [⟨0, 0, 0, 0⟩], false, false⟩
        [SelectionRequest.setCurrentIndex ⟨1, 0⟩ ClearAndSelect,
          SelectionRequest.select [⟨1, 0, 1, 0⟩] ClearAndSelect,
          SelectionRequest.setCurrentIndex ⟨0, 1⟩ ClearAndSelect]
      = some ⟨⟨0, 1⟩, [⟨0, 1, 0, 1⟩], false, false⟩ := by
  have h := C17_current_row_kept_while_change_not_allowed (fun _ => true) (fun _ s _ => s)
    ⟨⟨0, 0⟩, [⟨0, 0, 0, 0⟩], false, false⟩ rfl (fun _ _ => rfl)
  refine ⟨h.1 ⟨1, 0⟩ ClearAndSelect (by decide), ?_, ?_, by decide⟩
  · exact (h.2.2.1 ⟨0, 1⟩ ClearAndSelect rfl).trans (by decide)
  · exact h.2.1 ⟨1, 0, 1, 0⟩ ClearAndSelect ⟨rfl, rfl, rfl⟩ (by decide)

/-- With changing the current row allowed and the option enabled, reset() sets the current
index to index(0, 0) of the model: row 0 when the model has a row and a column, no current
index otherwise. -/
theorem reset_when_change_allowed (qtIsValid : QItemSelectionRange → Bool)
    (qtSelect : List QItemSelectionRange → List QItemSelectionRange → Nat →
      List QItemSelectionRange)
    (currentIndex : QModelIndex) (selection : List QItemSelectionRange)
    (rowCount columnCount : Int) :
    ∃ selection1, ItemSelectionModel.reset qtIsValid qtSelect rowCount columnCount
      ⟨currentIndex, selection, true, true⟩
        = some ⟨if 0 < rowCount ∧ 0 < columnCount then ⟨0, 0⟩ else QModelIndex.invalid,
          selection1, true, true⟩ := by
  unfold ItemSelectionModel.reset QItemSelectionModel.reset
    ItemSelectionModel.setCurrentIndexToFirstRowAfterResetIsEnabled modelIndex
  by_cases h : 0 < rowCount ∧ 0 < columnCount
  · refine ⟨qtSelect [] [⟨0, 0, 0, 0⟩] ClearAndSelect, ?_⟩
    simp [h, QModelIndex.isValid, ItemSelectionModel.setCurrentIndex,
      ItemSelectionModel.canSetCurrentIndex, ItemSelectionModel.changeCurrentRowIsAllowed,
      QItemSelectionModel.setCurrentIndex, ItemSelectionModel.selectIndex,
      ItemSelectionModel.select, ItemSelectionModel.canSelect, qItemSelectionOfIndex,
      ClearAndSelect, NoUpdate]
  · refine ⟨[], ?_⟩
    simp [h, QModelIndex.isValid, QModelIndex.invalid]
/-! ## The order of the ranges and the merge of two ranges -/

/-- C21: rangeAcomesBeforeB is a strict total order on RowRanges (valid or not): no range
comes before itself, the relation is transitive and asymmetric, of two ranges that differ
in (firstRow, lastRow) exactly one comes before the other, and a comes before b iff
(a.firstRow, a.lastRow) is below (b.firstRow, b.lastRow) in the lexicographic order. -/
theorem C21_rangeAcomesBeforeB_strict_total_order :
    (∀ a : RowRange, rangeAcomesBeforeB a a = false) ∧
    (∀ a b c : RowRange, rangeAcomesBeforeB a b = true → rangeAcomesBeforeB b c = true →
      rangeAcomesBeforeB a c = true) ∧
    (∀ a b : RowRange, rangeAcomesBeforeB a b = true → rangeAcomesBeforeB b a = false) ∧
    (∀ a b : RowRange, (a.firstRow, a.lastRow) ≠ (b.firstRow, b.lastRow) →
      (rangeAcomesBeforeB a b = true ∧ rangeAcomesBeforeB b a = false) ∨
      (rangeAcomesBeforeB a b = false ∧ rangeAcomesBeforeB b a = true)) ∧
    (∀ a b : RowRange, rangeAcomesBeforeB a b = true ↔
      Prod.Lex (fun x y : Int => x < y) (fun x y : Int => x < y)
        (a.firstRow, a.lastRow) (b.firstRow, b.lastRow)) := by
  refine ⟨?_, ?_, ?_, ?_, ?_⟩
  · intro a
    rw [comesBefore_false_iff]
    omega
  · intro a b c hab hbc
    rw [comesBefore_iff] at hab hbc ⊢
    omega
  · intro a b hab
    rw [comesBefore_iff] at hab
    rw [comesBefore_false_iff]
    omega
  · intro a b hne
    have hne1 : ¬ (a.firstRow = b.firstRow ∧ a.lastRow = b.lastRow) := by
      intro h
      exact hne (by rw [h.1, h.2])
    rw [comesBefore_iff, comesBefore_iff, comesBefore_false_iff, comesBefore_false_iff]
    omega
  · intro a b
    rw [comesBefore_iff, Prod.lex_def]

theorem C21_witness :
    rangeAcomesBeforeB ⟨0, 1⟩ ⟨0, 1⟩ = false ∧
    rangeAcomesBeforeB ⟨0, 1⟩ ⟨0, 2⟩ = true ∧ rangeAcomesBeforeB ⟨0, 2⟩ ⟨0, 1⟩ = false ∧
    rangeAcomesBeforeB ⟨0, 2⟩ ⟨1, 2⟩ = true ∧ rangeAcomesBeforeB ⟨0, 1⟩ ⟨1, 2⟩ = true :=
  ⟨C21_rangeAcomesBeforeB_strict_total_order.1 ⟨0, 1⟩,
    by decide,
    C21_rangeAcomesBeforeB_strict_total_order.2.2.1 ⟨0, 1⟩ ⟨0, 2⟩ (by decide),
    by decide,
    C21_rangeAcomesBeforeB_strict_total_order.2.1 ⟨0, 1⟩ ⟨0, 2⟩ ⟨1, 2⟩ (by decide)
      (by decide)⟩

theorem shouldBeMerged_comm (a b : RowRange) (ha : a.isValid) (hb : b.isValid) :
    rangesShouldBeMerged a b = rangesShouldBeMerged b a := by
  rw [Bool.eq_iff_iff, shouldBeMerged_iff a b ha hb, shouldBeMerged_iff b a hb ha]
  omega

/-- C22: for valid ranges a and b that should be merged, mergeRanges(a, b) returns (its
assertions hold) the range [min(a.firstRow, b.firstRow), max(a.lastRow, b.lastRow)], this
range is valid, its rows are exactly the rows of a and the rows of b, and mergeRanges(b, a)
returns the same range. -/
theorem C22_mergeRanges_is_union_of_rows (a b : RowRange) (ha : a.isValid) (hb : b.isValid)
    (hm : rangesShouldBeMerged a b = true) :
    mergeRanges a b = some ⟨min a.firstRow b.firstRow, max a.lastRow b.lastRow⟩ ∧
    (⟨min a.firstRow b.firstRow, max a.lastRow b.lastRow⟩ : RowRange).isValid ∧
    (∀ x : Int,
      (⟨min a.firstRow b.firstRow, max a.lastRow b.lastRow⟩ : RowRange).contains x ↔
        a.contains x ∨ b.contains x) ∧
    mergeRanges b a = mergeRanges a b := by
  have hm2 : rangesShouldBeMerged b a = true := by
    rw [← shouldBeMerged_comm a b ha hb]
    exact hm
  have hmi := (shouldBeMerged_iff a b ha hb).1 hm
  have ha1 := (isValid_iff a).1 ha
  have hb1 := (isValid_iff b).1 hb
  have hbound : 0 ≤ min a.firstRow b.firstRow ∧
      min a.firstRow b.firstRow ≤ max a.lastRow b.lastRow := by
    constructor
    · exact le_min ha1.1 hb1.1
    · exact le_trans (min_le_left _ _) (le_trans ha1.2 (le_max_left _ _))
  have h1 : mergeRanges a b = some ⟨min a.firstRow b.firstRow, max a.lastRow b.lastRow⟩ := by
    unfold mergeRanges
    simp only [cassert, hm, if_true, Option.bind_eq_bind, Option.some_bind]
    exact fromFirstAndLastRow_eq _ _ hbound
  have h2 : mergeRanges b a = some ⟨min a.firstRow b.firstRow, max a.lastRow b.lastRow⟩ := by
    unfold mergeRanges
    simp only [cassert, hm2, if_true, Option.bind_eq_bind, Option.some_bind]
    rw [min_comm b.firstRow, max_comm b.lastRow]
    exact fromFirstAndLastRow_eq _ _ hbound
  refine ⟨h1, (isValid_iff _).2 hbound, ?_, by rw [h1, h2]⟩
  intro x
  unfold RowRange.contains
  simp only [min_le_iff, le_max_iff]
  omega

theorem C22_witness :
    (⟨0, 1⟩ : RowRange).isValid ∧ (⟨2, 3⟩ : RowRange).isValid ∧
    rangesShouldBeMerged ⟨0, 1⟩ ⟨2, 3⟩ = true ∧
    mergeRanges ⟨0, 1⟩ ⟨2, 3⟩ = some ⟨0, 3⟩ ∧ mergeRanges ⟨2, 3⟩ ⟨0, 1⟩ = some ⟨0, 3⟩ := by
  have h := C22_mergeRanges_is_union_of_rows ⟨0, 1⟩ ⟨2, 3⟩ (by decide) (by decide)
    (by decide)
  exact ⟨by decide, by decide, by decide, h.1.trans (by decide),
    (h.2.2.2.trans h.1).trans (by decide)⟩

/-! ## rangesAreAdjacent and rowCount at the largest int -/

theorem intSub_eq (x y : Int) (h1 : intMin ≤ x - y) (h2 : x - y ≤ intMax) :
    intSub x y = some (x - y) := by
  unfold intSub
  rw [if_pos ⟨h1, h2⟩]

theorem rangesAreAdjacent_iff (a b : RowRange) :
    rangesAreAdjacent a b = true ↔
      (a.lastRow + 1 = b.firstRow ∨ b.lastRow + 1 = a.firstRow) := by
  unfold rangesAreAdjacent
  split_ifs <;> simp <;> omega

/-- C23, the input on which the claim as stated fails: the valid ranges [5, INT_MAX] and
[0, 4], of which the first ends at the largest int; rangesAreAdjacent returns true on
them, in both orders, with no overflow. -/
theorem C23_adjacent_to_range_ending_at_intMax :
    (⟨5, intMax⟩ : RowRange).isValid ∧ (⟨0, 4⟩ : RowRange).isValid ∧
    (⟨5, intMax⟩ : RowRange).fitsInt ∧ (⟨0, 4⟩ : RowRange).fitsInt ∧
    rangesAreAdjacent ⟨5, intMax⟩ ⟨0, 4⟩ = true ∧
    rangesAreAdjacent ⟨0, 4⟩ ⟨5, intMax⟩ = true ∧
    rangesAreAdjacentChecked ⟨5, intMax⟩ ⟨0, 4⟩ = some true ∧
    rangesAreAdjacentChecked ⟨0, 4⟩ ⟨5, intMax⟩ = some true := by
  decide

/-- C23, amended: on valid ranges holding int values no subtraction of rangesAreAdjacent
overflows; it returns true iff one range begins one row after the last row of the other.
When range a ends at the largest int, it returns true, in both orders, iff b ends one
row before the first row of a, and false otherwise: in particular when b also ends at
the largest int, and when b begins at or after the first row of a. -/
theorem C23_rangesAreAdjacent_no_overflow_and_at_intMax (a b : RowRange)
    (ha : a.isValid) (hb : b.isValid) (hia : a.fitsInt) (hib : b.fitsInt) :
    rangesAreAdjacentChecked a b = some (rangesAreAdjacent a b) ∧
    (rangesAreAdjacent a b = true ↔
      (a.lastRow + 1 = b.firstRow ∨ b.lastRow + 1 = a.firstRow)) ∧
    (a.lastRow = intMax →
      (rangesAreAdjacent a b = true ↔ b.lastRow + 1 = a.firstRow) ∧
      (rangesAreAdjacent b a = true ↔ b.lastRow + 1 = a.firstRow) ∧
      (b.lastRow = intMax → rangesAreAdjacent a b = false ∧ rangesAreAdjacent b a = false) ∧
      (a.firstRow ≤ b.firstRow →
        rangesAreAdjacent a b = false ∧ rangesAreAdjacent b a = false)) := by
  rw [isValid_iff] at ha hb
  obtain ⟨ha1, ha2, ha3, ha4⟩ := hia
  obtain ⟨hb1, hb2, hb3, hb4⟩ := hib
  have hi : intMin = -2147483648 := rfl
  have hx : intMax = 2147483647 := rfl
  refine ⟨?_, rangesAreAdjacent_iff a b, ?_⟩
  · unfold rangesAreAdjacentChecked rangesAreAdjacent
    rw [intSub_eq b.firstRow 1 (by omega) (by omega),
      intSub_eq a.firstRow 1 (by omega) (by omega)]
    simp only [Option.bind_eq_bind, Option.some_bind]
    split_ifs <;> rfl
  · intro hmax
    have e1 : rangesAreAdjacent a b = true ↔ b.lastRow + 1 = a.firstRow := by
      rw [rangesAreAdjacent_iff]; omega
    have e2 : rangesAreAdjacent b a = true ↔ b.lastRow + 1 = a.firstRow := by
      rw [rangesAreAdjacent_iff]; omega
    refine ⟨e1, e2, ?_, ?_⟩
    · intro hbmax
      rw [← Bool.not_eq_true, ← Bool.not_eq_true, e1, e2]
      omega
    · intro hle
      rw [← Bool.not_eq_true, ← Bool.not_eq_true, e1, e2]
      omega

theorem C23_witness :
    (⟨100, intMax⟩ : RowRange).isValid ∧ (⟨1000, 1050⟩ : RowRange).isValid ∧
    (⟨100, intMax⟩ : RowRange).fitsInt ∧ (⟨1000, 1050⟩ : RowRange).fitsInt ∧
    rangesAreAdjacentChecked ⟨100, intMax⟩ ⟨1000, 1050⟩ = some false ∧
    rangesAreAdjacent ⟨100, intMax⟩ ⟨1000, 1050⟩ = false ∧
    rangesAreAdjacent ⟨1000, 1050⟩ ⟨100, intMax⟩ = false := by
  have h := C23_rangesAreAdjacent_no_overflow_and_at_intMax ⟨100, intMax⟩ ⟨1000, 1050⟩
    (by decide) (by decide) (by decide) (by decide)
  have h2 := (h.2.2 rfl).2.2.2 (by decide)
  exact ⟨by decide, by decide, by decide, by decide, by rw [h.1, h2.1], h2.1, h2.2⟩

/-- C24, the input on which it fails: the valid range [0, INT_MAX]. The number of its
rows, lastRow - firstRow + 1, is above the largest int; the subtraction is made without
overflow but the addition of 1 overflows, and with the wrap around of 32 bits rowCount()
returns the smallest int, which is not at least 1. On every other valid range holding
int values rowCount() returns lastRow - firstRow + 1, which is at least 1 and is the
number of its rows. -/
theorem C24_rowCount_overflows_on_the_range_of_all_rows :
    (⟨0, intMax⟩ : RowRange).isValid ∧ (⟨0, intMax⟩ : RowRange).fitsInt ∧
    intMax < (⟨0, intMax⟩ : RowRange).lastRow - (⟨0, intMax⟩ : RowRange).firstRow + 1 ∧
    intSub (⟨0, intMax⟩ : RowRange).lastRow (⟨0, intMax⟩ : RowRange).firstRow
      = some intMax ∧
    RowRange.rowCountChecked ⟨0, intMax⟩ = none ∧
    RowRange.rowCount ⟨0, intMax⟩ = intMin ∧
    RowRange.rowCount ⟨0, intMax⟩ < 1 ∧
    (∀ r : RowRange, r.isValid → r.fitsInt → r ≠ ⟨0, intMax⟩ →
      r.rowCountChecked = some (r.lastRow - r.firstRow + 1) ∧
      r.rowCount = r.lastRow - r.firstRow + 1 ∧ 1 ≤ r.rowCount ∧
      r.rowCount = (r.rows.length : Int)) := by
  refine ⟨by decide, by decide, by decide, by decide, by decide, by decide, by decide, ?_⟩
  intro r hv hi hne
  have hv1 := (isValid_iff r).1 hv
  obtain ⟨h1, h2, h3, h4⟩ := hi
  have hi : intMin = -2147483648 := rfl
  have hx : intMax = 2147483647 := rfl
  have hlt : r.lastRow - r.firstRow < intMax := by
    by_contra hcon
    apply hne
    have e1 : r.firstRow = 0 := by omega
    have e2 : r.lastRow = intMax := by omega
    cases r
    simp only at e1 e2
    rw [e1, e2]
  have hc := rowCount_eq r hv hlt
  refine ⟨?_, hc, ?_, ?_⟩
  · unfold RowRange.rowCountChecked intAdd
    rw [intSub_eq _ _ (by omega) (by omega)]
    simp only [Option.bind_eq_bind, Option.some_bind]
    rw [if_pos (by omega)]
  · rw [hc]; omega
  · rw [hc]
    have hlen : ∀ (n : Nat) (f : Int), (rowsFrom f n).length = n := by
      intro n
      induction n with
      | zero => intro f; rfl
      | succ n ih => intro f; simp [rowsFrom, ih]
    unfold RowRange.rows RowRange.size
    rw [hlen]
    omega

/-! ## The insertion point and the first element to merge -/

theorem findIdx_shouldBeMerged_split {A M B : List RowRange} {r : RowRange}
    (h : Split A M B r) :
    (A ++ (M ++ B)).findIdx (fun e => rangesShouldBeMerged e r) =
      if M = [] then (A ++ (M ++ B)).length else A.length := by
  rw [findIdx_append_of_none _ _ _ h.notMergedA]
  cases M with
  | nil =>
    rw [if_pos rfl, List.nil_append, List.findIdx_eq_length.2 h.notMergedB]
    simp
  | cons m1 M1 =>
    rw [if_neg (List.cons_ne_nil _ _), List.cons_append, List.findIdx_cons,
      h.touch m1 (by simp)]
    rfl

theorem findFirstElementToMerge_eq_findIdx (L : List RowRange) (r : RowRange)
    (hne : L ≠ []) (hv : allValid L) (hs : isSorted L = true)
    (hm : elementsAreNotMergeable L = some true) (hr : r.isValid) :
    findFirstElementToMerge L (findPotentialInsertionPoint L r) r
      = some (L.findIdx (fun e => rangesShouldBeMerged e r)) := by
  have hp := pairwise_of_checks L hv hs ((elementsAreNotMergeable_iff L).1 hm).2
  obtain ⟨A, M, B, hL, h⟩ := exists_split r hr L hv hp
  subst hL
  rw [findIdx_shouldBeMerged_split h]
  cases M with
  | nil =>
    rw [if_pos rfl]
    refine findFirstElementToMerge_none _ _ r hne hs ?_ (List.findIdx_le_length _)
    intro e he
    rcases List.mem_append.1 he with he | he
    · exact h.notMergedA e he
    · exact h.notMergedB e (by simpa using he)
  | cons m1 M1 =>
    rw [if_neg (List.cons_ne_nil _ _)]
    have hip : findPotentialInsertionPoint (A ++ (m1 :: M1 ++ B)) r = A.length ∨
        findPotentialInsertionPoint (A ++ (m1 :: M1 ++ B)) r = A.length + 1 := by
      rcases h.insertionPoint.2 with h1 | h1
      · exact Or.inl h1
      · exact Or.inr h1.2
    exact findFirstElementToMerge_some A (M1 ++ B) m1 r _ hs h.notMergedA
      (h.touch m1 (by simp)) hip

/-- C25: on a non-empty list of valid ranges that passes isSorted and
elementsAreNotMergeable, with a valid range r and the insertion point that
findPotentialInsertionPoint gives, findFirstElementToMerge returns (its assertions hold)
the position of the first element of the whole list that should be merged with r, the
end when there is none; it returns the end iff no element of the list should be merged
with r, and otherwise the element at the position returned should be merged with r and
no element before it should. -/
theorem C25_findFirstElementToMerge_finds_lowest_mergeable (L : List RowRange)
    (r : RowRange) (hne : L ≠ []) (hv : allValid L) (hs : isSorted L = true)
    (hm : elementsAreNotMergeable L = some true) (hr : r.isValid) :
    findFirstElementToMerge L (findPotentialInsertionPoint L r) r
      = some (L.findIdx (fun e => rangesShouldBeMerged e r)) ∧
    (findFirstElementToMerge L (findPotentialInsertionPoint L r) r = some L.length ↔
      ∀ e ∈ L, rangesShouldBeMerged e r = false) ∧
    (∀ (p : Nat) (hp : p < L.length),
      findFirstElementToMerge L (findPotentialInsertionPoint L r) r = some p →
      rangesShouldBeMerged (L.get ⟨p, hp⟩) r = true ∧
      ∀ (i : Nat) (hi : i < p),
        rangesShouldBeMerged (L.get ⟨i, lt_trans hi hp⟩) r = false) := by
  have hf := findFirstElementToMerge_eq_findIdx L r hne hv hs hm hr
  refine ⟨hf, ?_, ?_⟩
  · rw [hf, Option.some.injEq]
    exact List.findIdx_eq_length
  · intro p hp hres
    rw [hf, Option.some.injEq] at hres
    have := (List.findIdx_eq hp).1 hres
    exact ⟨this.1, fun i hi => this.2 i hi⟩

theorem C25_witness :
    findFirstElementToMerge [⟨0, 1⟩, ⟨3, 4⟩, ⟨6, 7⟩] 2 ⟨4, 7⟩ = some 1 ∧
    findPotentialInsertionPoint [⟨0, 1⟩, ⟨3, 4⟩, ⟨6, 7⟩] ⟨4, 7⟩ = 2 ∧
    rangesShouldBeMerged ⟨0, 1⟩ ⟨4, 7⟩ = false ∧
    rangesShouldBeMerged ⟨3, 4⟩ ⟨4, 7⟩ = true := by
  have h := C25_findFirstElementToMerge_finds_lowest_mergeable [⟨0, 1⟩, ⟨3, 4⟩, ⟨6, 7⟩]
    ⟨4, 7⟩ (by decide) (by decide) (by decide) (by decide) (by decide)
  have h2 := h.2.2 1 (by decide) (by decide)
  exact ⟨by decide, by decide, h2.2 0 (by decide), h2.1⟩

/-- C27: for every list of ranges and every range r, findPotentialInsertionPoint returns
a position of the list or its end; the element at the position returned, if any, is one
that r comes before; r comes before no element at a position below it; the end is
returned iff r comes before no element of the list, in particular on the empty list. -/
theorem C27_findPotentialInsertionPoint_is_first_element_after_range :
    ∀ (l : List RowRange) (r : RowRange),
    findPotentialInsertionPoint l r ≤ l.length ∧
    (∀ h : findPotentialInsertionPoint l r < l.length,
      rangeAcomesBeforeB r (l.get ⟨findPotentialInsertionPoint l r, h⟩) = true) ∧
    (∀ (i : Nat) (h : i < l.length), i < findPotentialInsertionPoint l r →
      rangeAcomesBeforeB r (l.get ⟨i, h⟩) = false) ∧
    (findPotentialInsertionPoint l r = l.length ↔
      ∀ R ∈ l, rangeAcomesBeforeB r R = false) ∧
    findPotentialInsertionPoint [] r = 0 := by
  intro l r
  unfold findPotentialInsertionPoint
  refine ⟨List.findIdx_le_length _, ?_, ?_, List.findIdx_eq_length, rfl⟩
  · intro h
    exact List.findIdx_getElem (p := fun currentRange => rangeAcomesBeforeB r currentRange)
  · intro i h hi
    exact List.not_of_lt_findIdx
      (p := fun currentRange => rangeAcomesBeforeB r currentRange) hi

theorem C27_witness :
    findPotentialInsertionPoint [⟨0, 1⟩, ⟨6, 8⟩] ⟨3, 4⟩ = 1 ∧
    rangeAcomesBeforeB ⟨3, 4⟩ ⟨6, 8⟩ = true ∧
    rangeAcomesBeforeB ⟨3, 4⟩ ⟨0, 1⟩ = false ∧
    findPotentialInsertionPoint [⟨0, 1⟩] ⟨0, 1⟩ = 1 ∧
    findPotentialInsertionPoint [] ⟨0, 1⟩ = 0 := by
  have h := C27_findPotentialInsertionPoint_is_first_element_after_range
    [⟨0, 1⟩, ⟨6, 8⟩] ⟨3, 4⟩
  have h0 := C27_findPotentialInsertionPoint_is_first_element_after_range [] ⟨0, 1⟩
  exact ⟨by decide, h.2.1 (by decide), h.2.2.1 0 (by decide) (by decide), by decide,
    h0.2.2.2.2⟩

/-! ## The insertion point and the elements equal to the range -/

theorem isSorted_pairwise : ∀ l : List RowRange, isSorted l = true →
    l.Pairwise (fun a b => rangeAcomesBeforeB b a = false)
  | [], _ => List.Pairwise.nil
  | [_], _ => List.pairwise_singleton _ _
  | a :: b :: rest, h => by
    have hc := (isSorted_cons_cons a b rest).1 h
    have ih := isSorted_pairwise (b :: rest) hc.2
    refine List.pairwise_cons.2 ⟨?_, ih⟩
    intro x hx
    rcases List.mem_cons.1 hx with hx | hx
    · rw [hx]; exact hc.1
    · have hxb := (List.pairwise_cons.1 ih).1 x hx
      have hba := hc.1
      rw [comesBefore_false_iff] at hxb hba ⊢
      omega

theorem findIdx_congr_mem {α : Type} (p q : α → Bool) : ∀ l : List α,
    (∀ x ∈ l, p x = q x) → l.findIdx p = l.findIdx q
  | [], _ => rfl
  | x :: t, h => by
    rw [List.findIdx_cons, List.findIdx_cons, h x (by simp),
      findIdx_congr_mem p q t (fun y hy => h y (List.mem_cons_of_mem _ hy))]

theorem eq_of_not_comesBefore (a b : RowRange) (h1 : rangeAcomesBeforeB a b = false)
    (h2 : rangeAcomesBeforeB b a = false) : a = b := by
  rw [comesBefore_false_iff] at h1 h2
  cases a
  cases b
  simp only at h1 h2
  simp only [RowRange.mk.injEq]
  omega

/-- C28, the input on which the claim as stated fails: the sorted list {[0,1]} and the
range [0,1]. The first element that does not come before the range is the element at
position 0, findPotentialInsertionPoint returns the end, position 1. -/
theorem C28_insertion_point_is_after_an_equal_element :
    isSorted [⟨0, 1⟩] = true ∧ allValid [⟨0, 1⟩] ∧ (⟨0, 1⟩ : RowRange).isValid ∧
    rangeAcomesBeforeB ⟨0, 1⟩ ⟨0, 1⟩ = false ∧
    ([⟨0, 1⟩] : List RowRange).findIdx (fun R => !rangeAcomesBeforeB R ⟨0, 1⟩) = 0 ∧
    findPotentialInsertionPoint [⟨0, 1⟩] ⟨0, 1⟩ = 1 := by
  decide

/-- C28, amended: on a sorted list, findPotentialInsertionPoint returns a position at or
after the first element that does not come before the range r; the elements between the
two positions are equal to r (they are skipped); the two positions are the same when no
element of the list is equal to r; and the end is returned iff every element comes
before r or is equal to r. -/
theorem C28_findPotentialInsertionPoint_skips_elements_equal_to_range (l : List RowRange)
    (r : RowRange) (hs : isSorted l = true) :
    l.findIdx (fun R => !rangeAcomesBeforeB R r) ≤ findPotentialInsertionPoint l r ∧
    (∀ (i : Nat) (h : i < l.length), l.findIdx (fun R => !rangeAcomesBeforeB R r) ≤ i →
      i < findPotentialInsertionPoint l r → l.get ⟨i, h⟩ = r) ∧
    (r ∉ l →
      findPotentialInsertionPoint l r = l.findIdx (fun R => !rangeAcomesBeforeB R r)) ∧
    (findPotentialInsertionPoint l r = l.length ↔
      ∀ R ∈ l, rangeAcomesBeforeB R r = true ∨ R = r) := by
  have hpw := List.pairwise_iff_getElem.1 (isSorted_pairwise l hs)
  refine ⟨?_, ?_, ?_, ?_⟩
  · by_contra hcon
    have hlt : findPotentialInsertionPoint l r
        < l.findIdx (fun R => !rangeAcomesBeforeB R r) := by omega
    have hpl : findPotentialInsertionPoint l r < l.length :=
      lt_of_lt_of_le hlt (List.findIdx_le_length _)
    have h1 : rangeAcomesBeforeB r (l[findPotentialInsertionPoint l r]) = true :=
      List.findIdx_getElem (p := fun currentRange => rangeAcomesBeforeB r currentRange)
        (w := hpl)
    have h2 := List.not_of_lt_findIdx (p := fun R => !rangeAcomesBeforeB R r) hlt
    simp only [Bool.not_eq_false'] at h2
    rw [comesBefore_iff] at h1 h2
    omega
  · intro i h hlow hi
    have h1 : rangeAcomesBeforeB r l[i] = false :=
      List.not_of_lt_findIdx (p := fun currentRange => rangeAcomesBeforeB r currentRange) hi
    have hlowlt : l.findIdx (fun R => !rangeAcomesBeforeB R r) < l.length :=
      lt_of_le_of_lt hlow h
    have h3 : rangeAcomesBeforeB (l[l.findIdx (fun R => !rangeAcomesBeforeB R r)]) r
        = false := by
      have := List.findIdx_getElem (p := fun R => !rangeAcomesBeforeB R r) (w := hlowlt)
      simpa using this
    have h2 : rangeAcomesBeforeB l[i] r = false := by
      rcases Nat.eq_or_lt_of_le hlow with he | hlt
      · simp only [← he]
        exact h3
      · have h4 := hpw _ i hlowlt h hlt
        rw [comesBefore_false_iff] at h3 h4 ⊢
        omega
    exact eq_of_not_comesBefore _ _ h2 h1
  · intro hmem
    unfold findPotentialInsertionPoint
    apply findIdx_congr_mem
    intro R hR
    have hne : R ≠ r := fun e => hmem (e ▸ hR)
    have hne1 : ¬ (R.firstRow = r.firstRow ∧ R.lastRow = r.lastRow) := by
      intro e
      apply hne
      cases R
      cases r
      simp only at e
      simp only [RowRange.mk.injEq]
      exact e
    rw [Bool.eq_iff_iff]
    simp only [Bool.not_eq_true', comesBefore_iff, comesBefore_false_iff]
    omega
  · unfold findPotentialInsertionPoint
    rw [List.findIdx_eq_length]
    constructor
    · intro hall R hR
      have h1 := hall R hR
      by_cases h2 : rangeAcomesBeforeB R r = true
      · exact Or.inl h2
      · exact Or.inr (eq_of_not_comesBefore _ _ (by simpa using h2) h1)
    · intro hall R hR
      rcases hall R hR with h1 | h1
      · rw [comesBefore_iff] at h1
        rw [comesBefore_false_iff]
        omega
      · rw [h1, comesBefore_false_iff]
        omega

theorem C28_witness :
    isSorted [⟨0, 1⟩, ⟨3, 4⟩, ⟨6, 7⟩] = true ∧
    (⟨2, 7⟩ : RowRange) ∉ ([⟨0, 1⟩, ⟨3, 4⟩, ⟨6, 7⟩] : List RowRange) ∧
    findPotentialInsertionPoint [⟨0, 1⟩, ⟨3, 4⟩, ⟨6, 7⟩] ⟨2, 7⟩ = 1 ∧
    ([⟨0, 1⟩, ⟨3, 4⟩, ⟨6, 7⟩] : List RowRange).findIdx
      (fun R => !rangeAcomesBeforeB R ⟨2, 7⟩) = 1 := by
  have h := C28_findPotentialInsertionPoint_skips_elements_equal_to_range
    [⟨0, 1⟩, ⟨3, 4⟩, ⟨6, 7⟩] ⟨2, 7⟩ (by decide)
  have h3 := h.2.2.1 (by decide)
  exact ⟨by decide, by decide, by decide, h3.symm.trans (by decide)⟩

/-! ## What mergeRangesUntil returns -/

theorem stdMoveLoop_length {α : Type} : ∀ (n : Nat) (l : List α) (first dFirst : Nat),
    ((stdMoveLoop n l first dFirst).1).length = l.length
  | 0, _, _, _ => rfl
  | n + 1, l, first, dFirst => by
    unfold stdMoveLoop
    cases h : l[first]? with
    | none => rfl
    | some x =>
      simp only []
      rw [stdMoveLoop_length n (l.set dFirst x) (first + 1) (dFirst + 1), List.length_set]

/-- On a run m1 :: M of elements to merge followed by elements B that are not:
mergeRangesUntil returns, the position returned is the end when the run is m1 alone and
in any case leaves one element for the run and the elements of B. -/
theorem mergeRangesUntil_run_exact (m1 : RowRange) (M B : List RowRange) (r : RowRange)
    (hv : allValid (m1 :: (M ++ B))) (hr : r.isValid)
    (hp : (m1 :: (M ++ B)).Pairwise gapBefore)
    (hm1 : rangesShouldBeMerged m1 r = true)
    (hM : ∀ e ∈ M, rangesShouldBeMerged e r = true)
    (hB : ∀ e ∈ B, rangesShouldBeMerged e r = false) :
    ∃ l1, mergeRangesUntil (m1 :: (M ++ B)) r = some (l1, B.length + 1) ∧
      l1.length = M.length + B.length + 1 ∧
      l1.take (B.length + 1) = mergedRun m1 M r :: B ∧
      (M = [] → l1 = mergedRun m1 [] r :: B) := by
  have hc := checks_of_pairwise _ hv hp
  have hnm := (elementsAreNotMergeable_iff _).2 hc
  have hlast := findLastElementToMerge_run m1 M B r hc.1 hm1 hM hB
  have hvm1 : m1.isValid := hv m1 (by simp)
  have hvl : ((m1 :: M).getLast (List.cons_ne_nil _ _)).isValid :=
    hv _ (by
      have := List.getLast_mem (List.cons_ne_nil m1 M)
      rw [← List.cons_append]
      exact List.mem_append_left _ this)
  rw [isValid_iff] at hvm1 hvl hr
  unfold mergeRangesUntil
  simp only [cassert, hc.1, hnm, hlast, hm1, List.length_cons, List.length_append,
    List.getElem?_cons_zero, if_true, Option.some_bind, Option.bind_eq_bind]
  cases M with
  | nil =>
    have hmr : mergeRanges m1 r = some (mergedRun m1 [] r) := by
      unfold mergeRanges
      simp only [cassert, hm1]
      simp only [mergedRun, List.getLast_singleton, min_self, max_self]
      exact fromFirstAndLastRow_eq _ _ (by omega)
    refine ⟨mergedRun m1 [] r :: B, ?_, by simp, by simp, fun _ => rfl⟩
    simp [hmr]
  | cons m2 M2 =>
    have hg := getElem?_cons_append_getLast m1 (m2 :: M2) B
    have hmr : mergeRanges3 m1 ((m1 :: m2 :: M2).getLast (List.cons_ne_nil _ _)) r
        = some (mergedRun m1 (m2 :: M2) r) := by
      unfold mergeRanges3
      exact fromFirstAndLastRow_eq _ _ (by omega)
    have hmv := stdMove_spec (mergedRun m1 (m2 :: M2) r :: (m2 :: (M2 ++ B)))
      (M2.length + 1 + 1) 1 (by omega) (by simp)
    have hlen := stdMoveLoop_length
      ((mergedRun m1 (m2 :: M2) r :: (m2 :: (M2 ++ B))).length - (M2.length + 1 + 1))
      (mergedRun m1 (m2 :: M2) r :: (m2 :: (M2 ++ B))) (M2.length + 1 + 1) 1
    simp only [List.cons_append, List.length_cons] at hg
    simp only [List.length_cons, List.cons_append, hg, hmr, List.set_cons_zero,
      List.length_append, Option.some_bind, Nat.add_one_ne_zero, if_false, bne_iff_ne, ne_eq]
    rw [if_pos (by omega)]
    simp only [stdMove, List.length_cons, List.length_append] at hmv hlen
    have h2 : (stdMove (mergedRun m1 (m2 :: M2) r :: m2 :: (M2 ++ B)) (M2.length + 1 + 1)
        (M2.length + B.length + 1 + 1) 1).2 = B.length + 1 := by
      simp only [stdMove]
      rw [hmv.1]
      omega
    refine ⟨(stdMove (mergedRun m1 (m2 :: M2) r :: m2 :: (M2 ++ B)) (M2.length + 1 + 1)
        (M2.length + B.length + 1 + 1) 1).1, ?_, ?_, ?_, ?_⟩
    · rw [← h2]
      rfl
    · simp only [stdMove]
      rw [hlen]
      omega
    · simp only [stdMove]
      have e : B.length + 1 = 1 + (M2.length + B.length + 1 + 1 - (M2.length + 1 + 1)) := by
        omega
      rw [e, hmv.2]
      simp
    · intro h
      exact absurd h (List.cons_ne_nil _ _)

/-- In a list of valid, pairwise separated ranges whose first element is to merge with a
valid range r, no element after the run of elements to merge is to merge with r. -/
theorem dropWhile_not_merged (first : RowRange) (rest : List RowRange) (r : RowRange)
    (hv : allValid (first :: rest)) (hr : r.isValid)
    (hp : (first :: rest).Pairwise gapBefore)
    (hf : rangesShouldBeMerged first r = true) :
    ∀ e ∈ rest.dropWhile (fun e => rangesShouldBeMerged e r),
      rangesShouldBeMerged e r = false := by
  intro e he
  have hsub : ∀ x ∈ rest.dropWhile (fun e => rangesShouldBeMerged e r), x ∈ rest :=
    fun x hx => (List.dropWhile_sublist _).subset hx
  have hne : rest.dropWhile (fun e => rangesShouldBeMerged e r) ≠ [] :=
    List.ne_nil_of_mem he
  have hhead := List.head_dropWhile_not (fun e => rangesShouldBeMerged e r) rest hne
  have hhm := List.head_mem hne
  have hvf := hv first (by simp)
  have hvb := hv _ (List.mem_cons_of_mem _ (hsub _ hhm))
  have hve := hv e (List.mem_cons_of_mem _ (hsub e he))
  have hgf := (List.pairwise_cons.1 hp).1 _ (hsub _ hhm)
  have hpd : (rest.dropWhile (fun e => rangesShouldBeMerged e r)).Pairwise gapBefore :=
    (List.pairwise_cons.1 hp).2.sublist (List.dropWhile_sublist _)
  have hfm := (shouldBeMerged_iff first r hvf hr).1 hf
  have hb := (shouldBeMerged_false_iff _ r hvb hr).1 hhead
  rw [shouldBeMerged_false_iff e r hve hr]
  have hvb1 := (isValid_iff _).1 hvb
  have hve1 := (isValid_iff _).1 hve
  unfold gapBefore at hb hgf ⊢
  have hcase : e = (rest.dropWhile (fun e => rangesShouldBeMerged e r)).head hne ∨
      gapBefore ((rest.dropWhile (fun e => rangesShouldBeMerged e r)).head hne) e := by
    generalize rest.dropWhile (fun e => rangesShouldBeMerged e r) = D at hne he hpd
    cases D with
    | nil => exact absurd rfl hne
    | cons d D1 =>
      rcases List.mem_cons.1 he with h | h
      · exact Or.inl h
      · exact Or.inr ((List.pairwise_cons.1 hpd).1 e h)
  rcases hcase with h | h
  · rw [← h] at hb hgf hvb1
    omega
  · unfold gapBefore at h
    omega

/-- C26: for a non-empty list first :: rest of valid ranges that passes isSorted and
elementsAreNotMergeable and whose first element should be merged with the valid range r,
with k the number of consecutive elements from first on that should be merged with r and
lastOfRun the last of them: k is at least 1, mergeRangesUntil returns (no assertion
fails) the position length - (k - 1), the container keeps its length, its valid part is
[min(first.firstRow, r.firstRow), max(lastOfRun.lastRow, r.lastRow)] followed by the
elements that followed the run, unchanged and in order; when k = 1 the position is the
end and only the first element has changed. -/
theorem C26_mergeRangesUntil_replaces_run_and_shifts_tail (first : RowRange)
    (rest : List RowRange) (r : RowRange)
    (hv : allValid (first :: rest)) (hr : r.isValid)
    (hs : isSorted (first :: rest) = true)
    (hm : elementsAreNotMergeable (first :: rest) = some true)
    (hf : rangesShouldBeMerged first r = true) :
    ∃ (k : Nat) (lastOfRun : RowRange) (l1 : List RowRange),
      k = ((first :: rest).takeWhile (fun e => rangesShouldBeMerged e r)).length ∧
      1 ≤ k ∧ k ≤ (first :: rest).length ∧
      (first :: rest)[k - 1]? = some lastOfRun ∧
      mergeRangesUntil (first :: rest) r = some (l1, (first :: rest).length - (k - 1)) ∧
      l1.length = (first :: rest).length ∧
      l1.take ((first :: rest).length - (k - 1)) =
        ⟨min first.firstRow r.firstRow, max lastOfRun.lastRow r.lastRow⟩
          :: (first :: rest).drop k ∧
      (k = 1 → lastOfRun = first ∧
        l1 = ⟨min first.firstRow r.firstRow, max first.lastRow r.lastRow⟩ :: rest) := by
  have hp := pairwise_of_checks _ hv hs ((elementsAreNotMergeable_iff _).1 hm).2
  have hsplit := List.takeWhile_append_dropWhile (fun e => rangesShouldBeMerged e r) rest
  have hB := dropWhile_not_merged first rest r hv hr hp hf
  have hM : ∀ e ∈ rest.takeWhile (fun e => rangesShouldBeMerged e r),
      rangesShouldBeMerged e r = true := fun e he =>
    List.mem_takeWhile_imp (p := fun e => rangesShouldBeMerged e r) he
  generalize rest.takeWhile (fun e => rangesShouldBeMerged e r) = M at hsplit hM
  generalize rest.dropWhile (fun e => rangesShouldBeMerged e r) = B at hsplit hB
  subst hsplit
  have htw : (first :: (M ++ B)).takeWhile (fun e => rangesShouldBeMerged e r)
      = first :: M := by
    rw [List.takeWhile_cons, if_pos hf]
    congr 1
    cases B with
    | nil =>
      rw [List.append_nil]
      exact List.takeWhile_eq_self_iff.2 hM
    | cons b B1 =>
      rw [List.takeWhile_append_of_pos hM, List.takeWhile_cons,
        if_neg (by rw [hB b (by simp)]; simp), List.append_nil]
  obtain ⟨l1, h1, h2, h3, h4⟩ := mergeRangesUntil_run_exact first M B r hv hr hp hf hM hB
  have hvM : allValid (first :: M) := fun e he => hv e (by
    rcases List.mem_cons.1 he with h | h
    · rw [h]; simp
    · exact List.mem_cons_of_mem _ (List.mem_append_left _ h))
  have hpM : (first :: M).Pairwise gapBefore := by
    have := hp
    rw [← List.cons_append] at this
    exact (List.pairwise_append.1 this).1
  have hb := mergedRun_bounds first M r hvM hpM
  have hmr : mergedRun first M r =
      ⟨min first.firstRow r.firstRow,
        max ((first :: M).getLast (List.cons_ne_nil _ _)).lastRow r.lastRow⟩ := by
    generalize mergedRun first M r = x at hb
    cases x
    simp only at hb
    rw [hb.1, hb.2]
  have hlen : (first :: (M ++ B)).length - (M.length + 1 - 1) = B.length + 1 := by
    simp only [List.length_cons, List.length_append]
    omega
  refine ⟨M.length + 1, (first :: M).getLast (List.cons_ne_nil _ _), l1, ?_, by omega,
    ?_, ?_, ?_, ?_, ?_, ?_⟩
  · rw [htw]; rfl
  · simp only [List.length_cons, List.length_append]; omega
  · have := getElem?_cons_append_getLast first M B
    simpa using this
  · rw [hlen]; exact h1
  · rw [h2]; simp only [List.length_cons, List.length_append]
  · rw [hlen, h3, hmr]
    simp
  · intro hk
    have hMnil : M = [] := List.length_eq_zero.1 (by omega)
    subst hMnil
    refine ⟨rfl, ?_⟩
    rw [h4 rfl, hmr]
    rfl

theorem C26_witness :
    mergeRangesUntil [⟨0, 1⟩, ⟨3, 4⟩, ⟨6, 7⟩, ⟨9, 10⟩] ⟨0, 4⟩
      = some ([⟨0, 4⟩, ⟨6, 7⟩, ⟨9, 10⟩, ⟨9, 10⟩], 3) ∧
    ∃ (k : Nat) (lastOfRun : RowRange) (l1 : List RowRange),
      k = 2 ∧ lastOfRun = ⟨3, 4⟩ ∧
      mergeRangesUntil [⟨0, 1⟩, ⟨3, 4⟩, ⟨6, 7⟩, ⟨9, 10⟩] ⟨0, 4⟩ = some (l1, 4 - (k - 1)) ∧
      l1.take 3 = [⟨0, 4⟩, ⟨6, 7⟩, ⟨9, 10⟩] := by
  refine ⟨by decide, ?_⟩
  obtain ⟨k, lastOfRun, l1, hk, _, _, hl, hres, _, htake, _⟩ :=
    C26_mergeRangesUntil_replaces_run_and_shifts_tail ⟨0, 1⟩ [⟨3, 4⟩, ⟨6, 7⟩, ⟨9, 10⟩]
      ⟨0, 4⟩ (by decide) (by decide) (by decide) (by decide) (by decide)
  have hk2 : k = 2 := hk.trans (by decide)
  subst hk2
  have hl2 : lastOfRun = ⟨3, 4⟩ := by
    have : some lastOfRun = some (⟨3, 4⟩ : RowRange) := hl.symm.trans (by decide)
    exact Option.some.inj this
  subst hl2
  exact ⟨2, ⟨3, 4⟩, l1, rfl, rfl, hres, htake.trans (by decide)⟩

/-! ## The stored form and the empty selection -/

/-- C29: two lists of valid ranges that both pass isSorted and elementsAreNotMergeable
and cover the same rows are equal, element by element; and whatever valid ranges are
then added to each of them by addRange, in whatever order and number, the two lists held
afterwards are equal as soon as the ranges added cover the same rows. With both lists
empty: the list held by a RowRangeList depends only on the rows covered by the ranges
that were added. -/
theorem C29_stored_form_is_canonical (L1 L2 : List RowRange)
    (hv1 : allValid L1) (hs1 : isSorted L1 = true)
    (hm1 : elementsAreNotMergeable L1 = some true)
    (hv2 : allValid L2) (hs2 : isSorted L2 = true)
    (hm2 : elementsAreNotMergeable L2 = some true)
    (hc : ∀ x, covers L1 x ↔ covers L2 x) :
    L1 = L2 ∧
    ∀ xs ys : List RowRange, allValid xs → allValid ys →
      (∀ x, covers L1 x ∨ covers xs x ↔ covers L2 x ∨ covers ys x) →
      ∃ L, addRanges L1 xs = some L ∧ addRanges L2 ys = some L ∧
        allValid L ∧ isSorted L = true ∧ elementsAreNotMergeable L = some true ∧
        ∀ x, covers L x ↔ covers L1 x ∨ covers xs x := by
  refine ⟨eq_of_checks_of_covers_eq L1 L2 hv1 hs1 hm1 hv2 hs2 hm2 hc, ?_⟩
  intro xs ys hxs hys hxy
  obtain ⟨R1, a1, a2, a3, a4, a5⟩ := addRanges_spec xs L1 hv1 hs1 hm1 hxs
  obtain ⟨R2, b1, b2, b3, b4, b5⟩ := addRanges_spec ys L2 hv2 hs2 hm2 hys
  have hR : R1 = R2 := eq_of_checks_of_covers_eq R1 R2 a2 a3 a4 b2 b3 b4
    (fun x => by rw [a5, b5]; exact hxy x)
  exact ⟨R1, a1, by rw [b1, hR], a2, a3, a4, a5⟩

theorem C29_witness :
    ∃ L, addRanges [] [⟨3, 3⟩, ⟨0, 0⟩, ⟨2, 2⟩] = some L ∧
      addRanges [] [⟨2, 3⟩, ⟨0, 0⟩, ⟨3, 3⟩, ⟨2, 2⟩] = some L ∧ L = [⟨0, 0⟩, ⟨2, 3⟩] := by
  obtain ⟨L, h1, h2, _⟩ := (C29_stored_form_is_canonical [] [] (by decide) (by decide)
    (by decide) (by decide) (by decide) (by decide) (fun _ => Iff.rfl)).2
    [⟨3, 3⟩, ⟨0, 0⟩, ⟨2, 2⟩] [⟨2, 3⟩, ⟨0, 0⟩, ⟨3, 3⟩, ⟨2, 2⟩] (by decide) (by decide)
    (by
      intro x
      simp only [covers, RowRange.contains, List.mem_cons, List.mem_singleton,
        List.not_mem_nil, false_and, exists_false, false_or, exists_eq_or_imp, or_false,
        exists_eq_left]
      omega)
  have hL : L = [⟨0, 0⟩, ⟨2, 3⟩] := by
    have : some L = some ([⟨0, 0⟩, ⟨2, 3⟩] : List RowRange) := h1.symm.trans (by decide)
    exact Option.some.inj this
  exact ⟨L, h1, h2, hL⟩

/-- C30: for every value of the two flags, every current index and every selection held,
canSelect returns true on the empty selection; the empty selection is not a multiple
items selection, isRowChangeRequest(selection) returns false on it without reaching its
assertions, and select applies the empty selection. -/
theorem C30_canSelect_accepts_the_empty_selection :
    ∀ (qtIsValid : QItemSelectionRange → Bool)
      (qtSelect : List QItemSelectionRange → List QItemSelectionRange → Nat →
        List QItemSelectionRange)
      (self : ItemSelectionModel) (command : Nat),
    self.canSelect qtIsValid [] = some true ∧
    ItemSelectionModel.isMultipleItemsSelection qtIsValid [] = false ∧
    self.isRowChangeRequestSelection qtIsValid [] = some false ∧
    ItemSelectionModel.select qtIsValid qtSelect self [] command =
      some { self with selection := qtSelect self.selection [] command } := by
  intro qtIsValid qtSelect self command
  have h1 := canSelect_nil qtIsValid self
  refine ⟨h1, ?_, ?_, ?_⟩
  · simp [ItemSelectionModel.isMultipleItemsSelection]
  · simp [ItemSelectionModel.isRowChangeRequestSelection]
  · rw [select_of_canSelect qtIsValid qtSelect self [] command true h1]
    rfl

theorem C30_witness :
    ItemSelectionModel.canSelect (fun _ => true) ⟨⟨0, 0⟩, [⟨0, 0, 0, 0⟩], false, false⟩ []
      = some true ∧
    ItemSelectionModel.canSelect (fun _ => true) ⟨⟨0, 0⟩, [⟨0, 0, 0, 0⟩], true, false⟩ []
      = some true ∧
    ItemSelectionModel.select (fun _ => true) (fun _ s _ => s)
        ⟨⟨0, 0⟩, [⟨0, 0, 0, 0⟩], false, false⟩ [] ClearAndSelect
      = some ⟨⟨0, 0⟩, [], false, false⟩ :=
  ⟨(C30_canSelect_accepts_the_empty_selection (fun _ => true) (fun _ s _ => s)
      ⟨⟨0, 0⟩, [⟨0, 0, 0, 0⟩], false, false⟩ ClearAndSelect).1,
    (C30_canSelect_accepts_the_empty_selection (fun _ => true) (fun _ s _ => s)
      ⟨⟨0, 0⟩, [⟨0, 0, 0, 0⟩], true, false⟩ ClearAndSelect).1,
    (C30_canSelect_accepts_the_empty_selection (fun _ => true) (fun _ s _ => s)
      ⟨⟨0, 0⟩, [⟨0, 0, 0, 0⟩], false, false⟩ ClearAndSelect).2.2.2⟩

end Mdt.ItemModel

